import Mathlib

/-!
CMSIS-DSP radix-4 CFFT/CIFFT (f16) and CMSIS-RTOS2 RTX library definitions

Shallow embedding of
* `CMSIS/DSP/Source/TransformFunctions/arm_cfft_radix4_f16.c` (Cortex-M0 path,
  i.e. the `#else` branch of `#if defined (ARM_MATH_DSP)`), and
* `CMSIS/RTOS2/RTX/Source/rtx_lib.h` (inline handle conversions and prototypes).

Buffers are lists with checked indices, `uint32_t`/`uint16_t` arithmetic is `Nat`
arithmetic reduced modulo `2^32`/`2^16`, loops carry an iteration budget, and the
sample type `R` is any type with `+`, `-` and `*` (the `float16_t` operations, or
an exact field).
-/

namespace CmsisDsp

/-- Ways in which an embedded run can stop without a result. -/
inductive Fault
  /-- An access to `pSrc` outside the buffer. -/
  | srcRange
  /-- A read of `pCoef` outside the table. -/
  | coefRange
  /-- The iteration budget of a loop was used up. -/
  | budget
  deriving DecidableEq

/-- Reduction of a natural number to a `uint32_t` value. -/
def u32 (n : Nat) : Nat := n % 2 ^ 32

/-- Reduction of a natural number to a `uint16_t` value. -/
def u16 (n : Nat) : Nat := n % 2 ^ 16

/-- Subtraction `a - b` of `uint32_t` values. -/
def sub32 (a b : Nat) : Nat := (a + (2 ^ 32 - b % 2 ^ 32)) % 2 ^ 32

/-- Read `pSrc[i]`. -/
def readSrc {R : Type} (pSrc : List R) (i : Nat) : Except Fault R :=
  match pSrc[i]? with
  | some v => .ok v
  | none => .error .srcRange

/-- Store `pSrc[i] = v`. -/
def writeSrc {R : Type} (pSrc : List R) (i : Nat) (v : R) : Except Fault (List R) :=
  if i < pSrc.length then .ok (pSrc.set i v) else .error .srcRange

/-- Read `pCoef[i]`. -/
def readCoef {R : Type} (pCoef : List R) (i : Nat) : Except Fault R :=
  match pCoef[i]? with
  | some v => .ok v
  | none => .error .coefRange

/-- A `do { body } while (cond)` loop running at most `fuel` iterations. -/
def doWhile {σ : Type} (body : σ → Except Fault σ) (cond : σ → Bool) :
    Nat → σ → Except Fault σ
  | 0, _ => .error .budget
  | fuel + 1, s =>
    match body s with
    | .error e => .error e
    | .ok s' => if cond s' then doWhile body cond fuel s' else .ok s'

/-- A `for (...; cond; ...) { body }` loop (the update is part of `body`) running at
most `fuel` iterations. -/
def forLoop {σ : Type} (cond : σ → Bool) (body : σ → Except Fault σ) :
    Nat → σ → Except Fault σ
  | 0, s => if cond s then .error .budget else .ok s
  | fuel + 1, s =>
    if cond s then
      match body s with
      | .error e => .error e
      | .ok s' => forLoop cond body fuel s'
    else .ok s

/-- The six twiddle values `co1, si1, co2, si2, co3, si3` of one butterfly column. -/
structure Twiddle (R : Type) where
  co1 : R
  si1 : R
  co2 : R
  si2 : R
  co3 : R
  si3 : R

/-- Index calculation and reads of the coefficients (source lines 561-569 and
1086-1094): `ia2 = ia1 + ia1; ia3 = ia2 + ia1; co1 = pCoef[ia1 * 2U]; ...`. -/
def readTwiddle {R : Type} (pCoef : List R) (ia1 : Nat) : Except Fault (Twiddle R) := do
  let ia2 := u32 (ia1 + ia1)
  let ia3 := u32 (ia2 + ia1)
  let co1 ← readCoef pCoef (u32 (ia1 * 2))
  let si1 ← readCoef pCoef (u32 (u32 (ia1 * 2) + 1))
  let co2 ← readCoef pCoef (u32 (ia2 * 2))
  let si2 ← readCoef pCoef (u32 (u32 (ia2 * 2) + 1))
  let co3 ← readCoef pCoef (u32 (ia3 * 2))
  let si3 ← readCoef pCoef (u32 (u32 (ia3 * 2) + 1))
  pure { co1 := co1, si1 := si1, co2 := co2, si2 := si2, co3 := co3, si3 := si3 }

section Butterfly

variable {R : Type} [Add R] [Sub R] [Mul R]

/-- One forward butterfly: the body of the innermost loop of
`arm_radix4_butterfly_f16` (source lines 577-647), statement by statement. -/
def fwdButterfly (pSrc : List R) (n2 i0 : Nat) (w : Twiddle R) : Except Fault (List R) := do
  let i1 := u32 (i0 + n2)
  let i2 := u32 (i1 + n2)
  let i3 := u32 (i2 + n2)
  -- xa + xc
  let r1 := (← readSrc pSrc (u32 (2 * i0))) + (← readSrc pSrc (u32 (2 * i2)))
  -- xa - xc
  let r2 := (← readSrc pSrc (u32 (2 * i0))) - (← readSrc pSrc (u32 (2 * i2)))
  -- ya + yc
  let s1 := (← readSrc pSrc (u32 (u32 (2 * i0) + 1))) + (← readSrc pSrc (u32 (u32 (2 * i2) + 1)))
  -- ya - yc
  let s2 := (← readSrc pSrc (u32 (u32 (2 * i0) + 1))) - (← readSrc pSrc (u32 (u32 (2 * i2) + 1)))
  -- xb + xd
  let t1 := (← readSrc pSrc (u32 (2 * i1))) + (← readSrc pSrc (u32 (2 * i3)))
  -- xa' = xa + xb + xc + xd
  let pSrc ← writeSrc pSrc (u32 (2 * i0)) (r1 + t1)
  -- xa + xc -(xb + xd)
  let r1 := r1 - t1
  -- yb + yd
  let t2 := (← readSrc pSrc (u32 (u32 (2 * i1) + 1))) + (← readSrc pSrc (u32 (u32 (2 * i3) + 1)))
  -- ya' = ya + yb + yc + yd
  let pSrc ← writeSrc pSrc (u32 (u32 (2 * i0) + 1)) (s1 + t2)
  -- (ya + yc) - (yb + yd)
  let s1 := s1 - t2
  -- (yb - yd)
  let t1 := (← readSrc pSrc (u32 (u32 (2 * i1) + 1))) - (← readSrc pSrc (u32 (u32 (2 * i3) + 1)))
  -- (xb - xd)
  let t2 := (← readSrc pSrc (u32 (2 * i1))) - (← readSrc pSrc (u32 (2 * i3)))
  -- xc' = (xa-xb+xc-xd)co2 + (ya-yb+yc-yd)(si2)
  let pSrc ← writeSrc pSrc (u32 (2 * i1)) ((r1 * w.co2) + (s1 * w.si2))
  -- yc' = (ya-yb+yc-yd)co2 - (xa-xb+xc-xd)(si2)
  let pSrc ← writeSrc pSrc (u32 (u32 (2 * i1) + 1)) ((s1 * w.co2) - (r1 * w.si2))
  -- (xa - xc) + (yb - yd)
  let r1 := r2 + t1
  -- (xa - xc) - (yb - yd)
  let r2 := r2 - t1
  -- (ya - yc) - (xb - xd)
  let s1 := s2 - t2
  -- (ya - yc) + (xb - xd)
  let s2 := s2 + t2
  -- xb' = (xa+yb-xc-yd)co1 + (ya-xb-yc+xd)(si1)
  let pSrc ← writeSrc pSrc (u32 (2 * i2)) ((r1 * w.co1) + (s1 * w.si1))
  -- yb' = (ya-xb-yc+xd)co1 - (xa+yb-xc-yd)(si1)
  let pSrc ← writeSrc pSrc (u32 (u32 (2 * i2) + 1)) ((s1 * w.co1) - (r1 * w.si1))
  -- xd' = (xa-yb-xc+yd)co3 + (ya+xb-yc-xd)(si3)
  let pSrc ← writeSrc pSrc (u32 (2 * i3)) ((r2 * w.co3) + (s2 * w.si3))
  -- yd' = (ya+xb-yc-xd)co3 - (xa-yb-xc+yd)(si3)
  writeSrc pSrc (u32 (u32 (2 * i3) + 1)) ((s2 * w.co3) - (r2 * w.si3))

/-- One inverse butterfly of a non-final stage: the body of the innermost loop of
`arm_radix4_butterfly_inverse_f16` (source lines 1102-1172). -/
def invButterfly (pSrc : List R) (n2 i0 : Nat) (w : Twiddle R) : Except Fault (List R) := do
  let i1 := u32 (i0 + n2)
  let i2 := u32 (i1 + n2)
  let i3 := u32 (i2 + n2)
  -- xa + xc
  let r1 := (← readSrc pSrc (u32 (2 * i0))) + (← readSrc pSrc (u32 (2 * i2)))
  -- xa - xc
  let r2 := (← readSrc pSrc (u32 (2 * i0))) - (← readSrc pSrc (u32 (2 * i2)))
  -- ya + yc
  let s1 := (← readSrc pSrc (u32 (u32 (2 * i0) + 1))) + (← readSrc pSrc (u32 (u32 (2 * i2) + 1)))
  -- ya - yc
  let s2 := (← readSrc pSrc (u32 (u32 (2 * i0) + 1))) - (← readSrc pSrc (u32 (u32 (2 * i2) + 1)))
  -- xb + xd
  let t1 := (← readSrc pSrc (u32 (2 * i1))) + (← readSrc pSrc (u32 (2 * i3)))
  -- xa' = xa + xb + xc + xd
  let pSrc ← writeSrc pSrc (u32 (2 * i0)) (r1 + t1)
  -- xa + xc -(xb + xd)
  let r1 := r1 - t1
  -- yb + yd
  let t2 := (← readSrc pSrc (u32 (u32 (2 * i1) + 1))) + (← readSrc pSrc (u32 (u32 (2 * i3) + 1)))
  -- ya' = ya + yb + yc + yd
  let pSrc ← writeSrc pSrc (u32 (u32 (2 * i0) + 1)) (s1 + t2)
  -- (ya + yc) - (yb + yd)
  let s1 := s1 - t2
  -- (yb - yd)
  let t1 := (← readSrc pSrc (u32 (u32 (2 * i1) + 1))) - (← readSrc pSrc (u32 (u32 (2 * i3) + 1)))
  -- (xb - xd)
  let t2 := (← readSrc pSrc (u32 (2 * i1))) - (← readSrc pSrc (u32 (2 * i3)))
  -- xc' = (xa-xb+xc-xd)co2 - (ya-yb+yc-yd)(si2)
  let pSrc ← writeSrc pSrc (u32 (2 * i1)) ((r1 * w.co2) - (s1 * w.si2))
  -- yc' = (ya-yb+yc-yd)co2 + (xa-xb+xc-xd)(si2)
  let pSrc ← writeSrc pSrc (u32 (u32 (2 * i1) + 1)) ((s1 * w.co2) + (r1 * w.si2))
  -- (xa - xc) - (yb - yd)
  let r1 := r2 - t1
  -- (xa - xc) + (yb - yd)
  let r2 := r2 + t1
  -- (ya - yc) + (xb - xd)
  let s1 := s2 + t2
  -- (ya - yc) - (xb - xd)
  let s2 := s2 - t2
  -- xb' = (xa+yb-xc-yd)co1 - (ya-xb-yc+xd)(si1)
  let pSrc ← writeSrc pSrc (u32 (2 * i2)) ((r1 * w.co1) - (s1 * w.si1))
  -- yb' = (ya-xb-yc+xd)co1 + (xa+yb-xc-yd)(si1)
  let pSrc ← writeSrc pSrc (u32 (u32 (2 * i2) + 1)) ((s1 * w.co1) + (r1 * w.si1))
  -- xd' = (xa-yb-xc+yd)co3 - (ya+xb-yc-xd)(si3)
  let pSrc ← writeSrc pSrc (u32 (2 * i3)) ((r2 * w.co3) - (s2 * w.si3))
  -- yd' = (ya+xb-yc-xd)co3 + (xa-yb-xc+yd)(si3)
  writeSrc pSrc (u32 (u32 (2 * i3) + 1)) ((s2 * w.co3) + (r2 * w.si3))

/-- One butterfly of the last inverse stage: the body of the final `for` loop of
`arm_radix4_butterfly_inverse_f16` (source lines 1187-1258). -/
def invLastButterfly (pSrc : List R) (n2 i0 : Nat) (onebyfftLen : R) :
    Except Fault (List R) := do
  let i1 := u32 (i0 + n2)
  let i2 := u32 (i1 + n2)
  let i3 := u32 (i2 + n2)
  -- xa + xc
  let r1 := (← readSrc pSrc (u32 (2 * i0))) + (← readSrc pSrc (u32 (2 * i2)))
  -- xa - xc
  let r2 := (← readSrc pSrc (u32 (2 * i0))) - (← readSrc pSrc (u32 (2 * i2)))
  -- ya + yc
  let s1 := (← readSrc pSrc (u32 (u32 (2 * i0) + 1))) + (← readSrc pSrc (u32 (u32 (2 * i2) + 1)))
  -- ya - yc
  let s2 := (← readSrc pSrc (u32 (u32 (2 * i0) + 1))) - (← readSrc pSrc (u32 (u32 (2 * i2) + 1)))
  -- xc + xd
  let t1 := (← readSrc pSrc (u32 (2 * i1))) + (← readSrc pSrc (u32 (2 * i3)))
  -- xa' = xa + xb + xc + xd
  let pSrc ← writeSrc pSrc (u32 (2 * i0)) ((r1 + t1) * onebyfftLen)
  -- (xa + xb) - (xc + xd)
  let r1 := r1 - t1
  -- yb + yd
  let t2 := (← readSrc pSrc (u32 (u32 (2 * i1) + 1))) + (← readSrc pSrc (u32 (u32 (2 * i3) + 1)))
  -- ya' = ya + yb + yc + yd
  let pSrc ← writeSrc pSrc (u32 (u32 (2 * i0) + 1)) ((s1 + t2) * onebyfftLen)
  -- (ya + yc) - (yb + yd)
  let s1 := s1 - t2
  -- (yb-yd)
  let t1 := (← readSrc pSrc (u32 (u32 (2 * i1) + 1))) - (← readSrc pSrc (u32 (u32 (2 * i3) + 1)))
  -- (xb-xd)
  let t2 := (← readSrc pSrc (u32 (2 * i1))) - (← readSrc pSrc (u32 (2 * i3)))
  let pSrc ← writeSrc pSrc (u32 (2 * i1)) (r1 * onebyfftLen)
  let pSrc ← writeSrc pSrc (u32 (u32 (2 * i1) + 1)) (s1 * onebyfftLen)
  -- (xa - xc) - (yb-yd)
  let r1 := r2 - t1
  -- (xa - xc) + (yb-yd)
  let r2 := r2 + t1
  -- (ya - yc) + (xb-xd)
  let s1 := s2 + t2
  -- (ya - yc) - (xb-xd)
  let s2 := s2 - t2
  let pSrc ← writeSrc pSrc (u32 (2 * i2)) (r1 * onebyfftLen)
  let pSrc ← writeSrc pSrc (u32 (u32 (2 * i2) + 1)) (s1 * onebyfftLen)
  let pSrc ← writeSrc pSrc (u32 (2 * i3)) (r2 * onebyfftLen)
  writeSrc pSrc (u32 (u32 (2 * i3) + 1)) (s2 * onebyfftLen)

end Butterfly

/-- Variables live across the innermost loop: the buffer and `i0`. -/
structure RowSt (R : Type) where
  pSrc : List R
  i0 : Nat

/-- Variables live across the column loop: the buffer, `ia1` and `j`. -/
structure ColSt (R : Type) where
  pSrc : List R
  ia1 : Nat
  j : Nat

/-- Variables live across the stage loop: the buffer, `k`, `n1`, `n2` and
`twidCoefModifier`. -/
structure StageSt (R : Type) where
  pSrc : List R
  k : Nat
  n1 : Nat
  n2 : Nat
  twidCoefModifier : Nat

section Loops

variable {R : Type}

/-- The innermost loop `i0 = j; do { butterfly; i0 += n1; } while (i0 < fftLen);`
for a given butterfly body. -/
def rowLoop (bfly : List R → Nat → Except Fault (List R)) (fuel fftLen n1 j : Nat)
    (pSrc : List R) : Except Fault (List R) := do
  let st ← doWhile
    (fun (st : RowSt R) => do
      let pSrc ← bfly st.pSrc st.i0
      pure { pSrc := pSrc, i0 := u32 (st.i0 + n1) })
    (fun st => decide (st.i0 < fftLen))
    fuel { pSrc := pSrc, i0 := j }
  pure st.pSrc

/-- The column loop `j = 0; do { read twiddles; ia1 = ia1 + twidCoefModifier;
row loop; j++; } while (j <= (n2 - 1U));` for a given butterfly body. -/
def colLoop (bfly : List R → Nat → Nat → Twiddle R → Except Fault (List R))
    (fuel fftLen n1 n2 twidCoefModifier : Nat) (pCoef : List R) (pSrc : List R) :
    Except Fault (List R) := do
  let st ← doWhile
    (fun (st : ColSt R) => do
      let w ← readTwiddle pCoef st.ia1
      let ia1 := u32 (st.ia1 + twidCoefModifier)
      let pSrc ← rowLoop (fun p i0 => bfly p n2 i0 w) fuel fftLen n1 st.j st.pSrc
      pure { pSrc := pSrc, ia1 := ia1, j := u32 (st.j + 1) })
    (fun st => decide (st.j ≤ sub32 n2 1))
    fuel { pSrc := pSrc, ia1 := 0, j := 0 }
  pure st.pSrc

/-- The body of the stage loop: `n1 = n2; n2 >>= 2U; ia1 = 0U;` column loop;
`twidCoefModifier <<= 2U;` and the loop update `k >>= 2U`. -/
def stageBody (bfly : List R → Nat → Nat → Twiddle R → Except Fault (List R))
    (fuel fftLen : Nat) (pCoef : List R) (st : StageSt R) : Except Fault (StageSt R) := do
  let n1 := st.n2
  let n2 := st.n2 / 4
  let pSrc ← colLoop bfly fuel fftLen n1 n2 st.twidCoefModifier pCoef st.pSrc
  pure { pSrc := pSrc, k := st.k / 4, n1 := n1, n2 := n2,
         twidCoefModifier := u16 (st.twidCoefModifier * 4) }

variable [Add R] [Sub R] [Mul R]

/-- `arm_radix4_butterfly_f16`, Cortex-M0 path (source lines 543-654).
`fftLen` and `twidCoefModifier` are `uint16_t` arguments. -/
def arm_radix4_butterfly_f16 (fuel : Nat) (pSrc : List R) (fftLen : Nat) (pCoef : List R)
    (twidCoefModifier : Nat) : Except Fault (List R) := do
  let st ← forLoop (fun (st : StageSt R) => decide (st.k > 1))
    (stageBody fwdButterfly fuel fftLen pCoef)
    fuel { pSrc := pSrc, k := fftLen, n1 := fftLen, n2 := fftLen,
           twidCoefModifier := twidCoefModifier }
  pure st.pSrc

/-- `arm_radix4_butterfly_inverse_f16`, Cortex-M0 path (source lines 1066-1259). -/
def arm_radix4_butterfly_inverse_f16 (fuel : Nat) (pSrc : List R) (fftLen : Nat)
    (pCoef : List R) (twidCoefModifier : Nat) (onebyfftLen : R) : Except Fault (List R) := do
  let st ← forLoop (fun (st : StageSt R) => decide (st.k > 4))
    (stageBody invButterfly fuel fftLen pCoef)
    fuel { pSrc := pSrc, k := fftLen, n1 := fftLen, n2 := fftLen,
           twidCoefModifier := twidCoefModifier }
  -- Initializations of last stage
  let n1 := st.n2
  let n2 := st.n2 / 4
  -- Calculations of last stage
  let last ← forLoop (fun (r : RowSt R) => decide (r.i0 ≤ sub32 fftLen n1))
    (fun r => do
      let pSrc ← invLastButterfly r.pSrc n2 r.i0 onebyfftLen
      pure { pSrc := pSrc, i0 := u32 (r.i0 + n1) })
    fuel { pSrc := st.pSrc, i0 := 0 }
  pure last.pSrc

end Loops

/-- The instance structure `arm_cfft_radix4_instance_f16`. Its declaration is in
`dsp/transform_functions_f16.h`, outside the sources at hand; the fields are the ones
`arm_cfft_radix4_f16` reads. -/
structure arm_cfft_radix4_instance_f16 (R : Type) where
  fftLen : Nat
  ifftFlag : Nat
  bitReverseFlag : Nat
  pTwiddle : List R
  pBitRevTable : List Nat
  twidCoefModifier : Nat
  bitRevFactor : Nat
  onebyfftLen : R

/-- `arm_cfft_radix4_f16` (source lines 127-148). `arm_bitreversal_f16` is an external
function (declared at source lines 33-37, defined elsewhere) and is taken as a parameter. -/
def arm_cfft_radix4_f16 {R : Type} [Add R] [Sub R] [Mul R]
    (arm_bitreversal_f16 : List R → Nat → Nat → List Nat → Except Fault (List R))
    (fuel : Nat) (S : arm_cfft_radix4_instance_f16 R) (pSrc : List R) :
    Except Fault (List R) := do
  let pSrc ←
    if S.ifftFlag = 1 then
      -- Complex IFFT radix-4
      arm_radix4_butterfly_inverse_f16 fuel pSrc S.fftLen S.pTwiddle S.twidCoefModifier
        S.onebyfftLen
    else
      -- Complex FFT radix-4
      arm_radix4_butterfly_f16 fuel pSrc S.fftLen S.pTwiddle S.twidCoefModifier
  if S.bitReverseFlag = 1 then
    -- Bit Reversal
    arm_bitreversal_f16 pSrc S.fftLen S.bitRevFactor S.pBitRevTable
  else
    pure pSrc

end CmsisDsp


/-! ## Value-level description of the butterflies (used to state and prove properties) -/

namespace CmsisDsp

/-- Two runs are related when both fault in the same way or both return related values. -/
def ExRel {α β : Type} (P : α → β → Prop) : Except Fault α → Except Fault β → Prop
  | .ok a, .ok b => P a b
  | .error e, .error e' => e = e'
  | _, _ => False

/-- The four complex samples of one butterfly, by position `i0, i1, i2, i3`:
real parts `x0..x3` (at `pSrc[2*i]`) and imaginary parts `y0..y3` (at `pSrc[2*i+1]`). -/
structure Quad (R : Type) where
  x0 : R
  y0 : R
  x1 : R
  y1 : R
  x2 : R
  y2 : R
  x3 : R
  y3 : R

/-- The samples at positions `i0`, `i0+n2`, `i0+2*n2`, `i0+3*n2`, when all are in range. -/
def getQuad? {R : Type} (l : List R) (i0 n2 : Nat) : Option (Quad R) := do
  let x0 ← l[2 * i0]?
  let y0 ← l[2 * i0 + 1]?
  let x1 ← l[2 * (i0 + n2)]?
  let y1 ← l[2 * (i0 + n2) + 1]?
  let x2 ← l[2 * (i0 + n2 + n2)]?
  let y2 ← l[2 * (i0 + n2 + n2) + 1]?
  let x3 ← l[2 * (i0 + n2 + n2 + n2)]?
  let y3 ← l[2 * (i0 + n2 + n2 + n2) + 1]?
  pure { x0 := x0, y0 := y0, x1 := x1, y1 := y1, x2 := x2, y2 := y2, x3 := x3, y3 := y3 }

/-- Store four complex samples at positions `i0`, `i0+n2`, `i0+2*n2`, `i0+3*n2`. -/
def putQuad {R : Type} (l : List R) (i0 n2 : Nat) (q : Quad R) : List R :=
  (((((((l.set (2 * i0) q.x0).set (2 * i0 + 1) q.y0).set (2 * (i0 + n2)) q.x1).set
    (2 * (i0 + n2) + 1) q.y1).set (2 * (i0 + n2 + n2)) q.x2).set
    (2 * (i0 + n2 + n2) + 1) q.y2).set (2 * (i0 + n2 + n2 + n2)) q.x3).set
    (2 * (i0 + n2 + n2 + n2) + 1) q.y3

section Vals

variable {R : Type} [Add R] [Sub R] [Mul R]

/-- The values stored by one forward butterfly, in the source's order of operations. -/
def fwdVals (w : Twiddle R) (q : Quad R) : Quad R :=
  let r1 := q.x0 + q.x2
  let r2 := q.x0 - q.x2
  let s1 := q.y0 + q.y2
  let s2 := q.y0 - q.y2
  let t1 := q.x1 + q.x3
  let t2 := q.y1 + q.y3
  let u1 := q.y1 - q.y3
  let u2 := q.x1 - q.x3
  { x0 := r1 + t1
    y0 := s1 + t2
    x1 := ((r1 - t1) * w.co2) + ((s1 - t2) * w.si2)
    y1 := ((s1 - t2) * w.co2) - ((r1 - t1) * w.si2)
    x2 := ((r2 + u1) * w.co1) + ((s2 - u2) * w.si1)
    y2 := ((s2 - u2) * w.co1) - ((r2 + u1) * w.si1)
    x3 := ((r2 - u1) * w.co3) + ((s2 + u2) * w.si3)
    y3 := ((s2 + u2) * w.co3) - ((r2 - u1) * w.si3) }

/-- The values stored by one inverse butterfly of a non-final stage. -/
def invVals (w : Twiddle R) (q : Quad R) : Quad R :=
  let r1 := q.x0 + q.x2
  let r2 := q.x0 - q.x2
  let s1 := q.y0 + q.y2
  let s2 := q.y0 - q.y2
  let t1 := q.x1 + q.x3
  let t2 := q.y1 + q.y3
  let u1 := q.y1 - q.y3
  let u2 := q.x1 - q.x3
  { x0 := r1 + t1
    y0 := s1 + t2
    x1 := ((r1 - t1) * w.co2) - ((s1 - t2) * w.si2)
    y1 := ((s1 - t2) * w.co2) + ((r1 - t1) * w.si2)
    x2 := ((r2 - u1) * w.co1) - ((s2 + u2) * w.si1)
    y2 := ((s2 + u2) * w.co1) + ((r2 - u1) * w.si1)
    x3 := ((r2 + u1) * w.co3) - ((s2 - u2) * w.si3)
    y3 := ((s2 - u2) * w.co3) + ((r2 + u1) * w.si3) }

/-- The values stored by one butterfly of the last inverse stage. -/
def invLastVals (onebyfftLen : R) (q : Quad R) : Quad R :=
  let r1 := q.x0 + q.x2
  let r2 := q.x0 - q.x2
  let s1 := q.y0 + q.y2
  let s2 := q.y0 - q.y2
  let t1 := q.x1 + q.x3
  let t2 := q.y1 + q.y3
  let u1 := q.y1 - q.y3
  let u2 := q.x1 - q.x3
  { x0 := (r1 + t1) * onebyfftLen
    y0 := (s1 + t2) * onebyfftLen
    x1 := (r1 - t1) * onebyfftLen
    y1 := (s1 - t2) * onebyfftLen
    x2 := (r2 - u1) * onebyfftLen
    y2 := (s2 + u2) * onebyfftLen
    x3 := (r2 + u1) * onebyfftLen
    y3 := (s2 - u2) * onebyfftLen }

/-- The values the comments of the forward butterfly document (source lines 596-647), with
`(xa, ya)`, `(xb, yb)`, `(xc, yc)`, `(xd, yd)` the samples at `i0`, `i1`, `i2`, `i3`:
`xa'`, `ya'` for position `i0`, `xc'`, `yc'` for `i1`, `xb'`, `yb'` for `i2` and `xd'`,
`yd'` for `i3`. -/
def fwdDocumented (w : Twiddle R) (q : Quad R) : Quad R :=
  { x0 := q.x0 + q.x1 + q.x2 + q.x3
    y0 := q.y0 + q.y1 + q.y2 + q.y3
    x1 := (q.x0 - q.x1 + q.x2 - q.x3) * w.co2 + (q.y0 - q.y1 + q.y2 - q.y3) * w.si2
    y1 := (q.y0 - q.y1 + q.y2 - q.y3) * w.co2 - (q.x0 - q.x1 + q.x2 - q.x3) * w.si2
    x2 := (q.x0 + q.y1 - q.x2 - q.y3) * w.co1 + (q.y0 - q.x1 - q.y2 + q.x3) * w.si1
    y2 := (q.y0 - q.x1 - q.y2 + q.x3) * w.co1 - (q.x0 + q.y1 - q.x2 - q.y3) * w.si1
    x3 := (q.x0 - q.y1 - q.x2 + q.y3) * w.co3 + (q.y0 + q.x1 - q.y2 - q.x3) * w.si3
    y3 := (q.y0 + q.x1 - q.y2 - q.x3) * w.co3 - (q.x0 - q.y1 - q.x2 + q.y3) * w.si3 }

/-- The values the comments of the non-final inverse stages document (source lines
1122-1172): `xb' = (xa+yb-xc-yd)co1 - (ya-xb-yc+xd)(si1)` and
`yb' = (ya-xb-yc+xd)co1 + (xa+yb-xc-yd)(si1)` for position `i2`,
`xd' = (xa-yb-xc+yd)co3 - (ya+xb-yc-xd)(si3)` and
`yd' = (ya+xb-yc-xd)co3 + (xa-yb-xc+yd)(si3)` for position `i3`. -/
def invDocumented (w : Twiddle R) (q : Quad R) : Quad R :=
  { x0 := q.x0 + q.x1 + q.x2 + q.x3
    y0 := q.y0 + q.y1 + q.y2 + q.y3
    x1 := (q.x0 - q.x1 + q.x2 - q.x3) * w.co2 - (q.y0 - q.y1 + q.y2 - q.y3) * w.si2
    y1 := (q.y0 - q.y1 + q.y2 - q.y3) * w.co2 + (q.x0 - q.x1 + q.x2 - q.x3) * w.si2
    x2 := (q.x0 + q.y1 - q.x2 - q.y3) * w.co1 - (q.y0 - q.x1 - q.y2 + q.x3) * w.si1
    y2 := (q.y0 - q.x1 - q.y2 + q.x3) * w.co1 + (q.x0 + q.y1 - q.x2 - q.y3) * w.si1
    x3 := (q.x0 - q.y1 - q.x2 + q.y3) * w.co3 - (q.y0 + q.x1 - q.y2 - q.x3) * w.si3
    y3 := (q.y0 + q.x1 - q.y2 - q.x3) * w.co3 + (q.x0 - q.y1 - q.x2 + q.y3) * w.si3 }

/-- The values a non-final inverse stage stores, in closed form: the sums follow the steps
`r1 = r2 - t1`, `r2 = r2 + t1`, `s1 = s2 + t2`, `s2 = s2 - t2` of source lines 1150-1160, so
position `i2` gets the combination `(xa-yb-xc+yd, ya+xb-yc-xd)` and position `i3` the
combination `(xa+yb-xc-yd, ya-xb-yc+xd)`. -/
def invStored (w : Twiddle R) (q : Quad R) : Quad R :=
  { x0 := q.x0 + q.x1 + q.x2 + q.x3
    y0 := q.y0 + q.y1 + q.y2 + q.y3
    x1 := (q.x0 - q.x1 + q.x2 - q.x3) * w.co2 - (q.y0 - q.y1 + q.y2 - q.y3) * w.si2
    y1 := (q.y0 - q.y1 + q.y2 - q.y3) * w.co2 + (q.x0 - q.x1 + q.x2 - q.x3) * w.si2
    x2 := (q.x0 - q.y1 - q.x2 + q.y3) * w.co1 - (q.y0 + q.x1 - q.y2 - q.x3) * w.si1
    y2 := (q.y0 + q.x1 - q.y2 - q.x3) * w.co1 + (q.x0 - q.y1 - q.x2 + q.y3) * w.si1
    x3 := (q.x0 + q.y1 - q.x2 - q.y3) * w.co3 - (q.y0 - q.x1 - q.y2 + q.x3) * w.si3
    y3 := (q.y0 - q.x1 - q.y2 + q.x3) * w.co3 + (q.x0 + q.y1 - q.x2 - q.y3) * w.si3 }

end Vals

end CmsisDsp

/-! ## Descriptions of loop results (used to state and prove properties) -/

namespace CmsisDsp

/-- What one row loop (column `j` of a stage) does to the buffer. -/
def RowOut {R : Type} (V : Quad R → Quad R) (n2 cnt j : Nat) (a out : List R) : Prop :=
  out.length = a.length ∧
  (∀ b, b < cnt → getQuad? out (j + b * (4 * n2)) n2 = (getQuad? a (j + b * (4 * n2)) n2).map V) ∧
  (∀ j', j' < n2 → j' ≠ j → ∀ b, b < cnt →
    getQuad? out (j' + b * (4 * n2)) n2 = getQuad? a (j' + b * (4 * n2)) n2)

/-- What one column loop (one stage) does to the buffer. -/
def ColOut {R : Type} (vals : Twiddle R → Quad R → Quad R) (pCoef : List R)
    (c n2 cnt : Nat) (z out : List R) : Prop :=
  out.length = z.length ∧
  ∀ j, j < n2 → ∃ w, readTwiddle pCoef (u32 (j * c)) = .ok w ∧
    ∀ b, b < cnt →
      getQuad? out (j + b * (4 * n2)) n2 = (getQuad? z (j + b * (4 * n2)) n2).map (vals w)

/-- The value of `twidCoefModifier` after `i` executions of `twidCoefModifier <<= 2U`. -/
def modAt (c : Nat) : Nat → Nat
  | 0 => c
  | i + 1 => u16 (modAt c i * 4)

/-- The buffers `bufs 0, bufs 1, ...` before and after the stages `i < n` of a transform of
length `4 ^ m`: butterfly `b` of column `j` of stage `i` has its twiddles read at index
`j * twidCoefModifier`, finds the samples `q` in `bufs i`, and `vals w q` is at the same
positions of `bufs (i + 1)`. -/
def StageTrace {R : Type} (vals : Twiddle R → Quad R → Quad R) (pCoef : List R)
    (c m n : Nat) (bufs : Nat → List R) : Prop :=
  ∀ i, i < n → ∀ j, j < 4 ^ (m - i - 1) → ∀ b, b < 4 ^ i →
    ∃ w q, readTwiddle pCoef (u32 (j * modAt c i)) = .ok w ∧
      getQuad? (bufs i) (j + b * (4 * 4 ^ (m - i - 1))) (4 ^ (m - i - 1)) = some q ∧
      getQuad? (bufs (i + 1)) (j + b * (4 * 4 ^ (m - i - 1))) (4 ^ (m - i - 1)) =
        some (vals w q)

/-- A buffer of 16 complex samples, all zero but the imaginary part of sample 4. -/
def impulseAtFour : List ℤ := (List.range 32).map (fun i => if i = 9 then 1 else 0)

/-- Binary bit reversal of the low `bits` bits of `p`. -/
def bitrev : Nat → Nat → Nat
  | 0, _ => 0
  | bits + 1, p => (p % 2) * 2 ^ bits + bitrev bits (p / 2)

/-- The complex sample at position `p` of an interleaved real buffer
(`pSrc[2*p]` real part, `pSrc[2*p+1]` imaginary part). -/
def cplx (l : List ℝ) (p : Nat) : ℂ := ⟨(l[2 * p]?).getD 0, (l[2 * p + 1]?).getD 0⟩

/-- The binary bit-reversal permutation of the complex positions of a buffer holding
`2^bits` complex samples: output position `p` receives the sample of position
`bitrev bits p`. -/
def bitReversal {R : Type} [Zero R] (bits : Nat) (l : List R) : List R :=
  (List.range l.length).map (fun i => (l[2 * bitrev bits (i / 2) + i % 2]?).getD 0)

/-- One radix-4 decimation-in-frequency stage on complex sequences: `cnt` blocks of
`4 * n2` samples; the output in quarter `q` of a block is the 4-point transform of the
four quarters for the residue `bitrev 2 q` (quarter-turn `ι`), times the twiddle
`W ^ (bitrev 2 q * (j * e))` and the output scale `σ`. -/
def StageRel (ι W σ : ℂ) (n2 cnt e : Nat) (zin zout : Nat → ℂ) : Prop :=
  ∀ j, j < n2 → ∀ b, b < cnt → ∀ q, q < 4 →
    zout (j + b * (4 * n2) + q * n2) =
      (∑ t in Finset.range 4, ι ^ (t * bitrev 2 q) * zin (j + b * (4 * n2) + t * n2))
        * W ^ (bitrev 2 q * (j * e)) * σ

/-- State of a decimation-in-frequency transform of `x` after `i` of `m` radix-4 stages:
block `b` holds the partial sums for the output residues `bitrev (2*i) b`. -/
def DifInv (W σ : ℂ) (m i : Nat) (x z : Nat → ℂ) : Prop :=
  ∀ b, b < 4 ^ i → ∀ n, n < 4 ^ (m - i) →
    z (n + b * 4 ^ (m - i)) =
      (∑ u in Finset.range (4 ^ i),
        x (n + u * 4 ^ (m - i)) * W ^ ((n + u * 4 ^ (m - i)) * bitrev (2 * i) b)) * σ

/-- The four outputs of a butterfly as complex numbers. -/
def KernelSpec (ι σ w1 w2 w3 : ℂ) (Q Q' : Quad ℝ) : Prop :=
  (⟨Q'.x0, Q'.y0⟩ : ℂ) =
    ((⟨Q.x0, Q.y0⟩ : ℂ) + ⟨Q.x1, Q.y1⟩ + ⟨Q.x2, Q.y2⟩ + ⟨Q.x3, Q.y3⟩) * σ ∧
  (⟨Q'.x1, Q'.y1⟩ : ℂ) =
    ((⟨Q.x0, Q.y0⟩ : ℂ) - ⟨Q.x1, Q.y1⟩ + ⟨Q.x2, Q.y2⟩ - ⟨Q.x3, Q.y3⟩) * w2 * σ ∧
  (⟨Q'.x2, Q'.y2⟩ : ℂ) =
    ((⟨Q.x0, Q.y0⟩ : ℂ) + ι * ⟨Q.x1, Q.y1⟩ - ⟨Q.x2, Q.y2⟩ - ι * ⟨Q.x3, Q.y3⟩) * w1 * σ ∧
  (⟨Q'.x3, Q'.y3⟩ : ℂ) =
    ((⟨Q.x0, Q.y0⟩ : ℂ) - ι * ⟨Q.x1, Q.y1⟩ - ⟨Q.x2, Q.y2⟩ + ι * ⟨Q.x3, Q.y3⟩) * w3 * σ

/-- The table holds, at complex index `c * e`, the pair `(Re (W^e), -Im (W^e))`, for every
`e ≤ bound`. -/
def TableFor (pCoef : List ℝ) (c : Nat) (W : ℂ) (bound : Nat) : Prop :=
  ∀ e, e ≤ bound →
    pCoef[2 * (c * e)]? = some (W ^ e).re ∧ pCoef[2 * (c * e) + 1]? = some (-(W ^ e).im)

/-- The eight real values of a `Quad` in buffer order. -/
def Quad.nth {R : Type} (Q : Quad R) : Nat → R
  | 0 => Q.x0
  | 1 => Q.y0
  | 2 => Q.x1
  | 3 => Q.y1
  | 4 => Q.x2
  | 5 => Q.y2
  | 6 => Q.x3
  | _ => Q.y3

end CmsisDsp

/-!
CMSIS-RTOS2 RTX library definitions (`rtx_lib.h`)

The inline handle conversions are embedded from the header. The library functions the
header only declares (`osRtxThreadListPut`, `osRtxThreadDispatch`, `osRtxThreadWaitEnter`,
...) are defined in `rtx_thread.c` and `rtx_mutex.c`, which are not among the sources at
hand; they are modelled from the specification.
-/

namespace Rtx

/-- The object types named in `rtx_lib.h`. The structures are declared in `rtx_os.h`,
outside the sources at hand; here they only tag pointers. -/
inductive ObjType
  | os_thread_t
  | os_timer_t
  | os_event_flags_t
  | os_mutex_t
  | os_semaphore_t
  | os_memory_pool_t
  | os_message_queue_t
  | os_message_t
  | os_object_t
  deriving DecidableEq

/-- An opaque handle (`osThreadId_t`, `osTimerId_t`, ..., `void *`): an address. -/
structure Handle where
  addr : Nat
  deriving DecidableEq

/-- A pointer to an object of type `τ`: an address. -/
structure Ptr (τ : ObjType) where
  addr : Nat
  deriving DecidableEq

/-- `osRtxThreadId`: `return ((os_thread_t *)thread_id);` -/
def osRtxThreadId (thread_id : Handle) : Ptr .os_thread_t := ⟨thread_id.addr⟩

/-- `osRtxTimerId`: `return ((os_timer_t *)timer_id);` -/
def osRtxTimerId (timer_id : Handle) : Ptr .os_timer_t := ⟨timer_id.addr⟩

/-- `osRtxEventFlagsId`: `return ((os_event_flags_t *)ef_id);` -/
def osRtxEventFlagsId (ef_id : Handle) : Ptr .os_event_flags_t := ⟨ef_id.addr⟩

/-- `osRtxMutexId`: `return ((os_mutex_t *)mutex_id);` -/
def osRtxMutexId (mutex_id : Handle) : Ptr .os_mutex_t := ⟨mutex_id.addr⟩

/-- `osRtxSemaphoreId`: `return ((os_semaphore_t *)semaphore_id);` -/
def osRtxSemaphoreId (semaphore_id : Handle) : Ptr .os_semaphore_t := ⟨semaphore_id.addr⟩

/-- `osRtxMemoryPoolId`: `return ((os_memory_pool_t *)mp_id);` -/
def osRtxMemoryPoolId (mp_id : Handle) : Ptr .os_memory_pool_t := ⟨mp_id.addr⟩

/-- `osRtxMessageQueueId`: `return ((os_message_queue_t *)mq_id);` -/
def osRtxMessageQueueId (mq_id : Handle) : Ptr .os_message_queue_t := ⟨mq_id.addr⟩

/-- `osRtxObject`: `return ((os_object_t *)object);` -/
def osRtxObject (object : Handle) : Ptr .os_object_t := ⟨object.addr⟩

/-- `osRtxThreadObject`: `return ((os_thread_t *)object);` -/
def osRtxThreadObject (object : Ptr .os_object_t) : Ptr .os_thread_t := ⟨object.addr⟩

/-- `osRtxTimerObject`: `return ((os_timer_t *)object);` -/
def osRtxTimerObject (object : Ptr .os_object_t) : Ptr .os_timer_t := ⟨object.addr⟩

/-- `osRtxEventFlagsObject`: `return ((os_event_flags_t *)object);` -/
def osRtxEventFlagsObject (object : Ptr .os_object_t) : Ptr .os_event_flags_t := ⟨object.addr⟩

/-- `osRtxMutexObject`: `return ((os_mutex_t *)object);` -/
def osRtxMutexObject (object : Ptr .os_object_t) : Ptr .os_mutex_t := ⟨object.addr⟩

/-- `osRtxSemaphoreObject`: `return ((os_semaphore_t *)object);` -/
def osRtxSemaphoreObject (object : Ptr .os_object_t) : Ptr .os_semaphore_t := ⟨object.addr⟩

/-- `osRtxMemoryPoolObject`: `return ((os_memory_pool_t *)object);` -/
def osRtxMemoryPoolObject (object : Ptr .os_object_t) : Ptr .os_memory_pool_t := ⟨object.addr⟩

/-- `osRtxMessageQueueObject`: `return ((os_message_queue_t *)object);` -/
def osRtxMessageQueueObject (object : Ptr .os_object_t) : Ptr .os_message_queue_t :=
  ⟨object.addr⟩

/-- `osRtxMessageObject`: `return ((os_message_t *)object);` -/
def osRtxMessageObject (object : Ptr .os_object_t) : Ptr .os_message_t := ⟨object.addr⟩

end Rtx

namespace Rtx

/-! ## Scheduler core (spec 4.1) -/

/-- Modelled from the spec: the thread states of section 4.1; `rtx_os.h` with the state
codes is missing. -/
inductive ThreadState
  | ready
  | running
  | blocked
  | delayed
  | terminated
  deriving DecidableEq

/-- Modelled from the spec: the fields of a thread that the scheduler uses (section 3,
"Thread": identity, effective priority, state, delivered wait result and timeout, which is
`none` when no timeout is armed); `os_thread_t` itself is declared in the missing
`rtx_os.h`. -/
structure os_thread_t where
  id : Nat
  priority : Nat
  state : ThreadState
  ret_val : Nat
  delay : Option Nat
  deriving DecidableEq

end Rtx

namespace Rtx

/-! ## Mutex with priority inheritance (spec 4.2) -/

end Rtx

namespace Rtx

/-! ## Memory pool (spec 4.4) -/

/-- Modelled from the spec: the results of a pool operation that the model needs (section
7: invalid parameters are returned to the caller as values); `osStatus_t` is declared in
the missing `cmsis_os2.h`. -/
inductive osStatus_t
  | osOK
  | osErrorParameter
  deriving DecidableEq

/-- Modelled from the spec: the memory pool of section 3 ("fixed block size, total block
count, free-list head (intrusive singly-linked through block storage), outstanding-block
count"); `os_mp_info_t` is declared in the missing `rtx_os.h`. Addresses are numbers,
`none` is the null pointer, and `link a` is the link stored in the block at address `a`. -/
structure os_mp_info_t where
  max_blocks : Nat
  used_blocks : Nat
  block_size : Nat
  block_base : Nat
  block_lim : Nat
  block_free : Option Nat
  link : Nat → Option Nat

/-- Modelled from the spec: `osRtxMemoryPoolInit` of the missing `rtx_mempool.c` (section
4.4, "fixed block size and count configured at creation"): every block is free, and the
blocks are linked in address order. The result is 1, or 0 when there is no memory or no
block to manage, and then the pool information is left as it was. -/
def osRtxMemoryPoolInit (mp_info : os_mp_info_t) (block_count block_size block_mem : Nat) :
    Nat × os_mp_info_t :=
  if block_count = 0 ∨ block_size = 0 ∨ block_mem = 0 then (0, mp_info)
  else
    (1, { max_blocks := block_count
          used_blocks := 0
          block_size := block_size
          block_base := block_mem
          block_lim := block_mem + block_count * block_size
          block_free := some block_mem
          link := fun a =>
            if block_mem ≤ a ∧ (a - block_mem) % block_size = 0 ∧
                (a - block_mem) / block_size + 1 < block_count then
              some (a + block_size)
            else none })

/-- Modelled from the spec: `osRtxMemoryPoolAlloc` of the missing `rtx_mempool.c` (section
4.4, "`alloc` pops the free-list head in O(1) and fails with an out-of-blocks condition
(never blocks)"): the result is the block, or null when no block is free. -/
def osRtxMemoryPoolAlloc (mp_info : os_mp_info_t) : Option Nat × os_mp_info_t :=
  match mp_info.block_free with
  | none => (none, mp_info)
  | some block =>
    (some block,
      { mp_info with
        block_free := mp_info.link block
        used_blocks := mp_info.used_blocks + 1 })

/-- Modelled from the spec: `osRtxMemoryPoolFree` of the missing `rtx_mempool.c` (section
4.4, "`free` pushes the block back"): a block outside the memory of the pool is refused,
any other block becomes the head of the free list. Handing the block to a waiting thread is
the business of the pool object that owns the wait queue, not of this function, whose
prototype takes the pool information and the block only. -/
def osRtxMemoryPoolFree (mp_info : os_mp_info_t) (block : Nat) : osStatus_t × os_mp_info_t :=
  if block < mp_info.block_base ∨ mp_info.block_lim ≤ block then (.osErrorParameter, mp_info)
  else
    (.osOK,
      { mp_info with
        link := Function.update mp_info.link block mp_info.block_free
        block_free := some block
        used_blocks := mp_info.used_blocks - 1 })

/-- The blocks on a free list, at most `n` of them, following the links from `head`. -/
def freeList (link : Nat → Option Nat) : Nat → Option Nat → List Nat
  | 0, _ => []
  | _ + 1, none => []
  | n + 1, some b => b :: freeList link n (link b)

/-- The number of free blocks of a pool: the length of its free list. -/
def freeBlocks (mp_info : os_mp_info_t) : Nat :=
  (freeList mp_info.link mp_info.max_blocks mp_info.block_free).length

/-- The pools that exist at run time: set up by `osRtxMemoryPoolInit` and then used through
`osRtxMemoryPoolAlloc` and `osRtxMemoryPoolFree`. -/
inductive Initialised : os_mp_info_t → Prop
  | init (mp_info : os_mp_info_t) (block_count block_size block_mem : Nat) :
      (osRtxMemoryPoolInit mp_info block_count block_size block_mem).1 = 1 →
      Initialised (osRtxMemoryPoolInit mp_info block_count block_size block_mem).2
  | alloc (mp_info : os_mp_info_t) :
      Initialised mp_info → Initialised (osRtxMemoryPoolAlloc mp_info).2
  | free (mp_info : os_mp_info_t) (block : Nat) :
      Initialised mp_info → Initialised (osRtxMemoryPoolFree mp_info block).2

/-- The free list stays inside the memory of the pool. -/
def PoolOk (mp_info : os_mp_info_t) : Prop :=
  0 < mp_info.max_blocks ∧
  (∀ b, mp_info.block_free = some b → mp_info.block_base ≤ b ∧ b < mp_info.block_lim) ∧
  ∀ a b, mp_info.block_base ≤ a → a < mp_info.block_lim → mp_info.link a = some b →
    mp_info.block_base ≤ b ∧ b < mp_info.block_lim

/-- An unused pool information block. -/
def noPool : os_mp_info_t :=
  { max_blocks := 0, used_blocks := 0, block_size := 0, block_base := 0, block_lim := 0
    block_free := none, link := fun _ => none }

/-- The pool of the spec's scenario: 4 blocks of 16 bytes, here at address 4096. -/
def fourBlocks : os_mp_info_t := (osRtxMemoryPoolInit noPool 4 16 4096).2

end Rtx

namespace CmsisDsp

/-! ## Loop rules -/

theorem u32_of_lt {n : Nat} (h : n < 2 ^ 32) : u32 n = n := Nat.mod_eq_of_lt h

theorem u16_of_lt {n : Nat} (h : n < 2 ^ 16) : u16 n = n := Nat.mod_eq_of_lt h

theorem sub32_of_le {a b : Nat} (hb : b ≤ a) (ha : a < 2 ^ 32) : sub32 a b = a - b := by
  unfold sub32
  have hb' : b % 2 ^ 32 = b := Nat.mod_eq_of_lt (by omega)
  rw [hb']
  have : a + (2 ^ 32 - b) = (a - b) + 2 ^ 32 := by omega
  rw [this, Nat.add_mod_right]
  exact Nat.mod_eq_of_lt (by omega)

/-- Counting rule for `do ... while` loops: an invariant indexed by the number of
completed iterations, a body that either advances it or stops with a fault from the
tolerated class `E`, and a condition that holds exactly until `n` iterations are done. -/
theorem doWhile_rule {σ : Type} (body : σ → Except Fault σ) (cond : σ → Bool)
    (Inv : Nat → σ → Prop) (E : Fault → Prop) (n : Nat)
    (hstep : ∀ i s, i < n → Inv i s →
      (∃ s', body s = .ok s' ∧ Inv (i + 1) s' ∧ (cond s' = true ↔ i + 1 < n)) ∨
      (∃ e, body s = .error e ∧ E e)) :
    ∀ (fuel i : Nat) (s : σ), i < n → (n ≤ i + fuel ∨ E .budget) → Inv i s →
      (∃ s', doWhile body cond fuel s = .ok s' ∧ Inv n s') ∨
      (∃ e, doWhile body cond fuel s = .error e ∧ E e) := by
  intro fuel
  induction fuel with
  | zero =>
    intro i s hi hf _
    rcases hf with hf | hf
    · omega
    · exact Or.inr ⟨.budget, rfl, hf⟩
  | succ fuel ih =>
    intro i s hi hf hinv
    rcases hstep i s hi hinv with ⟨s', hb, hinv', hc⟩ | ⟨e, hb, he⟩
    · by_cases hlast : i + 1 < n
      · have hct : cond s' = true := hc.mpr hlast
        have := ih (i + 1) s' hlast (by rcases hf with hf | hf; exact Or.inl (by omega); exact Or.inr hf) hinv'
        simpa [doWhile, hb, hct] using this
      · have hcf : cond s' = false := by
          cases h : cond s' with
          | false => rfl
          | true => exact absurd (hc.mp h) hlast
        have hn : i + 1 = n := by omega
        left
        refine ⟨s', ?_, hn ▸ hinv'⟩
        simp [doWhile, hb, hcf]
    · right
      exact ⟨e, by simp [doWhile, hb], he⟩

/-- Counting rule for `for` loops. -/
theorem forLoop_rule {σ : Type} (cond : σ → Bool) (body : σ → Except Fault σ)
    (Inv : Nat → σ → Prop) (E : Fault → Prop) (n : Nat)
    (hcond : ∀ i s, i ≤ n → Inv i s → (cond s = true ↔ i < n))
    (hstep : ∀ i s, i < n → Inv i s →
      (∃ s', body s = .ok s' ∧ Inv (i + 1) s') ∨ (∃ e, body s = .error e ∧ E e)) :
    ∀ (fuel i : Nat) (s : σ), i ≤ n → (n ≤ i + fuel ∨ E .budget) → Inv i s →
      (∃ s', forLoop cond body fuel s = .ok s' ∧ Inv n s') ∨
      (∃ e, forLoop cond body fuel s = .error e ∧ E e) := by
  intro fuel
  induction fuel with
  | zero =>
    intro i s hi hf hinv
    by_cases hlt : i < n
    · have hct : cond s = true := (hcond i s hi hinv).mpr hlt
      rcases hf with hf | hf
      · omega
      · exact Or.inr ⟨.budget, by simp [forLoop, hct], hf⟩
    · have hcf : cond s = false := by
        cases h : cond s with
        | false => rfl
        | true => exact absurd ((hcond i s hi hinv).mp h) hlt
      have hn : i = n := by omega
      exact Or.inl ⟨s, by simp [forLoop, hcf], hn ▸ hinv⟩
  | succ fuel ih =>
    intro i s hi hf hinv
    by_cases hlt : i < n
    · have hct : cond s = true := (hcond i s hi hinv).mpr hlt
      rcases hstep i s hlt hinv with ⟨s', hb, hinv'⟩ | ⟨e, hb, he⟩
      · have := ih (i + 1) s' hlt (by rcases hf with hf | hf; exact Or.inl (by omega); exact Or.inr hf) hinv'
        simpa [forLoop, hct, hb] using this
      · exact Or.inr ⟨e, by simp [forLoop, hct, hb], he⟩
    · have hcf : cond s = false := by
        cases h : cond s with
        | false => rfl
        | true => exact absurd ((hcond i s hi hinv).mp h) hlt
      have hn : i = n := by omega
      exact Or.inl ⟨s, by simp [forLoop, hcf], hn ▸ hinv⟩

/-- Fault-free instance of `doWhile_rule`. -/
theorem doWhile_ok {σ : Type} (body : σ → Except Fault σ) (cond : σ → Bool)
    (Inv : Nat → σ → Prop) (n : Nat) (hn : 0 < n)
    (hstep : ∀ i s, i < n → Inv i s →
      ∃ s', body s = .ok s' ∧ Inv (i + 1) s' ∧ (cond s' = true ↔ i + 1 < n))
    (fuel : Nat) (hfuel : n ≤ fuel) (s : σ) (h0 : Inv 0 s) :
    ∃ s', doWhile body cond fuel s = .ok s' ∧ Inv n s' := by
  have := doWhile_rule body cond Inv (fun _ => False) n
    (fun i s hi hinv => Or.inl (hstep i s hi hinv)) fuel 0 s hn (Or.inl (by omega)) h0
  rcases this with h | ⟨e, _, he⟩
  · exact h
  · exact he.elim

/-- Fault-free instance of `forLoop_rule`. -/
theorem forLoop_ok {σ : Type} (cond : σ → Bool) (body : σ → Except Fault σ)
    (Inv : Nat → σ → Prop) (n : Nat)
    (hcond : ∀ i s, i ≤ n → Inv i s → (cond s = true ↔ i < n))
    (hstep : ∀ i s, i < n → Inv i s → ∃ s', body s = .ok s' ∧ Inv (i + 1) s')
    (fuel : Nat) (hfuel : n ≤ fuel) (s : σ) (h0 : Inv 0 s) :
    ∃ s', forLoop cond body fuel s = .ok s' ∧ Inv n s' := by
  have := forLoop_rule cond body Inv (fun _ => False) n hcond
    (fun i s hi hinv => Or.inl (hstep i s hi hinv)) fuel 0 s (Nat.zero_le _) (Or.inl (by omega)) h0
  rcases this with h | ⟨e, _, he⟩
  · exact h
  · exact he.elim

/-- Simulation rule for `do ... while` loops. -/
theorem doWhile_sim {σ τ : Type} (body1 : σ → Except Fault σ) (cond1 : σ → Bool)
    (body2 : τ → Except Fault τ) (cond2 : τ → Bool) (Pre Post : σ → τ → Prop)
    (hbody : ∀ s t, Pre s t → ExRel Post (body1 s) (body2 t))
    (hcond : ∀ s t, Post s t → cond1 s = cond2 t ∧ (cond1 s = true → Pre s t)) :
    ∀ (fuel : Nat) (s : σ) (t : τ), Pre s t →
      ExRel Post (doWhile body1 cond1 fuel s) (doWhile body2 cond2 fuel t) := by
  intro fuel
  induction fuel with
  | zero => intro s t _; simp [doWhile, ExRel]
  | succ fuel ih =>
    intro s t hpre
    have hb := hbody s t hpre
    cases h1 : body1 s with
    | error e =>
      cases h2 : body2 t with
      | error e' => rw [h1, h2] at hb; simpa [doWhile, h1, h2, ExRel] using hb
      | ok t' => rw [h1, h2] at hb; exact hb.elim
    | ok s' =>
      cases h2 : body2 t with
      | error e' => rw [h1, h2] at hb; exact hb.elim
      | ok t' =>
        rw [h1, h2] at hb
        have hpost : Post s' t' := hb
        obtain ⟨hc, hpre'⟩ := hcond s' t' hpost
        cases hc1 : cond1 s' with
        | true =>
          have hc2 : cond2 t' = true := by rw [← hc, hc1]
          have := ih s' t' (hpre' hc1)
          simpa [doWhile, h1, h2, hc1, hc2] using this
        | false =>
          have hc2 : cond2 t' = false := by rw [← hc, hc1]
          simpa [doWhile, h1, h2, hc1, hc2, ExRel] using hpost

/-- Simulation rule for `for` loops. -/
theorem forLoop_sim {σ τ : Type} (cond1 : σ → Bool) (body1 : σ → Except Fault σ)
    (cond2 : τ → Bool) (body2 : τ → Except Fault τ) (Rel : σ → τ → Prop)
    (hcond : ∀ s t, Rel s t → cond1 s = cond2 t)
    (hbody : ∀ s t, Rel s t → cond1 s = true → ExRel Rel (body1 s) (body2 t)) :
    ∀ (fuel : Nat) (s : σ) (t : τ), Rel s t →
      ExRel Rel (forLoop cond1 body1 fuel s) (forLoop cond2 body2 fuel t) := by
  intro fuel
  induction fuel with
  | zero =>
    intro s t hrel
    have hc := hcond s t hrel
    cases hc1 : cond1 s with
    | true =>
      have hc2 : cond2 t = true := by rw [← hc, hc1]
      simp [forLoop, hc1, hc2, ExRel]
    | false =>
      have hc2 : cond2 t = false := by rw [← hc, hc1]
      simpa [forLoop, hc1, hc2, ExRel] using hrel
  | succ fuel ih =>
    intro s t hrel
    have hc := hcond s t hrel
    cases hc1 : cond1 s with
    | false =>
      have hc2 : cond2 t = false := by rw [← hc, hc1]
      simpa [forLoop, hc1, hc2, ExRel] using hrel
    | true =>
      have hc2 : cond2 t = true := by rw [← hc, hc1]
      have hb := hbody s t hrel hc1
      cases h1 : body1 s with
      | error e =>
        cases h2 : body2 t with
        | error e' => rw [h1, h2] at hb; simpa [forLoop, hc1, hc2, h1, h2, ExRel] using hb
        | ok t' => rw [h1, h2] at hb; exact hb.elim
      | ok s' =>
        cases h2 : body2 t with
        | error e' => rw [h1, h2] at hb; exact hb.elim
        | ok t' =>
          rw [h1, h2] at hb
          have := ih s' t' hb
          simpa [forLoop, hc1, hc2, h1, h2] using this

end CmsisDsp

namespace CmsisDsp

/-! ## The butterflies as pure updates -/

theorem readSrc_of_get {R : Type} {l : List R} {i : Nat} {v : R} (h : l[i]? = some v) :
    readSrc l i = .ok v := by
  simp [readSrc, h]

theorem writeSrc_of_lt {R : Type} {l : List R} {i : Nat} (v : R) (h : i < l.length) :
    writeSrc l i v = .ok (l.set i v) := by
  simp [writeSrc, h]

theorem getQuad?_eq_some {R : Type} {l : List R} {i0 n2 : Nat} {q : Quad R}
    (h : getQuad? l i0 n2 = some q) :
    l[2 * i0]? = some q.x0 ∧ l[2 * i0 + 1]? = some q.y0 ∧
    l[2 * (i0 + n2)]? = some q.x1 ∧ l[2 * (i0 + n2) + 1]? = some q.y1 ∧
    l[2 * (i0 + n2 + n2)]? = some q.x2 ∧ l[2 * (i0 + n2 + n2) + 1]? = some q.y2 ∧
    l[2 * (i0 + n2 + n2 + n2)]? = some q.x3 ∧ l[2 * (i0 + n2 + n2 + n2) + 1]? = some q.y3 := by
  unfold getQuad? at h
  simp only [Option.bind_eq_bind, Option.pure_def, Option.bind_eq_some] at h
  obtain ⟨x0, h0, y0, h1, x1, h2, y1, h3, x2, h4, y2, h5, x3, h6, y3, h7, hq⟩ := h
  simp only [Option.some.injEq] at hq
  subst hq
  exact ⟨h0, h1, h2, h3, h4, h5, h6, h7⟩

theorem fwdButterfly_eq {R : Type} [Add R] [Sub R] [Mul R] (l : List R) (n2 i0 : Nat)
    (w : Twiddle R) (q : Quad R) (hn2 : 0 < n2) (hlen : l.length < 2 ^ 32)
    (hq : getQuad? l i0 n2 = some q) :
    fwdButterfly l n2 i0 w = .ok (putQuad l i0 n2 (fwdVals w q)) := by
  obtain ⟨h0, h1, h2, h3, h4, h5, h6, h7⟩ := getQuad?_eq_some hq
  have hlt : 2 * (i0 + n2 + n2 + n2) + 1 < l.length := by
    rcases List.getElem?_eq_some.mp h7 with ⟨h, _⟩
    exact h
  have e1 : u32 (i0 + n2) = i0 + n2 := u32_of_lt (by omega)
  have e2 : u32 (i0 + n2 + n2) = i0 + n2 + n2 := u32_of_lt (by omega)
  have e3 : u32 (i0 + n2 + n2 + n2) = i0 + n2 + n2 + n2 := u32_of_lt (by omega)
  have f0 : u32 (2 * i0) = 2 * i0 := u32_of_lt (by omega)
  have f1 : u32 (2 * (i0 + n2)) = 2 * (i0 + n2) := u32_of_lt (by omega)
  have f2 : u32 (2 * (i0 + n2 + n2)) = 2 * (i0 + n2 + n2) := u32_of_lt (by omega)
  have f3 : u32 (2 * (i0 + n2 + n2 + n2)) = 2 * (i0 + n2 + n2 + n2) := u32_of_lt (by omega)
  have g0 : u32 (2 * i0 + 1) = 2 * i0 + 1 := u32_of_lt (by omega)
  have g1 : u32 (2 * (i0 + n2) + 1) = 2 * (i0 + n2) + 1 := u32_of_lt (by omega)
  have g2 : u32 (2 * (i0 + n2 + n2) + 1) = 2 * (i0 + n2 + n2) + 1 := u32_of_lt (by omega)
  have g3 : u32 (2 * (i0 + n2 + n2 + n2) + 1) = 2 * (i0 + n2 + n2 + n2) + 1 :=
    u32_of_lt (by omega)
  have k0 : 2 * i0 < l.length := by omega
  have k1 : 2 * i0 + 1 < l.length := by omega
  have k2 : 2 * (i0 + n2) < l.length := by omega
  have k3 : 2 * (i0 + n2) + 1 < l.length := by omega
  have k4 : 2 * (i0 + n2 + n2) < l.length := by omega
  have k5 : 2 * (i0 + n2 + n2) + 1 < l.length := by omega
  have k6 : 2 * (i0 + n2 + n2 + n2) < l.length := by omega
  unfold fwdButterfly
  simp only [e1, e2, e3, f0, f1, f2, f3, g0, g1, g2, g3]
  simp (disch := omega) only [bind, Except.bind, readSrc, writeSrc, h0, h1, h2, h3, h4, h5, h6, h7,
    List.getElem?_set_ne, List.length_set, if_true, ite_true, k0, k1, k2, k3, k4, k5, k6, hlt]
  rfl

theorem invButterfly_eq {R : Type} [Add R] [Sub R] [Mul R] (l : List R) (n2 i0 : Nat)
    (w : Twiddle R) (q : Quad R) (hn2 : 0 < n2) (hlen : l.length < 2 ^ 32)
    (hq : getQuad? l i0 n2 = some q) :
    invButterfly l n2 i0 w = .ok (putQuad l i0 n2 (invVals w q)) := by
  obtain ⟨h0, h1, h2, h3, h4, h5, h6, h7⟩ := getQuad?_eq_some hq
  have hlt : 2 * (i0 + n2 + n2 + n2) + 1 < l.length := by
    rcases List.getElem?_eq_some.mp h7 with ⟨h, _⟩
    exact h
  have e1 : u32 (i0 + n2) = i0 + n2 := u32_of_lt (by omega)
  have e2 : u32 (i0 + n2 + n2) = i0 + n2 + n2 := u32_of_lt (by omega)
  have e3 : u32 (i0 + n2 + n2 + n2) = i0 + n2 + n2 + n2 := u32_of_lt (by omega)
  have f0 : u32 (2 * i0) = 2 * i0 := u32_of_lt (by omega)
  have f1 : u32 (2 * (i0 + n2)) = 2 * (i0 + n2) := u32_of_lt (by omega)
  have f2 : u32 (2 * (i0 + n2 + n2)) = 2 * (i0 + n2 + n2) := u32_of_lt (by omega)
  have f3 : u32 (2 * (i0 + n2 + n2 + n2)) = 2 * (i0 + n2 + n2 + n2) := u32_of_lt (by omega)
  have g0 : u32 (2 * i0 + 1) = 2 * i0 + 1 := u32_of_lt (by omega)
  have g1 : u32 (2 * (i0 + n2) + 1) = 2 * (i0 + n2) + 1 := u32_of_lt (by omega)
  have g2 : u32 (2 * (i0 + n2 + n2) + 1) = 2 * (i0 + n2 + n2) + 1 := u32_of_lt (by omega)
  have g3 : u32 (2 * (i0 + n2 + n2 + n2) + 1) = 2 * (i0 + n2 + n2 + n2) + 1 :=
    u32_of_lt (by omega)
  have k0 : 2 * i0 < l.length := by omega
  have k1 : 2 * i0 + 1 < l.length := by omega
  have k2 : 2 * (i0 + n2) < l.length := by omega
  have k3 : 2 * (i0 + n2) + 1 < l.length := by omega
  have k4 : 2 * (i0 + n2 + n2) < l.length := by omega
  have k5 : 2 * (i0 + n2 + n2) + 1 < l.length := by omega
  have k6 : 2 * (i0 + n2 + n2 + n2) < l.length := by omega
  unfold invButterfly
  simp only [e1, e2, e3, f0, f1, f2, f3, g0, g1, g2, g3]
  simp (disch := omega) only [bind, Except.bind, readSrc, writeSrc, h0, h1, h2, h3, h4, h5, h6, h7,
    List.getElem?_set_ne, List.length_set, if_true, ite_true, k0, k1, k2, k3, k4, k5, k6, hlt]
  rfl

theorem invLastButterfly_eq {R : Type} [Add R] [Sub R] [Mul R] (l : List R) (n2 i0 : Nat)
    (f : R) (q : Quad R) (hn2 : 0 < n2) (hlen : l.length < 2 ^ 32)
    (hq : getQuad? l i0 n2 = some q) :
    invLastButterfly l n2 i0 f = .ok (putQuad l i0 n2 (invLastVals f q)) := by
  obtain ⟨h0, h1, h2, h3, h4, h5, h6, h7⟩ := getQuad?_eq_some hq
  have hlt : 2 * (i0 + n2 + n2 + n2) + 1 < l.length := by
    rcases List.getElem?_eq_some.mp h7 with ⟨h, _⟩
    exact h
  have e1 : u32 (i0 + n2) = i0 + n2 := u32_of_lt (by omega)
  have e2 : u32 (i0 + n2 + n2) = i0 + n2 + n2 := u32_of_lt (by omega)
  have e3 : u32 (i0 + n2 + n2 + n2) = i0 + n2 + n2 + n2 := u32_of_lt (by omega)
  have f0 : u32 (2 * i0) = 2 * i0 := u32_of_lt (by omega)
  have f1 : u32 (2 * (i0 + n2)) = 2 * (i0 + n2) := u32_of_lt (by omega)
  have f2 : u32 (2 * (i0 + n2 + n2)) = 2 * (i0 + n2 + n2) := u32_of_lt (by omega)
  have f3 : u32 (2 * (i0 + n2 + n2 + n2)) = 2 * (i0 + n2 + n2 + n2) := u32_of_lt (by omega)
  have g0 : u32 (2 * i0 + 1) = 2 * i0 + 1 := u32_of_lt (by omega)
  have g1 : u32 (2 * (i0 + n2) + 1) = 2 * (i0 + n2) + 1 := u32_of_lt (by omega)
  have g2 : u32 (2 * (i0 + n2 + n2) + 1) = 2 * (i0 + n2 + n2) + 1 := u32_of_lt (by omega)
  have g3 : u32 (2 * (i0 + n2 + n2 + n2) + 1) = 2 * (i0 + n2 + n2 + n2) + 1 :=
    u32_of_lt (by omega)
  have k0 : 2 * i0 < l.length := by omega
  have k1 : 2 * i0 + 1 < l.length := by omega
  have k2 : 2 * (i0 + n2) < l.length := by omega
  have k3 : 2 * (i0 + n2) + 1 < l.length := by omega
  have k4 : 2 * (i0 + n2 + n2) < l.length := by omega
  have k5 : 2 * (i0 + n2 + n2) + 1 < l.length := by omega
  have k6 : 2 * (i0 + n2 + n2 + n2) < l.length := by omega
  unfold invLastButterfly
  simp only [e1, e2, e3, f0, f1, f2, f3, g0, g1, g2, g3]
  simp (disch := omega) only [bind, Except.bind, readSrc, writeSrc, h0, h1, h2, h3, h4, h5, h6, h7,
    List.getElem?_set_ne, List.length_set, if_true, ite_true, k0, k1, k2, k3, k4, k5, k6, hlt]
  rfl


theorem nat_divmod_unique {n a a' j j' : Nat} (hj : j < n) (hj' : j' < n)
    (h : a * n + j = a' * n + j') : a = a' ∧ j = j' := by
  have h1 : (a * n + j) / n = a := by
    rw [Nat.mul_comm, Nat.mul_add_div (by omega), Nat.div_eq_of_lt hj]; rfl
  have h2 : (a' * n + j') / n = a' := by
    rw [Nat.mul_comm, Nat.mul_add_div (by omega), Nat.div_eq_of_lt hj']; rfl
  have ha : a = a' := by rw [← h1, ← h2, h]
  subst ha
  exact ⟨rfl, by omega⟩

/-- Butterflies of one stage at different (block, column) pairs touch different positions. -/
theorem quad_disjoint {n2 b j b' j' : Nat} (hj : j < n2) (hj' : j' < n2)
    (hne : ¬ (b = b' ∧ j = j')) (t t' : Nat) (ht : t < 4) (ht' : t' < 4) :
    j + b * (4 * n2) + t * n2 ≠ j' + b' * (4 * n2) + t' * n2 := by
  intro h
  have h' : (4 * b + t) * n2 + j = (4 * b' + t') * n2 + j' := by
    have e1 : (4 * b + t) * n2 + j = j + b * (4 * n2) + t * n2 := by ring
    have e2 : (4 * b' + t') * n2 + j' = j' + b' * (4 * n2) + t' * n2 := by ring
    rw [e1, e2, h]
  obtain ⟨h1, h2⟩ := nat_divmod_unique hj hj' h'
  exact hne ⟨by omega, h2⟩

theorem length_putQuad {R : Type} (l : List R) (i0 n2 : Nat) (q : Quad R) :
    (putQuad l i0 n2 q).length = l.length := by
  simp [putQuad]

theorem getElem?_putQuad_of_ne {R : Type} (l : List R) (i0 n2 : Nat) (q : Quad R) (k : Nat)
    (h0 : k ≠ 2 * i0) (h1 : k ≠ 2 * i0 + 1) (h2 : k ≠ 2 * (i0 + n2))
    (h3 : k ≠ 2 * (i0 + n2) + 1) (h4 : k ≠ 2 * (i0 + n2 + n2))
    (h5 : k ≠ 2 * (i0 + n2 + n2) + 1) (h6 : k ≠ 2 * (i0 + n2 + n2 + n2))
    (h7 : k ≠ 2 * (i0 + n2 + n2 + n2) + 1) :
    (putQuad l i0 n2 q)[k]? = l[k]? := by
  unfold putQuad
  simp (disch := omega) only [List.getElem?_set_ne]

theorem getQuad?_putQuad_self {R : Type} (l : List R) (i0 n2 : Nat) (q : Quad R)
    (hn2 : 0 < n2) (hlt : 2 * (i0 + n2 + n2 + n2) + 1 < l.length) :
    getQuad? (putQuad l i0 n2 q) i0 n2 = some q := by
  unfold getQuad? putQuad
  simp (disch := omega) only [List.getElem?_set, List.length_set, if_pos, if_neg]
  rfl

theorem getQuad?_putQuad_of_disjoint {R : Type} (l : List R) (i0 i0' n2 : Nat) (q : Quad R)
    (hd : ∀ t t', t < 4 → t' < 4 → i0 + t * n2 ≠ i0' + t' * n2) :
    getQuad? (putQuad l i0 n2 q) i0' n2 = getQuad? l i0' n2 := by
  have d00 := hd 0 0 (by omega) (by omega)
  have d01 := hd 0 1 (by omega) (by omega)
  have d02 := hd 0 2 (by omega) (by omega)
  have d03 := hd 0 3 (by omega) (by omega)
  have d10 := hd 1 0 (by omega) (by omega)
  have d11 := hd 1 1 (by omega) (by omega)
  have d12 := hd 1 2 (by omega) (by omega)
  have d13 := hd 1 3 (by omega) (by omega)
  have d20 := hd 2 0 (by omega) (by omega)
  have d21 := hd 2 1 (by omega) (by omega)
  have d22 := hd 2 2 (by omega) (by omega)
  have d23 := hd 2 3 (by omega) (by omega)
  have d30 := hd 3 0 (by omega) (by omega)
  have d31 := hd 3 1 (by omega) (by omega)
  have d32 := hd 3 2 (by omega) (by omega)
  have d33 := hd 3 3 (by omega) (by omega)
  unfold getQuad?
  rw [getElem?_putQuad_of_ne l i0 n2 q (2 * i0') (by omega) (by omega) (by omega) (by omega)
      (by omega) (by omega) (by omega) (by omega),
    getElem?_putQuad_of_ne l i0 n2 q (2 * i0' + 1) (by omega) (by omega) (by omega) (by omega)
      (by omega) (by omega) (by omega) (by omega),
    getElem?_putQuad_of_ne l i0 n2 q (2 * (i0' + n2)) (by omega) (by omega) (by omega) (by omega)
      (by omega) (by omega) (by omega) (by omega),
    getElem?_putQuad_of_ne l i0 n2 q (2 * (i0' + n2) + 1) (by omega) (by omega) (by omega)
      (by omega) (by omega) (by omega) (by omega) (by omega),
    getElem?_putQuad_of_ne l i0 n2 q (2 * (i0' + n2 + n2)) (by omega) (by omega) (by omega)
      (by omega) (by omega) (by omega) (by omega) (by omega),
    getElem?_putQuad_of_ne l i0 n2 q (2 * (i0' + n2 + n2) + 1) (by omega) (by omega) (by omega)
      (by omega) (by omega) (by omega) (by omega) (by omega),
    getElem?_putQuad_of_ne l i0 n2 q (2 * (i0' + n2 + n2 + n2)) (by omega) (by omega) (by omega)
      (by omega) (by omega) (by omega) (by omega) (by omega),
    getElem?_putQuad_of_ne l i0 n2 q (2 * (i0' + n2 + n2 + n2) + 1) (by omega) (by omega)
      (by omega) (by omega) (by omega) (by omega) (by omega) (by omega)]

end CmsisDsp

namespace CmsisDsp

/-! ## One row of butterflies, one column loop -/

theorem getQuad?_of_lt {R : Type} (l : List R) (i0 n2 : Nat)
    (hlt : 2 * (i0 + n2 + n2 + n2) + 1 < l.length) : ∃ q, getQuad? l i0 n2 = some q := by
  have k0 : 2 * i0 < l.length := by omega
  have k1 : 2 * i0 + 1 < l.length := by omega
  have k2 : 2 * (i0 + n2) < l.length := by omega
  have k3 : 2 * (i0 + n2) + 1 < l.length := by omega
  have k4 : 2 * (i0 + n2 + n2) < l.length := by omega
  have k5 : 2 * (i0 + n2 + n2) + 1 < l.length := by omega
  have k6 : 2 * (i0 + n2 + n2 + n2) < l.length := by omega
  refine ⟨⟨l[2 * i0], l[2 * i0 + 1], l[2 * (i0 + n2)], l[2 * (i0 + n2) + 1],
    l[2 * (i0 + n2 + n2)], l[2 * (i0 + n2 + n2) + 1], l[2 * (i0 + n2 + n2 + n2)],
    l[2 * (i0 + n2 + n2 + n2) + 1]⟩, ?_⟩
  unfold getQuad?
  simp only [List.getElem?_eq_getElem, k0, k1, k2, k3, k4, k5, k6, hlt]
  rfl

theorem lt_of_getQuad? {R : Type} {l : List R} {i0 n2 : Nat} {q : Quad R}
    (h : getQuad? l i0 n2 = some q) : 2 * (i0 + n2 + n2 + n2) + 1 < l.length := by
  obtain ⟨_, _, _, _, _, _, _, h7⟩ := getQuad?_eq_some h
  exact (List.getElem?_eq_some.mp h7).1

/-- Positions of a butterfly of a stage with `cnt` blocks of length `4 * n2` are in range
of a buffer holding `cnt * (4 * n2)` complex samples. -/
theorem quad_in_range {n2 cnt j b len : Nat} (hj : j < n2) (hb : b < cnt)
    (hlen : 2 * (cnt * (4 * n2)) ≤ len) :
    2 * (j + b * (4 * n2) + n2 + n2 + n2) + 1 < len := by
  have h1 : (b + 1) * (4 * n2) ≤ cnt * (4 * n2) := Nat.mul_le_mul_right _ hb
  have h2 : (b + 1) * (4 * n2) = b * (4 * n2) + 4 * n2 := by ring
  omega

theorem row_cond_iff {n1 cnt j bd : Nat} (hj : j < n1) :
    j + (bd + 1) * n1 < cnt * n1 ↔ bd + 1 < cnt := by
  constructor
  · intro h
    by_contra hc
    have : cnt * n1 ≤ (bd + 1) * n1 := Nat.mul_le_mul_right _ (by omega)
    omega
  · intro h
    have h1 : (bd + 2) * n1 ≤ cnt * n1 := Nat.mul_le_mul_right _ (by omega)
    have h2 : (bd + 2) * n1 = (bd + 1) * n1 + n1 := by ring
    omega

theorem rowLoop_rule {R : Type} (B : List R → Nat → Except Fault (List R))
    (V : Quad R → Quad R) (E : Fault → Prop) (n2 cnt j fuel : Nat) (a : List R)
    (hB : ∀ l i0 q, l.length < 2 ^ 32 → getQuad? l i0 n2 = some q →
      B l i0 = .ok (putQuad l i0 n2 (V q)))
    (hn2 : 0 < n2) (hcnt : 0 < cnt) (hj : j < n2)
    (hlen : 2 * (cnt * (4 * n2)) ≤ a.length) (hlen32 : a.length < 2 ^ 32)
    (hfuel : cnt ≤ fuel ∨ E .budget) :
    (∃ out, rowLoop B fuel (cnt * (4 * n2)) (4 * n2) j a = .ok out ∧ RowOut V n2 cnt j a out) ∨
    (∃ e, rowLoop B fuel (cnt * (4 * n2)) (4 * n2) j a = .error e ∧ E e) := by
  have key := doWhile_rule
    (fun (st : RowSt R) => do
      let pSrc ← B st.pSrc st.i0
      pure { pSrc := pSrc, i0 := u32 (st.i0 + 4 * n2) })
    (fun st => decide (st.i0 < cnt * (4 * n2)))
    (fun bd st => st.i0 = j + bd * (4 * n2) ∧ st.pSrc.length = a.length ∧
      (∀ b, b < cnt → getQuad? st.pSrc (j + b * (4 * n2)) n2 =
        if b < bd then (getQuad? a (j + b * (4 * n2)) n2).map V
        else getQuad? a (j + b * (4 * n2)) n2) ∧
      (∀ j', j' < n2 → j' ≠ j → ∀ b, b < cnt →
        getQuad? st.pSrc (j' + b * (4 * n2)) n2 = getQuad? a (j' + b * (4 * n2)) n2))
    E cnt ?step fuel 0 { pSrc := a, i0 := j } hcnt (by simpa using hfuel) ?init
  case init =>
    refine ⟨by simp, rfl, ?_, ?_⟩
    · intro b _; simp
    · intro j' _ _ b _; rfl
  case step =>
    intro bd st hbd ⟨hi0, hl, hcol, hoth⟩
    left
    have hrange := @quad_in_range n2 cnt j bd a.length hj hbd hlen
    obtain ⟨q, hq⟩ := getQuad?_of_lt a (j + bd * (4 * n2)) n2 hrange
    have hcur : getQuad? st.pSrc st.i0 n2 = some q := by
      rw [hi0, hcol bd hbd, if_neg (Nat.lt_irrefl _), hq]
    have hbody := hB st.pSrc st.i0 q (by omega) hcur
    refine ⟨{ pSrc := putQuad st.pSrc st.i0 n2 (V q), i0 := u32 (st.i0 + 4 * n2) }, ?_, ?_, ?_⟩
    · simp only [hbody]; rfl
    · have hnext : u32 (st.i0 + 4 * n2) = j + (bd + 1) * (4 * n2) := by
        rw [hi0, u32_of_lt]
        · ring
        · have h2 : (bd + 1) * (4 * n2) = bd * (4 * n2) + 4 * n2 := by ring
          omega
      refine ⟨hnext, by simp [length_putQuad, hl], ?_, ?_⟩
      · intro b hb
        by_cases hbb : b = bd
        · subst hbb
          rw [if_pos (Nat.lt_succ_self _), hq, ← hi0]
          rw [getQuad?_putQuad_self _ _ _ _ hn2 (by rw [hi0, hl]; exact hrange)]
          rfl
        · have hd : ∀ t t', t < 4 → t' < 4 →
              st.i0 + t * n2 ≠ j + b * (4 * n2) + t' * n2 := by
            intro t t' ht ht'
            rw [hi0]
            exact quad_disjoint hj hj (fun h => hbb h.1.symm) t t' ht ht'
          rw [getQuad?_putQuad_of_disjoint _ _ _ _ _ hd, hcol b hb]
          by_cases hlt : b < bd
          · rw [if_pos hlt, if_pos (by omega)]
          · rw [if_neg hlt, if_neg (by omega)]
      · intro j' hj' hne b hb
        have hd : ∀ t t', t < 4 → t' < 4 →
            st.i0 + t * n2 ≠ j' + b * (4 * n2) + t' * n2 := by
          intro t t' ht ht'
          rw [hi0]
          exact quad_disjoint hj hj' (fun h => hne h.2.symm) t t' ht ht'
        rw [getQuad?_putQuad_of_disjoint _ _ _ _ _ hd, hoth j' hj' hne b hb]
    · have hnext : u32 (st.i0 + 4 * n2) = j + (bd + 1) * (4 * n2) := by
        rw [hi0, u32_of_lt]
        · ring
        · have h2 : (bd + 1) * (4 * n2) = bd * (4 * n2) + 4 * n2 := by ring
          omega
      simp only [hnext, decide_eq_true_eq]
      exact row_cond_iff (by omega)
  rcases key with ⟨st, hrun, hi0, hl, hcol, hoth⟩ | ⟨e, hrun, he⟩
  · left
    refine ⟨st.pSrc, ?_, hl, ?_, hoth⟩
    · unfold rowLoop; simp only [hrun]; rfl
    · intro b hb
      rw [hcol b hb, if_pos hb]
  · right
    exact ⟨e, by unfold rowLoop; simp only [hrun]; rfl, he⟩

end CmsisDsp

namespace CmsisDsp

theorem readCoef_cases {R : Type} (pCoef : List R) (i : Nat) :
    (∃ v, readCoef pCoef i = .ok v) ∨ readCoef pCoef i = .error .coefRange := by
  unfold readCoef
  cases pCoef[i]? with
  | none => right; rfl
  | some v => left; exact ⟨v, rfl⟩

theorem readTwiddle_cases {R : Type} (pCoef : List R) (ia1 : Nat) :
    (∃ w, readTwiddle pCoef ia1 = .ok w) ∨ readTwiddle pCoef ia1 = .error .coefRange := by
  unfold readTwiddle
  rcases readCoef_cases pCoef (u32 (ia1 * 2)) with ⟨v1, h1⟩ | h1
  swap
  · right; simp [bind, Except.bind, h1]
  rcases readCoef_cases pCoef (u32 (u32 (ia1 * 2) + 1)) with ⟨v2, h2⟩ | h2
  swap
  · right; simp [bind, Except.bind, h1, h2]
  rcases readCoef_cases pCoef (u32 (u32 (ia1 + ia1) * 2)) with ⟨v3, h3⟩ | h3
  swap
  · right; simp [bind, Except.bind, h1, h2, h3]
  rcases readCoef_cases pCoef (u32 (u32 (u32 (ia1 + ia1) * 2) + 1)) with ⟨v4, h4⟩ | h4
  swap
  · right; simp [bind, Except.bind, h1, h2, h3, h4]
  rcases readCoef_cases pCoef (u32 (u32 (u32 (ia1 + ia1) + ia1) * 2)) with ⟨v5, h5⟩ | h5
  swap
  · right; simp [bind, Except.bind, h1, h2, h3, h4, h5]
  rcases readCoef_cases pCoef (u32 (u32 (u32 (u32 (ia1 + ia1) + ia1) * 2) + 1)) with ⟨v6, h6⟩ | h6
  swap
  · right; simp [bind, Except.bind, h1, h2, h3, h4, h5, h6]
  left
  exact ⟨⟨v1, v2, v3, v4, v5, v6⟩,
    by simp [bind, Except.bind, h1, h2, h3, h4, h5, h6, pure, Except.pure]⟩

theorem u32_add_u32 (a c : Nat) : u32 (u32 a + c) = u32 (a + c) := by
  unfold u32
  exact Nat.mod_add_mod a (2 ^ 32) c

theorem colLoop_rule {R : Type}
    (bfly : List R → Nat → Nat → Twiddle R → Except Fault (List R))
    (vals : Twiddle R → Quad R → Quad R) (E : Fault → Prop)
    (n2 cnt c fuel : Nat) (pCoef z : List R)
    (hB : ∀ w l i0 q, l.length < 2 ^ 32 → getQuad? l i0 n2 = some q →
      bfly l n2 i0 w = .ok (putQuad l i0 n2 (vals w q)))
    (hn2 : 0 < n2) (hcnt : 0 < cnt)
    (hlen : 2 * (cnt * (4 * n2)) ≤ z.length) (hlen32 : z.length < 2 ^ 32)
    (hfuel : (n2 ≤ fuel ∧ cnt ≤ fuel) ∨ E .budget)
    (htw : (∀ j, j < n2 → ∃ w, readTwiddle pCoef (u32 (j * c)) = .ok w) ∨ E .coefRange) :
    (∃ out, colLoop bfly fuel (cnt * (4 * n2)) (4 * n2) n2 c pCoef z = .ok out ∧
      ColOut vals pCoef c n2 cnt z out) ∨
    (∃ e, colLoop bfly fuel (cnt * (4 * n2)) (4 * n2) n2 c pCoef z = .error e ∧ E e) := by
  have hn2lt : 4 * n2 ≤ cnt * (4 * n2) := Nat.le_mul_of_pos_left _ hcnt
  have key := doWhile_rule
    (fun (st : ColSt R) => do
      let w ← readTwiddle pCoef st.ia1
      let ia1 := u32 (st.ia1 + c)
      let pSrc ← rowLoop (fun p i0 => bfly p n2 i0 w) fuel (cnt * (4 * n2)) (4 * n2) st.j st.pSrc
      pure { pSrc := pSrc, ia1 := ia1, j := u32 (st.j + 1) })
    (fun st => decide (st.j ≤ sub32 n2 1))
    (fun jd st => st.j = jd ∧ st.ia1 = u32 (jd * c) ∧ st.pSrc.length = z.length ∧
      ∀ j, j < n2 →
        if j < jd then
          ∃ w, readTwiddle pCoef (u32 (j * c)) = .ok w ∧ ∀ b, b < cnt →
            getQuad? st.pSrc (j + b * (4 * n2)) n2 =
              (getQuad? z (j + b * (4 * n2)) n2).map (vals w)
        else ∀ b, b < cnt →
          getQuad? st.pSrc (j + b * (4 * n2)) n2 = getQuad? z (j + b * (4 * n2)) n2)
    E n2 ?step fuel 0 { pSrc := z, ia1 := 0, j := 0 } hn2
    (by rcases hfuel with h | h; exact Or.inl (by omega); exact Or.inr h) ?init
  case init =>
    refine ⟨rfl, by simp [u32], rfl, ?_⟩
    intro j _
    rw [if_neg (Nat.not_lt_zero _)]
    intro b _
    rfl
  case step =>
    intro jd st hjd ⟨hj, hia, hl, hdata⟩
    rcases readTwiddle_cases pCoef st.ia1 with ⟨w, hw⟩ | hw
    swap
    · right
      refine ⟨.coefRange, by simp [bind, Except.bind, hw], ?_⟩
      rcases htw with h | h
      · obtain ⟨w, hw'⟩ := h jd hjd
        rw [hia, hw'] at hw
        exact absurd hw (by simp)
      · exact h
    have hrow := rowLoop_rule (fun p i0 => bfly p n2 i0 w) (vals w) E n2 cnt jd fuel st.pSrc
      (fun l i0 q h1 h2 => hB w l i0 q h1 h2) hn2 hcnt hjd (by omega) (by omega)
      (by rcases hfuel with h | h; exact Or.inl h.2; exact Or.inr h)
    rcases hrow with ⟨out, hrun, hol, hcol, hoth⟩ | ⟨e, hrun, he⟩
    swap
    · right
      exact ⟨e, by simp [bind, Except.bind, hw, hj, hrun], he⟩
    left
    refine ⟨{ pSrc := out, ia1 := u32 (st.ia1 + c), j := u32 (st.j + 1) }, ?_, ?_, ?_⟩
    · simp [bind, Except.bind, hw, hj, hrun, pure, Except.pure]
    · have hj1 : u32 (st.j + 1) = jd + 1 := by rw [hj]; exact u32_of_lt (by omega)
      refine ⟨hj1, ?_, by simp [hol, hl], ?_⟩
      · show u32 (st.ia1 + c) = u32 ((jd + 1) * c)
        rw [hia, u32_add_u32]
        congr 1
        ring
      · intro j hjn
        show if j < jd + 1 then _ else _
        by_cases hlt : j < jd
        · rw [if_pos (by omega)]
          have := hdata j hjn
          rw [if_pos hlt] at this
          obtain ⟨w', hw', hq⟩ := this
          refine ⟨w', hw', fun b hb => ?_⟩
          show getQuad? out _ _ = _
          rw [hoth j hjn (by omega) b hb, hq b hb]
        · by_cases heq : j = jd
          · subst heq
            rw [if_pos (Nat.lt_succ_self _)]
            refine ⟨w, by rw [← hia]; exact hw, fun b hb => ?_⟩
            show getQuad? out _ _ = _
            have := hdata j hjn
            rw [if_neg hlt] at this
            rw [hcol b hb, this b hb]
          · rw [if_neg (by omega)]
            intro b hb
            show getQuad? out _ _ = _
            have := hdata j hjn
            rw [if_neg hlt] at this
            rw [hoth j hjn heq b hb, this b hb]
    · have hj1 : u32 (st.j + 1) = jd + 1 := by rw [hj]; exact u32_of_lt (by omega)
      simp only [hj1, decide_eq_true_eq]
      rw [sub32_of_le (by omega) (by omega)]
      omega
  rcases key with ⟨st, hrun, _, _, hl, hdata⟩ | ⟨e, hrun, he⟩
  · left
    refine ⟨st.pSrc, by unfold colLoop; simp only [hrun]; rfl, hl, ?_⟩
    intro j hj
    have := hdata j hj
    rw [if_pos hj] at this
    exact this
  · right
    exact ⟨e, by unfold colLoop; simp only [hrun]; rfl, he⟩

end CmsisDsp

namespace CmsisDsp

theorem modAt_of_lt (c m : Nat) (h : c * 4 ^ m < 2 ^ 16) :
    ∀ i, i ≤ m → modAt c i = c * 4 ^ i := by
  intro i
  induction i with
  | zero => intro _; simp [modAt]
  | succ i ih =>
    intro hi
    have hle : c * 4 ^ (i + 1) ≤ c * 4 ^ m :=
      Nat.mul_le_mul_left _ (Nat.pow_le_pow_right (by omega) hi)
    rw [modAt, ih (by omega), u16_of_lt]
    · rw [pow_succ]; ring
    · have : c * 4 ^ i * 4 = c * 4 ^ (i + 1) := by rw [pow_succ]; ring
      omega

theorem four_pow_split {m i : Nat} (hi : i < m) :
    4 ^ (m - i) = 4 * 4 ^ (m - i - 1) ∧ 4 ^ m = 4 ^ i * (4 * 4 ^ (m - i - 1)) := by
  have h1 : m - i = (m - i - 1) + 1 := by omega
  have e1 : 4 ^ (m - i) = 4 * 4 ^ (m - i - 1) := by
    conv_lhs => rw [h1, pow_succ]
    ring
  refine ⟨e1, ?_⟩
  rw [← e1, ← pow_add]
  congr 1
  omega

/-- Counting rule for the stage loop: `D i` describes the buffer after `i` stages. -/
theorem stages_rule {R : Type}
    (bfly : List R → Nat → Nat → Twiddle R → Except Fault (List R))
    (vals : Twiddle R → Quad R → Quad R) (E : Fault → Prop)
    (cond : StageSt R → Bool) (D : Nat → List R → Prop)
    (m n c fuel : Nat) (pCoef pSrc : List R)
    (hB : ∀ n2 w l i0 q, 0 < n2 → l.length < 2 ^ 32 → getQuad? l i0 n2 = some q →
      bfly l n2 i0 w = .ok (putQuad l i0 n2 (vals w q)))
    (hn : n ≤ m)
    (hcond : ∀ st i, i ≤ n → st.k = 4 ^ (m - i) → (cond st = true ↔ i < n))
    (hlen : 2 * 4 ^ m ≤ pSrc.length) (hlen32 : pSrc.length < 2 ^ 32)
    (hfuel : 4 ^ m ≤ fuel ∨ E .budget)
    (htw : (∀ i, i < n → ∀ j, j < 4 ^ (m - i - 1) →
      ∃ w, readTwiddle pCoef (u32 (j * modAt c i)) = .ok w) ∨ E .coefRange)
    (hD0 : D 0 pSrc)
    (hD : ∀ i z out, i < n → D i z → z.length = pSrc.length →
      ColOut vals pCoef (modAt c i) (4 ^ (m - i - 1)) (4 ^ i) z out → D (i + 1) out) :
    (∃ st, forLoop cond (stageBody bfly fuel (4 ^ m) pCoef) fuel
        { pSrc := pSrc, k := 4 ^ m, n1 := 4 ^ m, n2 := 4 ^ m, twidCoefModifier := c } = .ok st ∧
      st.k = 4 ^ (m - n) ∧ st.n2 = 4 ^ (m - n) ∧ st.twidCoefModifier = modAt c n ∧
      st.pSrc.length = pSrc.length ∧ D n st.pSrc) ∨
    (∃ e, forLoop cond (stageBody bfly fuel (4 ^ m) pCoef) fuel
        { pSrc := pSrc, k := 4 ^ m, n1 := 4 ^ m, n2 := 4 ^ m, twidCoefModifier := c } = .error e ∧
      E e) := by
  have hmle : m < 4 ^ m := Nat.lt_pow_self (by omega) m
  have key := forLoop_rule cond (stageBody bfly fuel (4 ^ m) pCoef)
    (fun i st => st.k = 4 ^ (m - i) ∧ st.n2 = 4 ^ (m - i) ∧ st.twidCoefModifier = modAt c i ∧
      st.pSrc.length = pSrc.length ∧ D i st.pSrc)
    E n ?hc ?step fuel 0
    { pSrc := pSrc, k := 4 ^ m, n1 := 4 ^ m, n2 := 4 ^ m, twidCoefModifier := c }
    (Nat.zero_le _) (by rcases hfuel with h | h; exact Or.inl (by omega); exact Or.inr h)
    ⟨rfl, rfl, rfl, rfl, hD0⟩
  case hc =>
    intro i st hi ⟨hk, _⟩
    exact hcond st i hi hk
  case step =>
    intro i st hi ⟨hk, hn2, hc, hl, hd⟩
    obtain ⟨e1, e2⟩ := four_pow_split (show i < m by omega)
    have hpos : 0 < 4 ^ (m - i - 1) := Nat.pow_pos (by omega)
    have hcnt : 0 < 4 ^ i := Nat.pow_pos (by omega)
    have hdiv : 4 ^ (m - i) / 4 = 4 ^ (m - i - 1) := by rw [e1]; omega
    have hle1 : 4 ^ (m - i - 1) ≤ 4 ^ m := Nat.pow_le_pow_right (by omega) (by omega)
    have hle2 : 4 ^ i ≤ 4 ^ m := Nat.pow_le_pow_right (by omega) (by omega)
    have hcol := colLoop_rule bfly vals E (4 ^ (m - i - 1)) (4 ^ i) (modAt c i) fuel pCoef st.pSrc
      (fun w l i0 q h1 h2 => hB _ w l i0 q hpos h1 h2) hpos hcnt
      (by rw [← e2, hl]; exact hlen) (by omega)
      (by rcases hfuel with h | h; exact Or.inl ⟨by omega, by omega⟩; exact Or.inr h)
      (by rcases htw with h | h; exact Or.inl (h i hi); exact Or.inr h)
    rw [← e2, ← e1] at hcol
    rcases hcol with ⟨out, hrun, hout⟩ | ⟨e, hrun, he⟩
    · left
      refine ⟨{ pSrc := out, k := st.k / 4, n1 := st.n2, n2 := st.n2 / 4,
                twidCoefModifier := u16 (st.twidCoefModifier * 4) }, ?_, ?_⟩
      · unfold stageBody
        simp only [hn2, hdiv, hc, hrun, bind, Except.bind, pure, Except.pure]
      · have hsub : m - (i + 1) = m - i - 1 := by omega
        refine ⟨by simp only [hk, hdiv, hsub], by simp only [hn2, hdiv, hsub],
          by simp only [hc, modAt], by simp only [hout.1, hl], hD i st.pSrc out hi hd hl hout⟩
    · right
      refine ⟨e, ?_, he⟩
      unfold stageBody
      simp only [hn2, hdiv, hc, hrun, bind, Except.bind]
  exact key

end CmsisDsp

namespace CmsisDsp

theorem fwd_rule {R : Type} [Add R] [Sub R] [Mul R] (E : Fault → Prop) (D : Nat → List R → Prop)
    (m c fuel : Nat) (pCoef pSrc : List R)
    (hlen : 2 * 4 ^ m ≤ pSrc.length) (hlen32 : pSrc.length < 2 ^ 32)
    (hfuel : 4 ^ m ≤ fuel ∨ E .budget)
    (htw : (∀ i, i < m → ∀ j, j < 4 ^ (m - i - 1) →
      ∃ w, readTwiddle pCoef (u32 (j * modAt c i)) = .ok w) ∨ E .coefRange)
    (hD0 : D 0 pSrc)
    (hD : ∀ i z out, i < m → D i z → z.length = pSrc.length →
      ColOut fwdVals pCoef (modAt c i) (4 ^ (m - i - 1)) (4 ^ i) z out → D (i + 1) out) :
    (∃ out, arm_radix4_butterfly_f16 fuel pSrc (4 ^ m) pCoef c = .ok out ∧
      out.length = pSrc.length ∧ D m out) ∨
    (∃ e, arm_radix4_butterfly_f16 fuel pSrc (4 ^ m) pCoef c = .error e ∧ E e) := by
  have key := stages_rule fwdButterfly fwdVals E (fun (st : StageSt R) => decide (st.k > 1)) D
    m m c fuel pCoef pSrc
    (fun n2 w l i0 q h1 h2 h3 => fwdButterfly_eq l n2 i0 w q h1 h2 h3) (Nat.le_refl _)
    ?hc hlen hlen32 hfuel htw hD0 hD
  case hc =>
    intro st i hi hk
    simp only [hk, decide_eq_true_eq]
    constructor
    · intro h
      by_contra hc
      have : m - i = 0 := by omega
      rw [this] at h
      simp at h
    · intro h
      exact Nat.one_lt_pow (by omega) (by omega)
  rcases key with ⟨st, hrun, _, _, _, hl, hd⟩ | ⟨e, hrun, he⟩
  · left
    refine ⟨st.pSrc, ?_, hl, hd⟩
    unfold arm_radix4_butterfly_f16
    simp only [hrun, bind, Except.bind, pure, Except.pure]
  · right
    refine ⟨e, ?_, he⟩
    unfold arm_radix4_butterfly_f16
    simp only [hrun, bind, Except.bind]

/-- The final `for` loop of the inverse transform. -/
theorem lastLoop_rule {R : Type} [Add R] [Sub R] [Mul R] (E : Fault → Prop)
    (cnt fuel : Nat) (s : R) (a : List R) (hcnt : 0 < cnt)
    (hlen : 2 * (cnt * 4) ≤ a.length) (hlen32 : a.length < 2 ^ 32)
    (hfuel : cnt ≤ fuel ∨ E .budget) :
    (∃ st, forLoop (fun (r : RowSt R) => decide (r.i0 ≤ sub32 (cnt * 4) 4))
        (fun r => do
          let pSrc ← invLastButterfly r.pSrc 1 r.i0 s
          pure { pSrc := pSrc, i0 := u32 (r.i0 + 4) })
        fuel { pSrc := a, i0 := 0 } = .ok st ∧ RowOut (invLastVals s) 1 cnt 0 a st.pSrc) ∨
    (∃ e, forLoop (fun (r : RowSt R) => decide (r.i0 ≤ sub32 (cnt * 4) 4))
        (fun r => do
          let pSrc ← invLastButterfly r.pSrc 1 r.i0 s
          pure { pSrc := pSrc, i0 := u32 (r.i0 + 4) })
        fuel { pSrc := a, i0 := 0 } = .error e ∧ E e) := by
  have hsub : sub32 (cnt * 4) 4 = cnt * 4 - 4 := sub32_of_le (by omega) (by omega)
  have key := forLoop_rule
    (fun (r : RowSt R) => decide (r.i0 ≤ sub32 (cnt * 4) 4))
    (fun r => do
      let pSrc ← invLastButterfly r.pSrc 1 r.i0 s
      pure { pSrc := pSrc, i0 := u32 (r.i0 + 4) })
    (fun bd st => st.i0 = 0 + bd * (4 * 1) ∧ st.pSrc.length = a.length ∧
      (∀ b, b < cnt → getQuad? st.pSrc (0 + b * (4 * 1)) 1 =
        if b < bd then (getQuad? a (0 + b * (4 * 1)) 1).map (invLastVals s)
        else getQuad? a (0 + b * (4 * 1)) 1))
    E cnt ?hc ?step fuel 0 { pSrc := a, i0 := 0 } (Nat.zero_le _) (by simpa using hfuel) ?init
  case init =>
    refine ⟨by simp, rfl, ?_⟩
    intro b _; simp
  case hc =>
    intro i st hi ⟨hi0, _⟩
    simp only [hi0, hsub, decide_eq_true_eq]
    omega
  case step =>
    intro bd st hbd ⟨hi0, hl, hcol⟩
    left
    have hrange : 2 * (0 + bd * (4 * 1) + 1 + 1 + 1) + 1 < a.length := by omega
    obtain ⟨q, hq⟩ := getQuad?_of_lt a (0 + bd * (4 * 1)) 1 hrange
    have hcur : getQuad? st.pSrc st.i0 1 = some q := by
      rw [hi0, hcol bd hbd, if_neg (Nat.lt_irrefl _), hq]
    have hbody := invLastButterfly_eq st.pSrc 1 st.i0 s q (by omega) (by omega) hcur
    refine ⟨{ pSrc := putQuad st.pSrc st.i0 1 (invLastVals s q), i0 := u32 (st.i0 + 4) }, ?_, ?_⟩
    · simp only [hbody]; rfl
    · have hnext : u32 (st.i0 + 4) = 0 + (bd + 1) * (4 * 1) := by
        rw [hi0, u32_of_lt (by omega)]
        ring
      refine ⟨hnext, by simp [length_putQuad, hl], ?_⟩
      intro b hb
      by_cases hbb : b = bd
      · subst hbb
        rw [if_pos (Nat.lt_succ_self _), hq, ← hi0]
        rw [getQuad?_putQuad_self _ _ _ _ (by omega) (by rw [hi0, hl]; exact hrange)]
        rfl
      · have hd : ∀ t t', t < 4 → t' < 4 → st.i0 + t * 1 ≠ 0 + b * (4 * 1) + t' * 1 := by
          intro t t' ht ht'
          rw [hi0]
          omega
        rw [getQuad?_putQuad_of_disjoint _ _ _ _ _ hd, hcol b hb]
        by_cases hlt : b < bd
        · rw [if_pos hlt, if_pos (by omega)]
        · rw [if_neg hlt, if_neg (by omega)]
  rcases key with ⟨st, hrun, _, hl, hcol⟩ | ⟨e, hrun, he⟩
  · left
    refine ⟨st, hrun, hl, ?_, ?_⟩
    · intro b hb
      rw [hcol b hb, if_pos hb]
    · intro j' hj' hne
      omega
  · right
    exact ⟨e, hrun, he⟩

theorem inv_rule {R : Type} [Add R] [Sub R] [Mul R] (E : Fault → Prop) (D : Nat → List R → Prop)
    (m c fuel : Nat) (s : R) (pCoef pSrc : List R) (hm : 0 < m)
    (hlen : 2 * 4 ^ m ≤ pSrc.length) (hlen32 : pSrc.length < 2 ^ 32)
    (hfuel : 4 ^ m ≤ fuel ∨ E .budget)
    (htw : (∀ i, i < m - 1 → ∀ j, j < 4 ^ (m - i - 1) →
      ∃ w, readTwiddle pCoef (u32 (j * modAt c i)) = .ok w) ∨ E .coefRange)
    (hD0 : D 0 pSrc)
    (hD : ∀ i z out, i < m - 1 → D i z → z.length = pSrc.length →
      ColOut invVals pCoef (modAt c i) (4 ^ (m - i - 1)) (4 ^ i) z out → D (i + 1) out) :
    (∃ out st, forLoop (fun (st : StageSt R) => decide (st.k > 4))
        (stageBody invButterfly fuel (4 ^ m) pCoef) fuel
        { pSrc := pSrc, k := 4 ^ m, n1 := 4 ^ m, n2 := 4 ^ m, twidCoefModifier := c } = .ok st ∧
      arm_radix4_butterfly_inverse_f16 fuel pSrc (4 ^ m) pCoef c s = .ok out ∧
      st.pSrc.length = pSrc.length ∧ D (m - 1) st.pSrc ∧
      RowOut (invLastVals s) 1 (4 ^ (m - 1)) 0 st.pSrc out) ∨
    (∃ e, arm_radix4_butterfly_inverse_f16 fuel pSrc (4 ^ m) pCoef c s = .error e ∧ E e) := by
  have key := stages_rule invButterfly invVals E (fun (st : StageSt R) => decide (st.k > 4)) D
    m (m - 1) c fuel pCoef pSrc
    (fun n2 w l i0 q h1 h2 h3 => invButterfly_eq l n2 i0 w q h1 h2 h3) (Nat.sub_le _ _)
    ?hc hlen hlen32 hfuel htw hD0 hD
  case hc =>
    intro st i hi hk
    simp only [hk, decide_eq_true_eq]
    constructor
    · intro h
      by_contra hc
      have : m - i = 1 := by omega
      rw [this] at h
      simp at h
    · intro h
      have h2 : 4 ^ 2 ≤ 4 ^ (m - i) := Nat.pow_le_pow_right (by omega) (by omega)
      omega
  have hm1 : m - (m - 1) = 1 := by omega
  have h4m : 4 ^ m = 4 ^ (m - 1) * 4 := by
    conv_lhs => rw [show m = (m - 1) + 1 by omega, pow_succ]
  have hcnt : 0 < 4 ^ (m - 1) := Nat.pow_pos (by omega)
  rcases key with ⟨st, hrun, _, hn2, _, hl, hd⟩ | ⟨e, hrun, he⟩
  · rw [hm1] at hn2
    have hlast := lastLoop_rule E (4 ^ (m - 1)) fuel s st.pSrc hcnt (by rw [← h4m, hl]; exact hlen)
      (by omega) (by rcases hfuel with h | h; exact Or.inl (by omega); exact Or.inr h)
    rw [← h4m] at hlast
    simp only [bind, Except.bind, pure, Except.pure] at hlast
    rcases hlast with ⟨r, hrun2, hout⟩ | ⟨e, hrun2, he⟩
    · left
      refine ⟨r.pSrc, st, hrun, ?_, hl, hd, hout⟩
      unfold arm_radix4_butterfly_inverse_f16
      simp only [hrun, hn2, bind, Except.bind, pure, Except.pure]
      simp only [show (4 : Nat) ^ 1 = 4 by norm_num, show (4 : Nat) / 4 = 1 by norm_num, hrun2]
    · right
      refine ⟨e, ?_, he⟩
      unfold arm_radix4_butterfly_inverse_f16
      simp only [hrun, hn2, bind, Except.bind, pure, Except.pure]
      simp only [show (4 : Nat) ^ 1 = 4 by norm_num, show (4 : Nat) / 4 = 1 by norm_num, hrun2]
  · right
    refine ⟨e, ?_, he⟩
    unfold arm_radix4_butterfly_inverse_f16
    simp only [hrun, bind, Except.bind]

end CmsisDsp

namespace CmsisDsp

theorem readCoef_of_get {R : Type} {l : List R} {i : Nat} {v : R} (h : l[i]? = some v) :
    readCoef l i = .ok v := by
  simp [readCoef, h]

/-- The six table entries read for the column whose first index is `ia1`. -/
theorem readTwiddle_eq {R : Type} (pCoef : List R) (ia1 : Nat) (h32 : 6 * ia1 + 1 < 2 ^ 32)
    (w : Twiddle R)
    (h1 : pCoef[2 * ia1]? = some w.co1) (h2 : pCoef[2 * ia1 + 1]? = some w.si1)
    (h3 : pCoef[2 * (2 * ia1)]? = some w.co2) (h4 : pCoef[2 * (2 * ia1) + 1]? = some w.si2)
    (h5 : pCoef[2 * (3 * ia1)]? = some w.co3) (h6 : pCoef[2 * (3 * ia1) + 1]? = some w.si3) :
    readTwiddle pCoef ia1 = .ok w := by
  have e2 : u32 (ia1 + ia1) = 2 * ia1 := by rw [u32_of_lt (by omega)]; ring
  have e3 : u32 (2 * ia1 + ia1) = 3 * ia1 := by rw [u32_of_lt (by omega)]; ring
  have f1 : u32 (ia1 * 2) = 2 * ia1 := by rw [u32_of_lt (by omega)]; ring
  have f2 : u32 (2 * ia1 * 2) = 2 * (2 * ia1) := by rw [u32_of_lt (by omega)]; ring
  have f3 : u32 (3 * ia1 * 2) = 2 * (3 * ia1) := by rw [u32_of_lt (by omega)]; ring
  have g1 : u32 (2 * ia1 + 1) = 2 * ia1 + 1 := u32_of_lt (by omega)
  have g2 : u32 (2 * (2 * ia1) + 1) = 2 * (2 * ia1) + 1 := u32_of_lt (by omega)
  have g3 : u32 (2 * (3 * ia1) + 1) = 2 * (3 * ia1) + 1 := u32_of_lt (by omega)
  unfold readTwiddle
  simp only [e2, e3, f1, f2, f3, g1, g2, g3, readCoef_of_get h1, readCoef_of_get h2,
    readCoef_of_get h3, readCoef_of_get h4, readCoef_of_get h5, readCoef_of_get h6,
    bind, Except.bind, pure, Except.pure]

theorem readTwiddle_of_lt {R : Type} (pCoef : List R) (ia1 : Nat) (h32 : 6 * ia1 + 1 < 2 ^ 32)
    (hlen : 6 * ia1 + 1 < pCoef.length) : ∃ w, readTwiddle pCoef ia1 = .ok w := by
  refine ⟨⟨pCoef[2 * ia1], pCoef[2 * ia1 + 1], pCoef[2 * (2 * ia1)], pCoef[2 * (2 * ia1) + 1],
    pCoef[2 * (3 * ia1)], pCoef[2 * (3 * ia1) + 1]⟩, ?_⟩
  apply readTwiddle_eq pCoef ia1 h32 <;> exact List.getElem?_eq_getElem _

/-- Largest first index `ia1` used in any stage: `j * (c * 4^i) ≤ (4^m / 4 - 1) * c`. -/
theorem column_index_le {m i j c : Nat} (hi : i < m) (hj : j < 4 ^ (m - i - 1)) :
    j * (c * 4 ^ i) ≤ (4 ^ m / 4 - 1) * c := by
  have hm : 4 ^ m / 4 = 4 ^ (m - 1) := by
    conv_lhs => rw [show m = (m - 1) + 1 by omega, pow_succ]
    omega
  have h1 : (j + 1) * 4 ^ i ≤ 4 ^ (m - i - 1) * 4 ^ i := Nat.mul_le_mul_right _ hj
  have h2 : 4 ^ (m - i - 1) * 4 ^ i = 4 ^ (m - 1) := by
    rw [← pow_add]; congr 1; omega
  have h3 : 0 < 4 ^ i := Nat.pow_pos (by omega)
  have h4 : (j + 1) * 4 ^ i = j * 4 ^ i + 4 ^ i := by ring
  have h5 : j * 4 ^ i ≤ 4 ^ (m - 1) - 1 := by omega
  calc j * (c * 4 ^ i) = (j * 4 ^ i) * c := by ring
    _ ≤ (4 ^ (m - 1) - 1) * c := Nat.mul_le_mul_right _ h5
    _ = (4 ^ m / 4 - 1) * c := by rw [hm]

/-- A table with more than `6 * (fftLen / 4 - 1) * c + 1` entries serves every column of
every stage. -/
theorem twiddles_available {R : Type} (pCoef : List R) (m c : Nat) (hc : c * 4 ^ m < 2 ^ 16)
    (hlen : 6 * (4 ^ m / 4 - 1) * c + 1 < pCoef.length) :
    ∀ i, i < m → ∀ j, j < 4 ^ (m - i - 1) →
      ∃ w, readTwiddle pCoef (u32 (j * modAt c i)) = .ok w := by
  intro i hi j hj
  have hle := column_index_le (c := c) hi hj
  rw [modAt_of_lt c m hc i (by omega)]
  have hdiv : 4 ^ m / 4 * 4 ≤ 4 ^ m := Nat.div_mul_le_self _ _
  have hb : (4 ^ m / 4 - 1) * c ≤ c * 4 ^ m := by
    calc (4 ^ m / 4 - 1) * c ≤ 4 ^ m * c := Nat.mul_le_mul_right _ (by omega)
      _ = c * 4 ^ m := by ring
  have h6 : 6 * (4 ^ m / 4 - 1) * c = 6 * ((4 ^ m / 4 - 1) * c) := by ring
  rw [u32_of_lt (by omega)]
  exact readTwiddle_of_lt pCoef _ (by omega) (by omega)

/-- Both transforms complete on a buffer of `2 * fftLen` samples when the table is long
enough and the loops are given `fftLen` iterations. -/
theorem butterflies_complete {R : Type} [Add R] [Sub R] [Mul R] (m c fuel : Nat) (s : R)
    (pCoef pSrc : List R) (hm : 0 < m) (hlen : pSrc.length = 2 * 4 ^ m) (h16 : 4 ^ m < 2 ^ 16)
    (hc : c * 4 ^ m < 2 ^ 16) (hfuel : 4 ^ m ≤ fuel)
    (htab : 6 * (4 ^ m / 4 - 1) * c + 1 < pCoef.length) :
    (∃ out, arm_radix4_butterfly_f16 fuel pSrc (4 ^ m) pCoef c = .ok out ∧
      out.length = 2 * 4 ^ m) ∧
    (∃ out, arm_radix4_butterfly_inverse_f16 fuel pSrc (4 ^ m) pCoef c s = .ok out ∧
      out.length = 2 * 4 ^ m) := by
  have htw := twiddles_available pCoef m c hc htab
  constructor
  · have := fwd_rule (fun _ => False) (fun _ _ => True) m c fuel pCoef pSrc (by omega) (by omega)
      (Or.inl hfuel) (Or.inl htw) trivial (fun _ _ _ _ _ _ _ => trivial)
    rcases this with ⟨out, hrun, hl, _⟩ | ⟨_, _, he⟩
    · exact ⟨out, hrun, by omega⟩
    · exact he.elim
  · have := inv_rule (fun _ => False) (fun _ _ => True) m c fuel s pCoef pSrc hm (by omega)
      (by omega) (Or.inl hfuel) (Or.inl (fun i hi j hj => htw i (by omega) j hj)) trivial
      (fun _ _ _ _ _ _ _ => trivial)
    rcases this with ⟨out, st, _, hrun, hl, _, hout⟩ | ⟨_, _, he⟩
    · exact ⟨out, hrun, by rw [hout.1, hl, hlen]⟩
    · exact he.elim

end CmsisDsp

namespace CmsisDsp

open Finset

/-! ## Decimation in frequency: the algebra of one stage -/

theorem sum_range_four_mul (M : Nat) (g : Nat → ℂ) :
    ∑ u' in range (4 * M), g u' = ∑ u in range M, ∑ t in range 4, g (4 * u + t) := by
  induction M with
  | zero => simp
  | succ M ih =>
    rw [show 4 * (M + 1) = 4 * M + 1 + 1 + 1 + 1 by ring]
    rw [sum_range_succ, sum_range_succ, sum_range_succ, sum_range_succ, ih,
      sum_range_succ (fun u => ∑ t in range 4, g (4 * u + t))]
    simp only [sum_range_succ, sum_range_zero, zero_add, add_zero]
    ring

theorem bitrev_four_mul_add (bits b q : Nat) (hq : q < 4) :
    bitrev (bits + 2) (4 * b + q) = bitrev 2 q * 2 ^ bits + bitrev bits b := by
  have h1 : (4 * b + q) % 2 = q % 2 := by omega
  have h2 : (4 * b + q) / 2 % 2 = q / 2 := by omega
  have h3 : (4 * b + q) / 2 / 2 = b := by omega
  have h4 : q / 2 % 2 = q / 2 := by omega
  simp only [bitrev, h1, h2, h3, h4]
  rw [pow_succ]
  ring

theorem pow_split (ι W : ℂ) (n2 M n u t r κ : Nat) (hWN : W ^ (M * (4 * n2)) = 1)
    (hι : W ^ (M * n2) = ι) :
    W ^ ((n + (4 * u + t) * n2) * (r * M + κ)) =
      W ^ ((n + t * n2 + u * (4 * n2)) * κ) * W ^ (r * (n * M)) * ι ^ (t * r) := by
  have he : (n + (4 * u + t) * n2) * (r * M + κ) =
      (n + t * n2 + u * (4 * n2)) * κ + r * (n * M) + (M * n2) * (t * r)
        + (M * (4 * n2)) * (u * r) := by ring
  rw [he, pow_add, pow_add, pow_add, pow_mul (W) (M * n2), pow_mul (W) (M * (4 * n2)), hWN, hι,
    one_pow, mul_one]

theorem dif_core (ι W σ σ' : ℂ) (n2 M : Nat) (κ κ' : Nat → Nat) (x zin zout : Nat → ℂ)
    (hWN : W ^ (M * (4 * n2)) = 1) (hι : W ^ (M * n2) = ι)
    (hκ : ∀ b, b < M → ∀ q, q < 4 → κ' (4 * b + q) = bitrev 2 q * M + κ b)
    (hin : ∀ b, b < M → ∀ n, n < 4 * n2 →
      zin (n + b * (4 * n2)) =
        (∑ u in range M, x (n + u * (4 * n2)) * W ^ ((n + u * (4 * n2)) * κ b)) * σ)
    (hst : StageRel ι W σ' n2 M M zin zout) :
    ∀ b', b' < 4 * M → ∀ n, n < n2 →
      zout (n + b' * n2) =
        (∑ u' in range (4 * M), x (n + u' * n2) * W ^ ((n + u' * n2) * κ' b')) * (σ * σ') := by
  intro b' hb' n hn
  have hb : b' / 4 < M := by omega
  have hq : b' % 4 < 4 := by omega
  have hb'eq : b' = 4 * (b' / 4) + b' % 4 := by omega
  generalize b' / 4 = b at hb hb'eq
  generalize b' % 4 = q at hq hb'eq
  subst hb'eq
  have hpos : n + (4 * b + q) * n2 = n + b * (4 * n2) + q * n2 := by ring
  rw [hpos, hst n hn b hb q hq, hκ b hb q hq, sum_range_four_mul]
  have hzin : ∀ t, t < 4 → zin (n + b * (4 * n2) + t * n2) =
      (∑ u in range M, x (n + t * n2 + u * (4 * n2)) *
        W ^ ((n + t * n2 + u * (4 * n2)) * κ b)) * σ := by
    intro t ht
    have h1 : n + b * (4 * n2) + t * n2 = (n + t * n2) + b * (4 * n2) := by ring
    have h2 : t * n2 ≤ 3 * n2 := Nat.mul_le_mul_right _ (by omega)
    rw [h1, hin b hb (n + t * n2) (by omega)]
  rw [sum_congr rfl (fun t ht => by rw [hzin t (mem_range.mp ht)])]
  simp only [mul_sum, sum_mul]
  rw [sum_comm]
  apply sum_congr rfl
  intro u _
  apply sum_congr rfl
  intro t _
  rw [pow_split ι W n2 M n u t (bitrev 2 q) (κ b) hWN hι]
  have hx : n + (4 * u + t) * n2 = n + t * n2 + u * (4 * n2) := by ring
  rw [hx]
  ring

theorem dif_step (ι W σ σ' : ℂ) (m i : Nat) (x zin zout : Nat → ℂ) (hi : i < m)
    (hWN : W ^ (4 ^ m) = 1) (hι : W ^ (4 ^ m / 4) = ι)
    (hinv : DifInv W σ m i x zin)
    (hst : StageRel ι W σ' (4 ^ (m - i - 1)) (4 ^ i) (4 ^ i) zin zout) :
    DifInv W (σ * σ') m (i + 1) x zout := by
  have h1 : m - i = (m - i - 1) + 1 := by omega
  have e1 : 4 ^ (m - i) = 4 * 4 ^ (m - i - 1) := by
    conv_lhs => rw [h1, pow_succ]
    ring
  have e2 : 4 ^ m = 4 ^ i * (4 * 4 ^ (m - i - 1)) := by
    rw [← e1, ← pow_add]; congr 1; omega
  have e3 : 4 ^ m / 4 = 4 ^ i * 4 ^ (m - i - 1) := by
    rw [e2]
    have : 4 ^ i * (4 * 4 ^ (m - i - 1)) = 4 * (4 ^ i * 4 ^ (m - i - 1)) := by ring
    rw [this]
    omega
  have e4 : m - (i + 1) = m - i - 1 := by omega
  have e5 : 4 ^ (i + 1) = 4 * 4 ^ i := by rw [pow_succ]; ring
  have e6 : (2 : Nat) ^ (2 * i) = 4 ^ i := by rw [pow_mul]; norm_num
  have key := dif_core ι W σ σ' (4 ^ (m - i - 1)) (4 ^ i) (bitrev (2 * i))
    (bitrev (2 * (i + 1))) x zin zout (by rw [← e2]; exact hWN) (by rw [← e3]; exact hι)
    (fun b _ q hq => by
      rw [show 2 * (i + 1) = 2 * i + 2 by ring, bitrev_four_mul_add _ _ _ hq, e6])
    (fun b hb n hn => by
      have := hinv b hb n (by rw [e1]; exact hn)
      rw [e1] at this
      exact this)
    hst
  intro b hb n hn
  rw [e4] at hn ⊢
  rw [e5] at hb ⊢
  exact key b hb n hn

end CmsisDsp

namespace CmsisDsp

open Finset

/-! ## From buffers of reals to complex sequences -/

theorem cplx_of_getQuad? {l : List ℝ} {i0 n2 : Nat} {Q : Quad ℝ}
    (h : getQuad? l i0 n2 = some Q) :
    cplx l i0 = ⟨Q.x0, Q.y0⟩ ∧ cplx l (i0 + n2) = ⟨Q.x1, Q.y1⟩ ∧
    cplx l (i0 + n2 + n2) = ⟨Q.x2, Q.y2⟩ ∧ cplx l (i0 + n2 + n2 + n2) = ⟨Q.x3, Q.y3⟩ := by
  obtain ⟨h0, h1, h2, h3, h4, h5, h6, h7⟩ := getQuad?_eq_some h
  simp only [cplx, h0, h1, h2, h3, h4, h5, h6, h7, Option.getD_some, and_self]

theorem fwdVals_kernel (w : Twiddle ℝ) (Q : Quad ℝ) :
    KernelSpec (-Complex.I) 1 ⟨w.co1, -w.si1⟩ ⟨w.co2, -w.si2⟩ ⟨w.co3, -w.si3⟩ Q (fwdVals w Q) := by
  refine ⟨?_, ?_, ?_, ?_⟩ <;> apply Complex.ext <;> simp only [fwdVals, Complex.add_re, Complex.add_im,
    Complex.sub_re, Complex.sub_im, Complex.mul_re, Complex.mul_im, Complex.neg_re,
    Complex.neg_im, Complex.I_re, Complex.I_im, Complex.one_re, Complex.one_im,
    Complex.ofReal_re, Complex.ofReal_im] <;> ring

theorem invVals_kernel (w : Twiddle ℝ) (Q : Quad ℝ) :
    KernelSpec Complex.I 1 ⟨w.co1, w.si1⟩ ⟨w.co2, w.si2⟩ ⟨w.co3, w.si3⟩ Q (invVals w Q) := by
  refine ⟨?_, ?_, ?_, ?_⟩ <;> apply Complex.ext <;> simp only [invVals, Complex.add_re, Complex.add_im,
    Complex.sub_re, Complex.sub_im, Complex.mul_re, Complex.mul_im, Complex.neg_re,
    Complex.neg_im, Complex.I_re, Complex.I_im, Complex.one_re, Complex.one_im,
    Complex.ofReal_re, Complex.ofReal_im] <;> ring

theorem invLastVals_kernel (s : ℝ) (Q : Quad ℝ) :
    KernelSpec Complex.I (s : ℂ) 1 1 1 Q (invLastVals s Q) := by
  refine ⟨?_, ?_, ?_, ?_⟩ <;> apply Complex.ext <;> simp only [invLastVals, Complex.add_re, Complex.add_im,
    Complex.sub_re, Complex.sub_im, Complex.mul_re, Complex.mul_im, Complex.neg_re,
    Complex.neg_im, Complex.I_re, Complex.I_im, Complex.one_re, Complex.one_im,
    Complex.ofReal_re, Complex.ofReal_im] <;> ring

/-- A butterfly meeting `KernelSpec` realises the uniform stage equation. -/
theorem stage_eq_of_kernel (ι σ W : ℂ) (hι : ι ^ 2 = -1) (e' : Nat) (zin zout : Nat → ℂ)
    (i0 n2 : Nat) (Q Q' : Quad ℝ)
    (hk : KernelSpec ι σ (W ^ e') (W ^ (2 * e')) (W ^ (3 * e')) Q Q')
    (hin : zin i0 = ⟨Q.x0, Q.y0⟩ ∧ zin (i0 + n2) = ⟨Q.x1, Q.y1⟩ ∧
      zin (i0 + n2 + n2) = ⟨Q.x2, Q.y2⟩ ∧ zin (i0 + n2 + n2 + n2) = ⟨Q.x3, Q.y3⟩)
    (hout : zout i0 = ⟨Q'.x0, Q'.y0⟩ ∧ zout (i0 + n2) = ⟨Q'.x1, Q'.y1⟩ ∧
      zout (i0 + n2 + n2) = ⟨Q'.x2, Q'.y2⟩ ∧ zout (i0 + n2 + n2 + n2) = ⟨Q'.x3, Q'.y3⟩) :
    ∀ q, q < 4 → zout (i0 + q * n2) =
      (∑ t in range 4, ι ^ (t * bitrev 2 q) * zin (i0 + t * n2)) * W ^ (bitrev 2 q * e') * σ := by
  obtain ⟨k0, k1, k2, k3⟩ := hk
  obtain ⟨a0, a1, a2, a3⟩ := hin
  obtain ⟨b0, b1, b2, b3⟩ := hout
  have p3 : ι ^ 3 = -ι := by rw [pow_succ, hι]; ring
  have p4 : ι ^ 4 = 1 := by rw [show 4 = 2 * 2 by norm_num, pow_mul, hι]; norm_num
  have p6 : ι ^ 6 = -1 := by rw [show 6 = 2 * 3 by norm_num, pow_mul, hι]; norm_num
  have p9 : ι ^ 9 = ι := by rw [show 9 = 2 * 4 + 1 by norm_num, pow_succ, pow_mul, hι]; norm_num
  have i1 : i0 + 1 * n2 = i0 + n2 := by ring
  have i2 : i0 + 2 * n2 = i0 + n2 + n2 := by ring
  have i3 : i0 + 3 * n2 = i0 + n2 + n2 + n2 := by ring
  have s4 : ∀ f : Nat → ℂ, ∑ t in range 4, f t = f 0 + f 1 + f 2 + f 3 := by
    intro f; simp [sum_range_succ]
  have r0 : bitrev 2 0 = 0 := by decide
  have r1 : bitrev 2 1 = 2 := by decide
  have r2 : bitrev 2 2 = 1 := by decide
  have r3 : bitrev 2 3 = 3 := by decide
  intro q hq
  interval_cases q
  · rw [s4, r0]
    simp only [Nat.mul_zero, Nat.zero_mul, Nat.one_mul, pow_zero, add_zero, i2, i3, a0, a1, a2,
      a3, b0, k0]
    ring
  · rw [s4, r1]
    simp only [Nat.zero_mul, Nat.one_mul, Nat.reduceMul, pow_zero, add_zero, i2, i3, a0, a1, a2,
      a3, b1, k1, hι, p4, p6]
    ring
  · rw [s4, r2]
    simp only [Nat.zero_mul, Nat.one_mul, Nat.mul_one, pow_zero, pow_one, add_zero, i2, i3, a0,
      a1, a2, a3, b2, k2, hι, p3]
    ring
  · rw [s4, r3]
    simp only [Nat.zero_mul, Nat.one_mul, Nat.reduceMul, pow_zero, add_zero, i2, i3, a0, a1, a2,
      a3, b3, k3, p3, p6, p9]
    ring

end CmsisDsp

namespace CmsisDsp

open Finset

/-! ## Twiddles from the table, stages as complex maps -/

theorem twiddle_of_table (pCoef : List ℝ) (c m i j : Nat) (W : ℂ) (hc : c * 4 ^ m < 2 ^ 16)
    (htab : TableFor pCoef c W (3 * (4 ^ m / 4 - 1))) (hi : i < m) (hj : j < 4 ^ (m - i - 1))
    (w : Twiddle ℝ) (hw : readTwiddle pCoef (u32 (j * modAt c i)) = .ok w) :
    w.co1 = (W ^ (j * 4 ^ i)).re ∧ w.si1 = -(W ^ (j * 4 ^ i)).im ∧
    w.co2 = (W ^ (2 * (j * 4 ^ i))).re ∧ w.si2 = -(W ^ (2 * (j * 4 ^ i))).im ∧
    w.co3 = (W ^ (3 * (j * 4 ^ i))).re ∧ w.si3 = -(W ^ (3 * (j * 4 ^ i))).im := by
  have hle := column_index_le (c := c) hi hj
  have hle1 := column_index_le (c := 1) hi hj
  simp only [one_mul, mul_one] at hle1
  rw [modAt_of_lt c m hc i (by omega)] at hw
  have hdiv : 4 ^ m / 4 * 4 ≤ 4 ^ m := Nat.div_mul_le_self _ _
  have hb : (4 ^ m / 4 - 1) * c ≤ c * 4 ^ m := by
    calc (4 ^ m / 4 - 1) * c ≤ 4 ^ m * c := Nat.mul_le_mul_right _ (by omega)
      _ = c * 4 ^ m := by ring
  rw [u32_of_lt (by omega)] at hw
  obtain ⟨t1, t1'⟩ := htab (j * 4 ^ i) (by omega)
  obtain ⟨t2, t2'⟩ := htab (2 * (j * 4 ^ i)) (by omega)
  obtain ⟨t3, t3'⟩ := htab (3 * (j * 4 ^ i)) (by omega)
  have e1 : 2 * (c * (j * 4 ^ i)) = 2 * (j * (c * 4 ^ i)) := by ring
  have e2 : 2 * (c * (2 * (j * 4 ^ i))) = 2 * (2 * (j * (c * 4 ^ i))) := by ring
  have e3 : 2 * (c * (3 * (j * 4 ^ i))) = 2 * (3 * (j * (c * 4 ^ i))) := by ring
  rw [e1] at t1 t1'
  rw [e2] at t2 t2'
  rw [e3] at t3 t3'
  have := readTwiddle_eq pCoef (j * (c * 4 ^ i)) (by omega)
    ⟨(W ^ (j * 4 ^ i)).re, -(W ^ (j * 4 ^ i)).im, (W ^ (2 * (j * 4 ^ i))).re,
      -(W ^ (2 * (j * 4 ^ i))).im, (W ^ (3 * (j * 4 ^ i))).re, -(W ^ (3 * (j * 4 ^ i))).im⟩
    t1 t1' t2 t2' t3 t3'
  rw [this] at hw
  injection hw with hw
  subst hw
  exact ⟨rfl, rfl, rfl, rfl, rfl, rfl⟩

theorem stageRel_of_colOut (vals : Twiddle ℝ → Quad ℝ → Quad ℝ) (ι σ W : ℂ) (hι : ι ^ 2 = -1)
    (pCoef z out : List ℝ) (C n2 cnt e : Nat)
    (hlen : 2 * (cnt * (4 * n2)) ≤ z.length)
    (hK : ∀ j, j < n2 → ∀ w, readTwiddle pCoef (u32 (j * C)) = .ok w →
      ∀ Q, KernelSpec ι σ (W ^ (j * e)) (W ^ (2 * (j * e))) (W ^ (3 * (j * e))) Q (vals w Q))
    (hcol : ColOut vals pCoef C n2 cnt z out) :
    StageRel ι W σ n2 cnt e (cplx z) (cplx out) := by
  intro j hj b hb q hq
  obtain ⟨w, hw, hquads⟩ := hcol.2 j hj
  obtain ⟨Q, hQ⟩ := getQuad?_of_lt z (j + b * (4 * n2)) n2 (quad_in_range hj hb hlen)
  have hout := hquads b hb
  rw [hQ] at hout
  exact stage_eq_of_kernel ι σ W hι (j * e) (cplx z) (cplx out) (j + b * (4 * n2)) n2 Q
    (vals w Q) (hK j hj w hw Q) (cplx_of_getQuad? hQ) (cplx_of_getQuad? hout) q hq

theorem stageRel_of_rowOut (ι σ W : ℂ) (hι : ι ^ 2 = -1) (V : Quad ℝ → Quad ℝ)
    (z out : List ℝ) (cnt e : Nat) (hlen : 2 * (cnt * (4 * 1)) ≤ z.length)
    (hK : ∀ Q, KernelSpec ι σ 1 1 1 Q (V Q))
    (hrow : RowOut V 1 cnt 0 z out) :
    StageRel ι W σ 1 cnt e (cplx z) (cplx out) := by
  intro j hj b hb q hq
  have hj0 : j = 0 := by omega
  subst hj0
  obtain ⟨Q, hQ⟩ := getQuad?_of_lt z (0 + b * (4 * 1)) 1 (quad_in_range hj hb hlen)
  have hout := hrow.2.1 b hb
  rw [hQ] at hout
  have hk := hK Q
  have := stage_eq_of_kernel ι σ W hι 0 (cplx z) (cplx out) (0 + b * (4 * 1)) 1 Q
    (V Q) (by simpa using hk) (cplx_of_getQuad? hQ) (cplx_of_getQuad? hout) q hq
  simpa using this

theorem difInv_zero (W : ℂ) (m : Nat) (x : Nat → ℂ) : DifInv W 1 m 0 x x := by
  intro b hb n _
  have hb0 : b = 0 := by simpa using hb
  subst hb0
  simp [bitrev]

/-- The forward transform leaves, at position `p`, the sum
`∑ u, x u * W ^ (u * bitrev (2*m) p)`, for any `W` matching the table. -/
theorem fwd_dif (W : ℂ) (m c fuel : Nat) (pSrc pCoef : List ℝ)
    (hlen : pSrc.length = 2 * 4 ^ m) (h16 : 4 ^ m < 2 ^ 16) (hc : c * 4 ^ m < 2 ^ 16)
    (hfuel : 4 ^ m ≤ fuel) (htablen : 6 * (4 ^ m / 4 - 1) * c + 1 < pCoef.length)
    (hWN : W ^ (4 ^ m) = 1) (hWq : W ^ (4 ^ m / 4) = -Complex.I)
    (htab : TableFor pCoef c W (3 * (4 ^ m / 4 - 1))) :
    ∃ out, arm_radix4_butterfly_f16 fuel pSrc (4 ^ m) pCoef c = .ok out ∧
      out.length = 2 * 4 ^ m ∧
      ∀ p, p < 4 ^ m →
        cplx out p = ∑ u in range (4 ^ m), cplx pSrc u * W ^ (u * bitrev (2 * m) p) := by
  have hI2 : (-Complex.I) ^ 2 = -1 := by rw [neg_sq, Complex.I_sq]
  have htw := twiddles_available pCoef m c hc htablen
  have key := fwd_rule (fun _ => False) (fun i z => DifInv W 1 m i (cplx pSrc) (cplx z))
    m c fuel pCoef pSrc (by omega) (by omega) (Or.inl hfuel) (Or.inl htw)
    (difInv_zero W m _) ?step
  case step =>
    intro i z out hi hinv hzl hcol
    have hst := stageRel_of_colOut fwdVals (-Complex.I) 1 W hI2 pCoef z out (modAt c i)
      (4 ^ (m - i - 1)) (4 ^ i) (4 ^ i)
      (by rw [← (four_pow_split hi).2, hzl, hlen]) ?hK hcol
    case hK =>
      intro j hj w hw Q
      obtain ⟨h1, h2, h3, h4, h5, h6⟩ := twiddle_of_table pCoef c m i j W hc htab hi hj w hw
      have := fwdVals_kernel w Q
      rw [h1, h2, h3, h4, h5, h6] at this
      simpa using this
    have := dif_step (-Complex.I) W 1 1 m i (cplx pSrc) (cplx z) (cplx out) hi hWN hWq hinv hst
    simpa using this
  rcases key with ⟨out, hrun, hl, hd⟩ | ⟨_, _, he⟩
  · refine ⟨out, hrun, by omega, ?_⟩
    intro p hp
    have := hd p hp 0 (by simp)
    simpa using this
  · exact he.elim

end CmsisDsp

namespace CmsisDsp

open Finset

/-! ## The concrete root of unity and the cosine/sine table -/

theorem rootW_pow (N : ℝ) (e : Nat) :
    Complex.exp (-(2 * Real.pi * Complex.I / N)) ^ e =
      Complex.exp (((-(2 * Real.pi * e / N) : ℝ) : ℂ) * Complex.I) := by
  rw [← Complex.exp_nat_mul]
  congr 1
  push_cast
  ring

theorem rootW_pow_re (N : ℝ) (e : Nat) :
    (Complex.exp (-(2 * Real.pi * Complex.I / N)) ^ e).re = Real.cos (2 * Real.pi * e / N) := by
  rw [rootW_pow, Complex.exp_ofReal_mul_I_re, Real.cos_neg]

theorem rootW_pow_im (N : ℝ) (e : Nat) :
    (Complex.exp (-(2 * Real.pi * Complex.I / N)) ^ e).im = -Real.sin (2 * Real.pi * e / N) := by
  rw [rootW_pow, Complex.exp_ofReal_mul_I_im, Real.sin_neg]

theorem rootW_pow_N (N : Nat) (hN : 0 < N) :
    Complex.exp (-(2 * Real.pi * Complex.I / ((N : ℝ) : ℂ))) ^ N = 1 := by
  rw [← Complex.exp_nat_mul]
  have hN' : (N : ℂ) ≠ 0 := by exact_mod_cast hN.ne'
  have : (N : ℂ) * -(2 * Real.pi * Complex.I / ((N : ℝ) : ℂ)) = -(2 * Real.pi * Complex.I) := by
    push_cast
    field_simp
    ring
  rw [this, Complex.exp_neg, Complex.exp_two_pi_mul_I, inv_one]

theorem rootW_pow_quarter (N : Nat) (hN : 0 < N) (h4 : 4 ∣ N) :
    Complex.exp (-(2 * Real.pi * Complex.I / ((N : ℝ) : ℂ))) ^ (N / 4) = -Complex.I := by
  obtain ⟨k, rfl⟩ := h4
  have hk : 0 < k := by omega
  rw [Nat.mul_div_cancel_left k (by norm_num), ← Complex.exp_nat_mul]
  have hk' : (k : ℂ) ≠ 0 := by exact_mod_cast hk.ne'
  have : (k : ℂ) * -(2 * Real.pi * Complex.I / (((4 * k : Nat) : ℝ) : ℂ)) =
      -(Real.pi / 2 * Complex.I) := by
    push_cast
    field_simp
    ring
  rw [this, Complex.exp_neg, Complex.exp_mul_I, ← Complex.ofReal_ofNat, ← Complex.ofReal_div,
    ← Complex.ofReal_cos, ← Complex.ofReal_sin, Real.cos_pi_div_two, Real.sin_pi_div_two]
  simp

/-- A cosine/sine table of period `c * N` is a table of powers of `exp (-2πi/N)` read with
stride `c`. -/
theorem tableFor_of_cos_sin (pCoef : List ℝ) (c N bound : Nat) (hc : 0 < c) (hN : 0 < N)
    (hlen : 2 * (c * bound) + 1 < pCoef.length)
    (htab : ∀ k, 2 * k + 1 < pCoef.length →
      pCoef[2 * k]? = some (Real.cos (2 * Real.pi * k / ((c * N : Nat) : ℝ))) ∧
      pCoef[2 * k + 1]? = some (Real.sin (2 * Real.pi * k / ((c * N : Nat) : ℝ)))) :
    TableFor pCoef c (Complex.exp (-(2 * Real.pi * Complex.I / ((N : ℝ) : ℂ)))) bound := by
  intro e he
  have hle : c * e ≤ c * bound := Nat.mul_le_mul_left _ he
  obtain ⟨h1, h2⟩ := htab (c * e) (by omega)
  have hc' : (c : ℝ) ≠ 0 := by exact_mod_cast hc.ne'
  have hN' : (N : ℝ) ≠ 0 := by exact_mod_cast hN.ne'
  have harg : 2 * Real.pi * ((c * e : Nat) : ℝ) / ((c * N : Nat) : ℝ) = 2 * Real.pi * e / N := by
    push_cast
    field_simp
    ring
  rw [harg] at h1 h2
  rw [rootW_pow_re, rootW_pow_im, neg_neg]
  exact ⟨h1, h2⟩

theorem four_dvd_four_pow {m : Nat} (hm : 0 < m) : 4 ∣ 4 ^ m :=
  dvd_pow_self 4 (by omega)

end CmsisDsp

namespace CmsisDsp

open Finset

/-! ## The inverse transform as a decimation-in-frequency transform with the conjugate root -/

theorem conj_eq_of_re_im (z : ℂ) : (⟨z.re, -z.im⟩ : ℂ) = (starRingEnd ℂ) z := by
  apply Complex.ext <;> simp

theorem inv_dif (W : ℂ) (m c fuel : Nat) (s : ℝ) (pSrc pCoef : List ℝ) (hm : 0 < m)
    (hlen : pSrc.length = 2 * 4 ^ m) (h16 : 4 ^ m < 2 ^ 16) (hc : c * 4 ^ m < 2 ^ 16)
    (hfuel : 4 ^ m ≤ fuel) (htablen : 6 * (4 ^ m / 4 - 1) * c + 1 < pCoef.length)
    (hWN : W ^ (4 ^ m) = 1) (hWq : W ^ (4 ^ m / 4) = -Complex.I)
    (htab : TableFor pCoef c W (3 * (4 ^ m / 4 - 1))) :
    ∃ out, arm_radix4_butterfly_inverse_f16 fuel pSrc (4 ^ m) pCoef c s = .ok out ∧
      out.length = 2 * 4 ^ m ∧
      ∀ p, p < 4 ^ m →
        cplx out p =
          (∑ u in range (4 ^ m), cplx pSrc u * (starRingEnd ℂ) W ^ (u * bitrev (2 * m) p)) * s := by
  have hI2 : Complex.I ^ 2 = -1 := Complex.I_sq
  have hWN' : (starRingEnd ℂ) W ^ (4 ^ m) = 1 := by rw [← map_pow, hWN, map_one]
  have hWq' : (starRingEnd ℂ) W ^ (4 ^ m / 4) = Complex.I := by
    rw [← map_pow, hWq, map_neg, Complex.conj_I, neg_neg]
  have htw := twiddles_available pCoef m c hc htablen
  have key := inv_rule (fun _ => False)
    (fun i z => DifInv ((starRingEnd ℂ) W) 1 m i (cplx pSrc) (cplx z))
    m c fuel s pCoef pSrc hm (by omega) (by omega) (Or.inl hfuel)
    (Or.inl (fun i hi j hj => htw i (by omega) j hj))
    (difInv_zero _ m _) ?step
  case step =>
    intro i z out hi hinv hzl hcol
    have hi' : i < m := by omega
    have hst := stageRel_of_colOut invVals Complex.I 1 ((starRingEnd ℂ) W) hI2 pCoef z out
      (modAt c i) (4 ^ (m - i - 1)) (4 ^ i) (4 ^ i)
      (by rw [← (four_pow_split hi').2, hzl, hlen]) ?hK hcol
    case hK =>
      intro j hj w hw Q
      obtain ⟨h1, h2, h3, h4, h5, h6⟩ := twiddle_of_table pCoef c m i j W hc htab hi' hj w hw
      have := invVals_kernel w Q
      rw [h1, h2, h3, h4, h5, h6] at this
      simpa only [conj_eq_of_re_im, map_pow] using this
    have := dif_step Complex.I ((starRingEnd ℂ) W) 1 1 m i (cplx pSrc) (cplx z) (cplx out)
      hi' hWN' hWq' hinv hst
    simpa using this
  rcases key with ⟨out, st, _, hrun, hl, hd, hrow⟩ | ⟨_, _, he⟩
  · refine ⟨out, hrun, by rw [hrow.1, hl, hlen], ?_⟩
    have hm1 : m - (m - 1) - 1 = 0 := by omega
    have h4m : 4 ^ m = 4 ^ (m - 1) * 4 := by
      conv_lhs => rw [show m = (m - 1) + 1 by omega, pow_succ]
    have hst := stageRel_of_rowOut Complex.I (s : ℂ) ((starRingEnd ℂ) W) hI2 (invLastVals s)
      st.pSrc out (4 ^ (m - 1)) (4 ^ (m - 1)) (by rw [hl, hlen]; omega)
      (invLastVals_kernel s) hrow
    have hstep := dif_step Complex.I ((starRingEnd ℂ) W) 1 (s : ℂ) m (m - 1) (cplx pSrc)
      (cplx st.pSrc) (cplx out) (by omega) hWN' hWq' hd (by rw [hm1, pow_zero]; exact hst)
    rw [show m - 1 + 1 = m by omega] at hstep
    intro p hp
    have := hstep p hp 0 (by simp)
    simpa using this
  · exact he.elim

end CmsisDsp

namespace CmsisDsp

open Finset

/-! ## Bit reversal -/

theorem bitrev_lt (bits p : Nat) : bitrev bits p < 2 ^ bits := by
  induction bits generalizing p with
  | zero => simp [bitrev]
  | succ b ih =>
    have h1 := ih (p / 2)
    have h2 : p % 2 < 2 := Nat.mod_lt _ (by omega)
    have h3 : p % 2 * 2 ^ b ≤ 1 * 2 ^ b := Nat.mul_le_mul_right _ (by omega)
    simp only [bitrev, pow_succ]
    omega

theorem bitrev_high (b h l : Nat) (hh : h < 2) (hl : l < 2 ^ b) :
    bitrev (b + 1) (h * 2 ^ b + l) = 2 * bitrev b l + h := by
  induction b generalizing l with
  | zero =>
    have hl0 : l = 0 := by simpa using hl
    subst hl0
    simp only [bitrev, pow_zero, mul_one, add_zero, mul_zero, zero_add]
    omega
  | succ b ih =>
    have hl2 : l / 2 < 2 ^ b := by rw [pow_succ] at hl; omega
    have hh' : h = 0 ∨ h = 1 := by omega
    have e1 : (h * 2 ^ (b + 1) + l) % 2 = l % 2 := by
      rw [pow_succ]
      rcases hh' with rfl | rfl <;> omega
    have e2 : (h * 2 ^ (b + 1) + l) / 2 = h * 2 ^ b + l / 2 := by
      rw [pow_succ]
      rcases hh' with rfl | rfl <;> omega
    have hq : bitrev (b + 1 + 1) (h * 2 ^ (b + 1) + l) =
        (h * 2 ^ (b + 1) + l) % 2 * 2 ^ (b + 1) + bitrev (b + 1) ((h * 2 ^ (b + 1) + l) / 2) := rfl
    rw [hq, e1, e2, ih (l / 2) hl2]
    simp only [bitrev, pow_succ]
    ring

theorem bitrev_bitrev (bits p : Nat) (hp : p < 2 ^ bits) : bitrev bits (bitrev bits p) = p := by
  induction bits generalizing p with
  | zero => simp at hp; simp [bitrev, hp]
  | succ b ih =>
    have hp2 : p / 2 < 2 ^ b := by rw [pow_succ] at hp; omega
    have h2 : p % 2 < 2 := Nat.mod_lt _ (by omega)
    have hq : bitrev (b + 1) p = p % 2 * 2 ^ b + bitrev b (p / 2) := rfl
    rw [hq, bitrev_high b (p % 2) _ h2 (bitrev_lt b (p / 2)), ih (p / 2) hp2]
    omega

theorem two_pow_two_mul (m : Nat) : 2 ^ (2 * m) = 4 ^ m := by
  rw [pow_mul]; norm_num

/-! ## The permutation on buffers -/

theorem length_bitReversal {R : Type} [Zero R] (bits : Nat) (l : List R) :
    (bitReversal bits l).length = l.length := by
  simp [bitReversal]

theorem cplx_bitReversal (bits : Nat) (l : List ℝ) (hlen : l.length = 2 * 2 ^ bits) (p : Nat)
    (hp : p < 2 ^ bits) : cplx (bitReversal bits l) p = cplx l (bitrev bits p) := by
  have h1 : (2 * p) / 2 = p := by omega
  have h2 : (2 * p) % 2 = 0 := by omega
  have h3 : (2 * p + 1) / 2 = p := by omega
  have h4 : (2 * p + 1) % 2 = 1 := by omega
  simp only [cplx, bitReversal, List.getElem?_map,
    List.getElem?_range (show 2 * p < l.length by omega),
    List.getElem?_range (show 2 * p + 1 < l.length by omega), Option.map_some', Option.getD_some,
    h1, h2, h3, h4, add_zero]

theorem list_eq_of_cplx (N : Nat) (l1 l2 : List ℝ) (h1 : l1.length = 2 * N)
    (h2 : l2.length = 2 * N) (h : ∀ p, p < N → cplx l1 p = cplx l2 p) : l1 = l2 := by
  apply List.ext_getElem?
  intro i
  by_cases hi : i < 2 * N
  · have hp : i / 2 < N := by omega
    have hc := h (i / 2) hp
    have hre := congrArg Complex.re hc
    have him := congrArg Complex.im hc
    simp only [cplx] at hre him
    have a1 : 2 * (i / 2) < l1.length := by omega
    have a2 : 2 * (i / 2) + 1 < l1.length := by omega
    have b1 : 2 * (i / 2) < l2.length := by omega
    have b2 : 2 * (i / 2) + 1 < l2.length := by omega
    rw [List.getElem?_eq_getElem a1, List.getElem?_eq_getElem b1] at hre
    rw [List.getElem?_eq_getElem a2, List.getElem?_eq_getElem b2] at him
    simp only [Option.getD_some] at hre him
    rcases Nat.mod_two_eq_zero_or_one i with hpar | hpar
    · have hi2 : i = 2 * (i / 2) := by omega
      rw [hi2, List.getElem?_eq_getElem a1, List.getElem?_eq_getElem b1, hre]
    · have hi2 : i = 2 * (i / 2) + 1 := by omega
      rw [hi2, List.getElem?_eq_getElem a2, List.getElem?_eq_getElem b2, him]
  · rw [List.getElem?_eq_none (by omega), List.getElem?_eq_none (by omega)]

/-! ## Orthogonality of the powers of `exp (-2πi/N)` -/

theorem conj_rootW (N : Nat) :
    (starRingEnd ℂ) (Complex.exp (-(2 * Real.pi * Complex.I / ((N : ℝ) : ℂ)))) =
      Complex.exp (2 * Real.pi * Complex.I / N) := by
  rw [← Complex.exp_conj]
  congr 1
  simp only [map_neg, map_div₀, map_mul, Complex.conj_ofReal, Complex.conj_I, map_ofNat,
    Complex.ofReal_natCast, map_natCast]
  ring

theorem rootW_eq_inv (N : Nat) :
    Complex.exp (-(2 * Real.pi * Complex.I / ((N : ℝ) : ℂ))) =
      (Complex.exp (2 * Real.pi * Complex.I / N))⁻¹ := by
  rw [← Complex.exp_neg]
  simp

theorem orthogonality (N : Nat) (hN : 0 < N) (u n : Nat) (hu : u < N) (hn : n < N) :
    ∑ k in range N, Complex.exp (-(2 * Real.pi * Complex.I / ((N : ℝ) : ℂ))) ^ (u * k) *
      (starRingEnd ℂ) (Complex.exp (-(2 * Real.pi * Complex.I / ((N : ℝ) : ℂ)))) ^ (k * n) =
      if u = n then (N : ℂ) else 0 := by
  have hprim := Complex.isPrimitiveRoot_exp N hN.ne'
  rw [conj_rootW, rootW_eq_inv]
  set ζ := Complex.exp (2 * Real.pi * Complex.I / N) with hζ
  have hζ0 : ζ ≠ 0 := Complex.exp_ne_zero _
  have hterm : ∀ k, ζ⁻¹ ^ (u * k) * ζ ^ (k * n) = (ζ⁻¹ ^ u * ζ ^ n) ^ k := by
    intro k
    rw [mul_pow, ← pow_mul, ← pow_mul, Nat.mul_comm k n]
  simp only [hterm]
  by_cases hun : u = n
  · subst hun
    rw [if_pos rfl]
    have : ζ⁻¹ ^ u * ζ ^ u = 1 := by
      rw [inv_pow, inv_mul_cancel₀ (pow_ne_zero _ hζ0)]
    simp only [this, one_pow, sum_const, card_range, nsmul_eq_mul, mul_one]
  · rw [if_neg hun]
    have hne : ζ⁻¹ ^ u * ζ ^ n ≠ 1 := by
      intro h
      have h' : ζ ^ n = ζ ^ u := by
        have := congrArg (fun z => ζ ^ u * z) h
        simp only [inv_pow, mul_one] at this
        rw [← mul_assoc, mul_inv_cancel₀ (pow_ne_zero _ hζ0), one_mul] at this
        exact this
      exact hun (hprim.pow_inj hn hu h').symm
    rw [geom_sum_eq hne]
    have hpow : (ζ⁻¹ ^ u * ζ ^ n) ^ N = 1 := by
      rw [mul_pow, ← pow_mul, ← pow_mul, Nat.mul_comm u N, Nat.mul_comm n N, pow_mul, pow_mul,
        inv_pow, hprim.pow_eq_one, inv_one, one_pow, one_pow, one_mul]
    rw [hpow, sub_self, zero_div]

end CmsisDsp

namespace CmsisDsp

/-! ## Reading a larger table with a stride -/

theorem readCoef_congr {R : Type} {l l' : List R} {i i' : Nat} (h : l[i]? = l'[i']?) :
    readCoef l i = readCoef l' i' := by
  unfold readCoef
  rw [h]

theorem readTwiddle_stride {R : Type} (pCoef pCoef' : List R) (c k : Nat)
    (h32 : 6 * (c * k) + 1 < 2 ^ 32) (h32' : 6 * k + 1 < 2 ^ 32)
    (h1 : pCoef'[2 * k]? = pCoef[2 * (c * k)]? ∧ pCoef'[2 * k + 1]? = pCoef[2 * (c * k) + 1]?)
    (h2 : pCoef'[2 * (2 * k)]? = pCoef[2 * (c * (2 * k))]? ∧
      pCoef'[2 * (2 * k) + 1]? = pCoef[2 * (c * (2 * k)) + 1]?)
    (h3 : pCoef'[2 * (3 * k)]? = pCoef[2 * (c * (3 * k))]? ∧
      pCoef'[2 * (3 * k) + 1]? = pCoef[2 * (c * (3 * k)) + 1]?) :
    readTwiddle pCoef (c * k) = readTwiddle pCoef' k := by
  have m2 : c * (2 * k) = 2 * (c * k) := by ring
  have m3 : c * (3 * k) = 3 * (c * k) := by ring
  have a2 : u32 (c * k + c * k) = 2 * (c * k) := by rw [u32_of_lt (by omega)]; ring
  have a3 : u32 (2 * (c * k) + c * k) = 3 * (c * k) := by rw [u32_of_lt (by omega)]; ring
  have b1 : u32 (c * k * 2) = 2 * (c * k) := by rw [u32_of_lt (by omega)]; ring
  have b2 : u32 (2 * (c * k) * 2) = 2 * (c * (2 * k)) := by rw [u32_of_lt (by omega)]; ring
  have b3 : u32 (3 * (c * k) * 2) = 2 * (c * (3 * k)) := by rw [u32_of_lt (by omega)]; ring
  have d1 : u32 (2 * (c * k) + 1) = 2 * (c * k) + 1 := u32_of_lt (by omega)
  have d2 : u32 (2 * (c * (2 * k)) + 1) = 2 * (c * (2 * k)) + 1 := u32_of_lt (by omega)
  have d3 : u32 (2 * (c * (3 * k)) + 1) = 2 * (c * (3 * k)) + 1 := u32_of_lt (by omega)
  have a2' : u32 (k + k) = 2 * k := by rw [u32_of_lt (by omega)]; ring
  have a3' : u32 (2 * k + k) = 3 * k := by rw [u32_of_lt (by omega)]; ring
  have b1' : u32 (k * 2) = 2 * k := by rw [u32_of_lt (by omega)]; ring
  have b2' : u32 (2 * k * 2) = 2 * (2 * k) := by rw [u32_of_lt (by omega)]; ring
  have b3' : u32 (3 * k * 2) = 2 * (3 * k) := by rw [u32_of_lt (by omega)]; ring
  have d1' : u32 (2 * k + 1) = 2 * k + 1 := u32_of_lt (by omega)
  have d2' : u32 (2 * (2 * k) + 1) = 2 * (2 * k) + 1 := u32_of_lt (by omega)
  have d3' : u32 (2 * (3 * k) + 1) = 2 * (3 * k) + 1 := u32_of_lt (by omega)
  unfold readTwiddle
  simp only [a2, a3, b1, b2, b3, d1, d2, d3, a2', a3', b1', b2', b3', d1', d2', d3',
    readCoef_congr h1.1.symm, readCoef_congr h1.2.symm, readCoef_congr h2.1.symm,
    readCoef_congr h2.2.symm, readCoef_congr h3.1.symm, readCoef_congr h3.2.symm]

/-- Two column loops that read the same twiddles do the same thing. -/
theorem colLoop_congr {R : Type}
    (bfly : List R → Nat → Nat → Twiddle R → Except Fault (List R))
    (fuel fftLen n1 n2 C C' : Nat) (pCoef pCoef' z : List R)
    (hn2 : 0 < n2) (hn2' : n2 < 2 ^ 32)
    (hread : ∀ j, j < n2 →
      readTwiddle pCoef (u32 (j * C)) = readTwiddle pCoef' (u32 (j * C'))) :
    colLoop bfly fuel fftLen n1 n2 C pCoef z = colLoop bfly fuel fftLen n1 n2 C' pCoef' z := by
  have key := doWhile_sim
    (fun (st : ColSt R) => do
      let w ← readTwiddle pCoef st.ia1
      let ia1 := u32 (st.ia1 + C)
      let pSrc ← rowLoop (fun p i0 => bfly p n2 i0 w) fuel fftLen n1 st.j st.pSrc
      pure { pSrc := pSrc, ia1 := ia1, j := u32 (st.j + 1) })
    (fun st => decide (st.j ≤ sub32 n2 1))
    (fun (st : ColSt R) => do
      let w ← readTwiddle pCoef' st.ia1
      let ia1 := u32 (st.ia1 + C')
      let pSrc ← rowLoop (fun p i0 => bfly p n2 i0 w) fuel fftLen n1 st.j st.pSrc
      pure { pSrc := pSrc, ia1 := ia1, j := u32 (st.j + 1) })
    (fun st => decide (st.j ≤ sub32 n2 1))
    (fun s t => s.pSrc = t.pSrc ∧ s.j = t.j ∧ s.j < n2 ∧ s.ia1 = u32 (s.j * C) ∧
      t.ia1 = u32 (t.j * C'))
    (fun s t => s.pSrc = t.pSrc ∧ s.j = t.j ∧ s.j ≤ n2 ∧ s.ia1 = u32 (s.j * C) ∧
      t.ia1 = u32 (t.j * C'))
    ?hbody ?hcond fuel { pSrc := z, ia1 := 0, j := 0 } { pSrc := z, ia1 := 0, j := 0 }
    ⟨rfl, rfl, hn2, by simp [u32], by simp [u32]⟩
  case hcond =>
    intro s t ⟨hp, hj, hle, hs, ht⟩
    refine ⟨by simp only [hj], ?_⟩
    intro hc
    simp only [decide_eq_true_eq] at hc
    rw [sub32_of_le (by omega) hn2'] at hc
    exact ⟨hp, hj, by omega, hs, ht⟩
  case hbody =>
    intro s t ⟨hp, hj, hlt, hs, ht⟩
    have hr := hread s.j hlt
    rw [← hs, hj, ← ht] at hr
    simp only [bind, Except.bind, hr, hp, hj]
    cases hw : readTwiddle pCoef' t.ia1 with
    | error e => simp [ExRel]
    | ok w =>
      simp only []
      cases hrow : rowLoop (fun p i0 => bfly p n2 i0 w) fuel fftLen n1 t.j t.pSrc with
      | error e => simp [ExRel]
      | ok out =>
        simp only [pure, Except.pure, ExRel]
        have hj1 : u32 (t.j + 1) = t.j + 1 := u32_of_lt (by omega)
        refine ⟨trivial, trivial, by omega, ?_, ?_⟩
        · rw [hs, hj, u32_add_u32, hj1]; congr 1; ring
        · rw [ht, u32_add_u32, hj1]; congr 1; ring
  unfold colLoop
  revert key
  simp only [bind, Except.bind, pure, Except.pure]
  cases doWhile _ _ fuel ({ pSrc := z, ia1 := 0, j := 0 } : ColSt R) with
  | error e =>
    cases doWhile _ _ fuel ({ pSrc := z, ia1 := 0, j := 0 } : ColSt R) with
    | error e' => intro h; simp only [ExRel] at h; rw [h]
    | ok t => intro h; exact h.elim
  | ok s =>
    cases doWhile _ _ fuel ({ pSrc := z, ia1 := 0, j := 0 } : ColSt R) with
    | error e' => intro h; exact h.elim
    | ok t =>
      intro h
      simp only [ExRel] at h
      show Except.ok s.pSrc = Except.ok t.pSrc
      rw [h.1]

end CmsisDsp

namespace CmsisDsp

theorem fwd_stride {R : Type} [Add R] [Sub R] [Mul R] (m c fuel : Nat)
    (pSrc pCoef pCoef' : List R) (hcN : c * 4 ^ m < 2 ^ 16) (hc : 0 < c)
    (hrel : ∀ k, k ≤ 3 * (4 ^ m / 4 - 1) →
      pCoef'[2 * k]? = pCoef[2 * (c * k)]? ∧ pCoef'[2 * k + 1]? = pCoef[2 * (c * k) + 1]?) :
    arm_radix4_butterfly_f16 fuel pSrc (4 ^ m) pCoef c =
      arm_radix4_butterfly_f16 fuel pSrc (4 ^ m) pCoef' 1 := by
  have h4m : 4 ^ m < 2 ^ 16 := by
    calc 4 ^ m = 1 * 4 ^ m := by ring
      _ ≤ c * 4 ^ m := Nat.mul_le_mul_right _ hc
      _ < 2 ^ 16 := hcN
  have key := forLoop_sim
    (fun (st : StageSt R) => decide (st.k > 1)) (stageBody fwdButterfly fuel (4 ^ m) pCoef)
    (fun (st : StageSt R) => decide (st.k > 1)) (stageBody fwdButterfly fuel (4 ^ m) pCoef')
    (fun st st' => st.pSrc = st'.pSrc ∧ st.k = st'.k ∧ st.n1 = st'.n1 ∧ st.n2 = st'.n2 ∧
      ∃ i, i ≤ m ∧ st.k = 4 ^ (m - i) ∧ st.n2 = 4 ^ (m - i) ∧
        st.twidCoefModifier = c * 4 ^ i ∧ st'.twidCoefModifier = 4 ^ i)
    ?hcond ?hbody fuel
    { pSrc := pSrc, k := 4 ^ m, n1 := 4 ^ m, n2 := 4 ^ m, twidCoefModifier := c }
    { pSrc := pSrc, k := 4 ^ m, n1 := 4 ^ m, n2 := 4 ^ m, twidCoefModifier := 1 }
    ⟨rfl, rfl, rfl, rfl, 0, Nat.zero_le _, rfl, rfl, by simp, by simp⟩
  case hcond =>
    intro s t ⟨_, hk, _⟩
    simp only [hk]
  case hbody =>
    intro s t ⟨hp, hk, hn1, hn2, i, hi, hki, hn2i, hcs, hct⟩ hcond
    simp only [decide_eq_true_eq, hki] at hcond
    have him : i < m := by
      by_contra hcon
      have : m - i = 0 := by omega
      rw [this] at hcond
      simp at hcond
    obtain ⟨e1, e2⟩ := four_pow_split him
    have hpos : 0 < 4 ^ (m - i - 1) := Nat.pow_pos (by omega)
    have hdiv : 4 ^ (m - i) / 4 = 4 ^ (m - i - 1) := by rw [e1]; omega
    have hle1 : 4 ^ (m - i - 1) ≤ 4 ^ m := Nat.pow_le_pow_right (by omega) (by omega)
    have hcol := colLoop_congr fwdButterfly fuel (4 ^ m) (4 ^ (m - i)) (4 ^ (m - i - 1))
      (c * 4 ^ i) (4 ^ i) pCoef pCoef' t.pSrc hpos (by omega) ?hread
    case hread =>
      intro j hj
      have hle := column_index_le (c := c) him hj
      have hle1 := column_index_le (c := 1) him hj
      simp only [one_mul, mul_one] at hle1
      have hdiv4 : 4 ^ m / 4 * 4 ≤ 4 ^ m := Nat.div_mul_le_self _ _
      have hb : (4 ^ m / 4 - 1) * c ≤ c * 4 ^ m := by
        calc (4 ^ m / 4 - 1) * c ≤ 4 ^ m * c := Nat.mul_le_mul_right _ (by omega)
          _ = c * 4 ^ m := by ring
      have hjc : j * (c * 4 ^ i) = c * (j * 4 ^ i) := by ring
      rw [u32_of_lt (by omega), u32_of_lt (by omega), hjc]
      exact readTwiddle_stride pCoef pCoef' c (j * 4 ^ i) (by omega) (by omega)
        (hrel _ (by omega)) (hrel _ (by omega)) (hrel _ (by omega))
    have hci : c * 4 ^ (i + 1) ≤ c * 4 ^ m :=
      Nat.mul_le_mul_left _ (Nat.pow_le_pow_right (by omega) him)
    have h4i : 4 ^ (i + 1) ≤ 4 ^ m := Nat.pow_le_pow_right (by omega) him
    have hu1 : u16 (c * 4 ^ i * 4) = c * 4 ^ (i + 1) := by
      rw [u16_of_lt]
      · rw [pow_succ]; ring
      · have : c * 4 ^ i * 4 = c * 4 ^ (i + 1) := by rw [pow_succ]; ring
        omega
    have hu2 : u16 (4 ^ i * 4) = 4 ^ (i + 1) := by
      rw [u16_of_lt]
      · rw [pow_succ]
      · have : 4 ^ i * 4 = 4 ^ (i + 1) := by rw [pow_succ]
        omega
    unfold stageBody
    simp only [hp, ← hk, ← hn2, hn2i, hdiv, hcs, hct, hcol, hu1, hu2, bind, Except.bind]
    cases colLoop fwdButterfly fuel (4 ^ m) (4 ^ (m - i)) (4 ^ (m - i - 1)) (4 ^ i) pCoef'
        t.pSrc with
    | error e => simp [ExRel]
    | ok out =>
      simp only [pure, Except.pure, ExRel, true_and]
      have hsub : m - (i + 1) = m - i - 1 := by omega
      exact ⟨i + 1, him, by rw [hki, hdiv, hsub], by rw [hsub], rfl, rfl⟩
  unfold arm_radix4_butterfly_f16
  revert key
  simp only [bind, Except.bind, pure, Except.pure]
  cases forLoop _ _ fuel
      ({ pSrc := pSrc, k := 4 ^ m, n1 := 4 ^ m, n2 := 4 ^ m, twidCoefModifier := c } :
        StageSt R) with
  | error e =>
    cases forLoop _ _ fuel
        ({ pSrc := pSrc, k := 4 ^ m, n1 := 4 ^ m, n2 := 4 ^ m, twidCoefModifier := 1 } :
          StageSt R) with
    | error e' => intro h; simp only [ExRel] at h; rw [h]
    | ok t => intro h; exact h.elim
  | ok s =>
    cases forLoop _ _ fuel
        ({ pSrc := pSrc, k := 4 ^ m, n1 := 4 ^ m, n2 := 4 ^ m, twidCoefModifier := 1 } :
          StageSt R) with
    | error e' => intro h; exact h.elim
    | ok t =>
      intro h
      simp only [ExRel] at h
      show Except.ok s.pSrc = Except.ok t.pSrc
      rw [h.1]

end CmsisDsp

namespace CmsisDsp

open Finset

/-! ## Lemmas for the last inverse stage, sample by sample -/

theorem getElem?_of_getQuad?_one {R : Type} {l : List R} {b : Nat} {Q : Quad R}
    (h : getQuad? l (0 + b * (4 * 1)) 1 = some Q) (r : Nat) (hr : r < 8) :
    l[8 * b + r]? = some (Q.nth r) := by
  obtain ⟨h0, h1, h2, h3, h4, h5, h6, h7⟩ := getQuad?_eq_some h
  have e0 : 8 * b + 0 = 2 * (0 + b * (4 * 1)) := by ring
  have e1 : 8 * b + 1 = 2 * (0 + b * (4 * 1)) + 1 := by ring
  have e2 : 8 * b + 2 = 2 * (0 + b * (4 * 1) + 1) := by ring
  have e3 : 8 * b + 3 = 2 * (0 + b * (4 * 1) + 1) + 1 := by ring
  have e4 : 8 * b + 4 = 2 * (0 + b * (4 * 1) + 1 + 1) := by ring
  have e5 : 8 * b + 5 = 2 * (0 + b * (4 * 1) + 1 + 1) + 1 := by ring
  have e6 : 8 * b + 6 = 2 * (0 + b * (4 * 1) + 1 + 1 + 1) := by ring
  have e7 : 8 * b + 7 = 2 * (0 + b * (4 * 1) + 1 + 1 + 1) + 1 := by ring
  interval_cases r
  · rw [e0, h0]; rfl
  · rw [e1, h1]; rfl
  · rw [e2, h2]; rfl
  · rw [e3, h3]; rfl
  · rw [e4, h4]; rfl
  · rw [e5, h5]; rfl
  · rw [e6, h6]; rfl
  · rw [e7, h7]; rfl

theorem invLastVals_nth_scale {R : Type} [CommRing R] (s : R) (Q : Quad R) (r : Nat) :
    (invLastVals s Q).nth r = s * (invLastVals 1 Q).nth r := by
  rcases r with _ | _ | _ | _ | _ | _ | _ | r <;> simp only [Quad.nth, invLastVals] <;> ring

/-! ## Claims about the radix-4 transform -/

/-- C3: `arm_cfft_radix4_f16` is one butterfly pass (the inverse one exactly when
`ifftFlag = 1`, the forward one for every other value) followed by `arm_bitreversal_f16`
exactly when `bitReverseFlag = 1`; otherwise the butterfly output is returned unchanged. -/
theorem cfft_radix4_is_butterfly_then_bitreversal {R : Type} [Add R] [Sub R] [Mul R]
    (arm_bitreversal_f16 : List R → Nat → Nat → List Nat → Except Fault (List R))
    (fuel : Nat) (S : arm_cfft_radix4_instance_f16 R) (pSrc : List R) :
    arm_cfft_radix4_f16 arm_bitreversal_f16 fuel S pSrc =
      (if S.ifftFlag = 1 then
          arm_radix4_butterfly_inverse_f16 fuel pSrc S.fftLen S.pTwiddle S.twidCoefModifier
            S.onebyfftLen
        else arm_radix4_butterfly_f16 fuel pSrc S.fftLen S.pTwiddle S.twidCoefModifier) >>=
      fun out =>
        if S.bitReverseFlag = 1 then
          arm_bitreversal_f16 out S.fftLen S.bitRevFactor S.pBitRevTable
        else .ok out := by
  unfold arm_cfft_radix4_f16
  by_cases h : S.ifftFlag = 1
  · simp only [h, if_true, bind, Except.bind, pure, Except.pure]
  · simp only [h, if_false, bind, Except.bind, pure, Except.pure]

/-- C4: with a cosine/sine table of period `c * fftLen`, the forward butterfly leaves at
position `p` the DFT value `X[k] = ∑ n, x[n] * exp (-2πi n k / fftLen)`, where `k` is the
`2m`-bit reversal of `p`. -/
theorem forward_butterfly_is_dft (m c fuel : Nat) (pSrc pCoef : List ℝ)
    (hm : 1 ≤ m) (hc0 : 1 ≤ c) (hc : c * 4 ^ m < 2 ^ 16)
    (hlen : pSrc.length = 2 * 4 ^ m) (hfuel : 4 ^ m ≤ fuel)
    (htablen : 6 * (4 ^ m / 4 - 1) * c + 1 < pCoef.length)
    (htab : ∀ k, 2 * k + 1 < pCoef.length →
      pCoef[2 * k]? = some (Real.cos (2 * Real.pi * k / ((c * 4 ^ m : Nat) : ℝ))) ∧
      pCoef[2 * k + 1]? = some (Real.sin (2 * Real.pi * k / ((c * 4 ^ m : Nat) : ℝ)))) :
    ∃ out, arm_radix4_butterfly_f16 fuel pSrc (4 ^ m) pCoef c = .ok out ∧
      out.length = 2 * 4 ^ m ∧
      ∀ p, p < 4 ^ m →
        cplx out p = ∑ n in range (4 ^ m), cplx pSrc n *
          Complex.exp (-2 * Real.pi * Complex.I * n * (bitrev (2 * m) p) / (4 ^ m : Nat)) := by
  have hN : 0 < 4 ^ m := Nat.pow_pos (by omega)
  have h16 : 4 ^ m < 2 ^ 16 := by
    calc 4 ^ m = 1 * 4 ^ m := by ring
      _ ≤ c * 4 ^ m := Nat.mul_le_mul_right _ hc0
      _ < 2 ^ 16 := hc
  have hT := tableFor_of_cos_sin pCoef c (4 ^ m) (3 * (4 ^ m / 4 - 1)) hc0 hN
    (by have : 2 * (c * (3 * (4 ^ m / 4 - 1))) = 6 * (4 ^ m / 4 - 1) * c := by ring
        omega) htab
  obtain ⟨out, hrun, hl, hval⟩ := fwd_dif _ m c fuel pSrc pCoef hlen h16 hc hfuel htablen
    (rootW_pow_N (4 ^ m) hN) (rootW_pow_quarter (4 ^ m) hN (four_dvd_four_pow hm)) hT
  refine ⟨out, hrun, hl, fun p hp => ?_⟩
  rw [hval p hp]
  apply sum_congr rfl
  intro n _
  congr 1
  rw [← Complex.exp_nat_mul]
  congr 1
  push_cast
  ring

/-- C6: on a buffer of exactly `2 * fftLen` samples no access of either transform leaves
the buffer, whatever the table, the modifier and the iteration budget; the buffer keeps
its size; and with a long enough table both transforms run to completion. The table is a
read-only argument of the embedding. -/
theorem butterflies_stay_in_buffer {R : Type} [Add R] [Sub R] [Mul R] (m c fuel : Nat)
    (s : R) (pSrc pCoef : List R) (hm : 1 ≤ m) (h16 : 4 ^ m < 2 ^ 16)
    (hlen : pSrc.length = 2 * 4 ^ m) :
    arm_radix4_butterfly_f16 fuel pSrc (4 ^ m) pCoef c ≠ .error .srcRange ∧
    arm_radix4_butterfly_inverse_f16 fuel pSrc (4 ^ m) pCoef c s ≠ .error .srcRange ∧
    (∀ out, arm_radix4_butterfly_f16 fuel pSrc (4 ^ m) pCoef c = .ok out →
      out.length = 2 * 4 ^ m) ∧
    (∀ out, arm_radix4_butterfly_inverse_f16 fuel pSrc (4 ^ m) pCoef c s = .ok out →
      out.length = 2 * 4 ^ m) ∧
    (c * 4 ^ m < 2 ^ 16 → 4 ^ m ≤ fuel → 6 * (4 ^ m / 4 - 1) * c + 1 < pCoef.length →
      (∃ out, arm_radix4_butterfly_f16 fuel pSrc (4 ^ m) pCoef c = .ok out) ∧
      (∃ out, arm_radix4_butterfly_inverse_f16 fuel pSrc (4 ^ m) pCoef c s = .ok out)) := by
  have hf := fwd_rule (fun e => e ≠ .srcRange) (fun _ _ => True) m c fuel pCoef pSrc (by omega)
    (by omega) (Or.inr (by decide)) (Or.inr (by decide)) trivial (fun _ _ _ _ _ _ _ => trivial)
  have hi := inv_rule (fun e => e ≠ .srcRange) (fun _ _ => True) m c fuel s pCoef pSrc hm
    (by omega) (by omega) (Or.inr (by decide)) (Or.inr (by decide)) trivial
    (fun _ _ _ _ _ _ _ => trivial)
  refine ⟨?_, ?_, ?_, ?_, ?_⟩
  · rcases hf with ⟨out, hrun, _⟩ | ⟨e, hrun, he⟩
    · rw [hrun]; simp
    · rw [hrun]; intro h; injection h with h; exact he h
  · rcases hi with ⟨out, st, _, hrun, _⟩ | ⟨e, hrun, he⟩
    · rw [hrun]; simp
    · rw [hrun]; intro h; injection h with h; exact he h
  · intro out hout
    rcases hf with ⟨out', hrun, hl, _⟩ | ⟨e, hrun, _⟩
    · rw [hrun] at hout; injection hout with hout; subst hout; omega
    · rw [hrun] at hout; exact absurd hout (by simp)
  · intro out hout
    rcases hi with ⟨out', st, _, hrun, hl, _, hrow⟩ | ⟨e, hrun, _⟩
    · rw [hrun] at hout; injection hout with hout; subst hout; rw [hrow.1, hl, hlen]
    · rw [hrun] at hout; exact absurd hout (by simp)
  · intro hc hfuel htab
    obtain ⟨⟨o1, h1, _⟩, ⟨o2, h2, _⟩⟩ :=
      butterflies_complete m c fuel s pCoef pSrc hm hlen h16 hc hfuel htab
    exact ⟨⟨o1, h1⟩, ⟨o2, h2⟩⟩

/-- C7: a transform with modifier `c` on a table `pCoef` equals the transform with
modifier `1` on the table `pCoef'` that holds every `c`-th complex entry of `pCoef`
(on the entries `k ≤ 3 * (fftLen/4 - 1)` that are read, including whether they exist);
and no index beyond `6 * (fftLen/4 - 1) * c + 1` is read from `pCoef`: a table of that
many entries plus one never causes a table fault and lets the transform complete. -/
theorem twiddle_modifier_reuses_table {R : Type} [Add R] [Sub R] [Mul R] (m c fuel : Nat)
    (pSrc pCoef pCoef' : List R) (_hm : 1 ≤ m) (hc0 : 1 ≤ c) (hc : c * 4 ^ m < 2 ^ 16)
    (hrel : ∀ k, k ≤ 3 * (4 ^ m / 4 - 1) →
      pCoef'[2 * k]? = pCoef[2 * (c * k)]? ∧ pCoef'[2 * k + 1]? = pCoef[2 * (c * k) + 1]?) :
    arm_radix4_butterfly_f16 fuel pSrc (4 ^ m) pCoef c =
      arm_radix4_butterfly_f16 fuel pSrc (4 ^ m) pCoef' 1 ∧
    (pSrc.length = 2 * 4 ^ m → 6 * (4 ^ m / 4 - 1) * c + 1 < pCoef.length →
      arm_radix4_butterfly_f16 fuel pSrc (4 ^ m) pCoef c ≠ .error .coefRange ∧
      (4 ^ m ≤ fuel → ∃ out, arm_radix4_butterfly_f16 fuel pSrc (4 ^ m) pCoef c = .ok out)) := by
  have h16 : 4 ^ m < 2 ^ 16 := by
    calc 4 ^ m = 1 * 4 ^ m := by ring
      _ ≤ c * 4 ^ m := Nat.mul_le_mul_right _ hc0
      _ < 2 ^ 16 := hc
  refine ⟨fwd_stride m c fuel pSrc pCoef pCoef' hc hc0 hrel, ?_⟩
  intro hlen htab
  have htw := twiddles_available pCoef m c hc htab
  constructor
  · have hf := fwd_rule (fun e => e = .budget) (fun _ _ => True) m c fuel pCoef pSrc (by omega)
      (by omega) (Or.inr rfl) (Or.inl htw) trivial (fun _ _ _ _ _ _ _ => trivial)
    rcases hf with ⟨out, hrun, _⟩ | ⟨e, hrun, he⟩
    · rw [hrun]; simp
    · rw [hrun, he]; simp
  · intro hfuel
    have hf := fwd_rule (fun _ => False) (fun _ _ => True) m c fuel pCoef pSrc (by omega)
      (by omega) (Or.inl hfuel) (Or.inl htw) trivial (fun _ _ _ _ _ _ _ => trivial)
    rcases hf with ⟨out, hrun, _⟩ | ⟨_, _, he⟩
    · exact ⟨out, hrun⟩
    · exact he.elim

/-- C8: every one of the `2 * fftLen` values left by the inverse butterfly with scale `s`
is `s` times the value left by the same call with scale `1`; with a long enough table
and budget both calls return. -/
theorem inverse_scales_once {R : Type} [CommRing R] (m c fuel : Nat) (s : R)
    (pSrc pCoef : List R) (hm : 1 ≤ m) (h16 : 4 ^ m < 2 ^ 16)
    (hlen : pSrc.length = 2 * 4 ^ m) :
    (∀ out1 outs, arm_radix4_butterfly_inverse_f16 fuel pSrc (4 ^ m) pCoef c 1 = .ok out1 →
      arm_radix4_butterfly_inverse_f16 fuel pSrc (4 ^ m) pCoef c s = .ok outs →
      out1.length = 2 * 4 ^ m ∧ outs.length = 2 * 4 ^ m ∧
      ∀ q, q < 2 * 4 ^ m → outs[q]? = (out1[q]?).map (fun v => s * v)) ∧
    (c * 4 ^ m < 2 ^ 16 → 4 ^ m ≤ fuel → 6 * (4 ^ m / 4 - 1) * c + 1 < pCoef.length →
      ∃ out1 outs, arm_radix4_butterfly_inverse_f16 fuel pSrc (4 ^ m) pCoef c 1 = .ok out1 ∧
        arm_radix4_butterfly_inverse_f16 fuel pSrc (4 ^ m) pCoef c s = .ok outs) := by
  constructor
  · intro out1 outs h1 hs
    have r1 := inv_rule (fun _ => True) (fun _ _ => True) m c fuel (1 : R) pCoef pSrc hm
      (by omega) (by omega) (Or.inr trivial) (Or.inr trivial) trivial
      (fun _ _ _ _ _ _ _ => trivial)
    have rs := inv_rule (fun _ => True) (fun _ _ => True) m c fuel s pCoef pSrc hm
      (by omega) (by omega) (Or.inr trivial) (Or.inr trivial) trivial
      (fun _ _ _ _ _ _ _ => trivial)
    rcases r1 with ⟨o1, st1, hst1, hrun1, hl1, _, hrow1⟩ | ⟨e, hrun, _⟩
    swap
    · rw [hrun] at h1; exact absurd h1 (by simp)
    rcases rs with ⟨os, sts, hsts, hruns, hls, _, hrows⟩ | ⟨e, hrun, _⟩
    swap
    · rw [hrun] at hs; exact absurd hs (by simp)
    rw [hrun1] at h1
    rw [hruns] at hs
    injection h1 with h1
    injection hs with hs
    subst h1 hs
    rw [hst1] at hsts
    injection hsts with hsts
    subst hsts
    have h4m : 4 ^ m = 4 ^ (m - 1) * 4 := by
      conv_lhs => rw [show m = (m - 1) + 1 by omega, pow_succ]
    refine ⟨by rw [hrow1.1, hl1, hlen], by rw [hrows.1, hl1, hlen], ?_⟩
    intro q hq
    have hb : q / 8 < 4 ^ (m - 1) := by omega
    have hr : q % 8 < 8 := Nat.mod_lt _ (by omega)
    have hqe : q = 8 * (q / 8) + q % 8 := by omega
    obtain ⟨Q, hQ⟩ := getQuad?_of_lt st1.pSrc (0 + q / 8 * (4 * 1)) 1 (by omega)
    have g1 := hrow1.2.1 (q / 8) hb
    have gs := hrows.2.1 (q / 8) hb
    rw [hQ] at g1 gs
    rw [hqe, getElem?_of_getQuad?_one g1 _ hr, getElem?_of_getQuad?_one gs _ hr]
    simp only [Option.map_some']
    exact congrArg some (invLastVals_nth_scale s Q (q % 8))
  · intro hc hfuel htab
    obtain ⟨_, ⟨o1, h1, _⟩⟩ :=
      butterflies_complete m c fuel (1 : R) pCoef pSrc hm hlen h16 hc hfuel htab
    obtain ⟨_, ⟨os, hs, _⟩⟩ :=
      butterflies_complete m c fuel s pCoef pSrc hm hlen h16 hc hfuel htab
    exact ⟨o1, os, h1, hs⟩

/-- C5 (as amended): for `1 ≤ c` and `c * fftLen < 2^16`, forward butterfly, bit reversal,
inverse butterfly with `onebyfftLen = 1 / fftLen`, bit reversal returns the original
buffer. -/
theorem cifft_undoes_cfft (m c fuel : Nat) (pSrc pCoef : List ℝ)
    (hm : 1 ≤ m) (hc0 : 1 ≤ c) (hc : c * 4 ^ m < 2 ^ 16)
    (hlen : pSrc.length = 2 * 4 ^ m) (hfuel : 4 ^ m ≤ fuel)
    (htablen : 6 * (4 ^ m / 4 - 1) * c + 1 < pCoef.length)
    (htab : ∀ k, 2 * k + 1 < pCoef.length →
      pCoef[2 * k]? = some (Real.cos (2 * Real.pi * k / ((c * 4 ^ m : Nat) : ℝ))) ∧
      pCoef[2 * k + 1]? = some (Real.sin (2 * Real.pi * k / ((c * 4 ^ m : Nat) : ℝ)))) :
    ∃ y v, arm_radix4_butterfly_f16 fuel pSrc (4 ^ m) pCoef c = .ok y ∧
      arm_radix4_butterfly_inverse_f16 fuel (bitReversal (2 * m) y) (4 ^ m) pCoef c
        (1 / ((4 ^ m : Nat) : ℝ)) = .ok v ∧
      bitReversal (2 * m) v = pSrc := by
  have hN : 0 < 4 ^ m := Nat.pow_pos (by omega)
  have h16 : 4 ^ m < 2 ^ 16 := by
    calc 4 ^ m = 1 * 4 ^ m := by ring
      _ ≤ c * 4 ^ m := Nat.mul_le_mul_right _ hc0
      _ < 2 ^ 16 := hc
  have hT := tableFor_of_cos_sin pCoef c (4 ^ m) (3 * (4 ^ m / 4 - 1)) hc0 hN
    (by have : 2 * (c * (3 * (4 ^ m / 4 - 1))) = 6 * (4 ^ m / 4 - 1) * c := by ring
        omega) htab
  have hWN := rootW_pow_N (4 ^ m) hN
  have hWq := rootW_pow_quarter (4 ^ m) hN (four_dvd_four_pow hm)
  have h2m := two_pow_two_mul m
  obtain ⟨y, hy, hyl, hyv⟩ := fwd_dif _ m c fuel pSrc pCoef hlen h16 hc hfuel htablen hWN hWq hT
  have hpl : (bitReversal (2 * m) y).length = 2 * 4 ^ m := by rw [length_bitReversal, hyl]
  obtain ⟨v, hv, hvl, hvv⟩ := inv_dif _ m c fuel (1 / ((4 ^ m : Nat) : ℝ))
    (bitReversal (2 * m) y) pCoef (by omega) hpl h16 hc hfuel htablen hWN hWq hT
  refine ⟨y, v, hy, hv, ?_⟩
  apply list_eq_of_cplx (4 ^ m) _ _ (by rw [length_bitReversal, hvl]) hlen
  intro n hn
  have hrn : bitrev (2 * m) n < 4 ^ m := by rw [← h2m]; exact bitrev_lt _ _
  rw [cplx_bitReversal (2 * m) v (by rw [hvl, h2m]) n (by rw [h2m]; exact hn), hvv _ hrn,
    bitrev_bitrev (2 * m) n (by rw [h2m]; exact hn)]
  have hy' : ∀ k, k ∈ range (4 ^ m) → cplx (bitReversal (2 * m) y) k *
      (starRingEnd ℂ) (Complex.exp (-(2 * Real.pi * Complex.I / (((4 ^ m : Nat) : ℝ) : ℂ)))) ^
        (k * n) =
      ∑ u in range (4 ^ m), cplx pSrc u *
        (Complex.exp (-(2 * Real.pi * Complex.I / (((4 ^ m : Nat) : ℝ) : ℂ))) ^ (u * k) *
        (starRingEnd ℂ) (Complex.exp (-(2 * Real.pi * Complex.I / (((4 ^ m : Nat) : ℝ) : ℂ)))) ^
          (k * n)) := by
    intro k hk
    have hk' := mem_range.mp hk
    have hrk : bitrev (2 * m) k < 4 ^ m := by rw [← h2m]; exact bitrev_lt _ _
    rw [cplx_bitReversal (2 * m) y (by rw [hyl, h2m]) k (by rw [h2m]; exact hk'), hyv _ hrk,
      bitrev_bitrev (2 * m) k (by rw [h2m]; exact hk'), sum_mul]
    apply sum_congr rfl
    intro u _
    ring
  rw [sum_congr rfl hy', sum_comm]
  simp only [← mul_sum]
  rw [sum_congr rfl (fun u hu => by
    rw [orthogonality (4 ^ m) hN u n (mem_range.mp hu) hn])]
  simp only [mul_ite, mul_zero, sum_ite_eq', mem_range, hn, if_true]
  have hNc : (((4 ^ m : Nat) : ℝ) : ℂ) ≠ 0 := by
    have : ((4 ^ m : Nat) : ℝ) ≠ 0 := by exact_mod_cast hN.ne'
    exact_mod_cast this
  push_cast
  push_cast at hNc
  field_simp

end CmsisDsp

namespace CmsisDsp

open Finset

/-- Witness for C4: a 4-point transform of `1, 2, 3, 4` with the one-entry table `(1, 0)`. -/
theorem forward_butterfly_is_dft_witness :
    (1 ≤ 1 ∧ 1 * 4 ^ 1 < 2 ^ 16 ∧ ([1, 0, 2, 0, 3, 0, 4, 0] : List ℝ).length = 2 * 4 ^ 1 ∧
      6 * (4 ^ 1 / 4 - 1) * 1 + 1 < ([1, 0] : List ℝ).length) ∧
    ∃ out, arm_radix4_butterfly_f16 4 ([1, 0, 2, 0, 3, 0, 4, 0] : List ℝ) (4 ^ 1) [1, 0] 1
        = .ok out ∧
      out.length = 2 * 4 ^ 1 ∧
      ∀ p, p < 4 ^ 1 →
        cplx out p = ∑ n in range (4 ^ 1), cplx ([1, 0, 2, 0, 3, 0, 4, 0] : List ℝ) n *
          Complex.exp (-2 * Real.pi * Complex.I * n * (bitrev (2 * 1) p) / (4 ^ 1 : Nat)) :=
  ⟨⟨by norm_num, by norm_num, by simp, by simp⟩,
    forward_butterfly_is_dft 1 1 4 [1, 0, 2, 0, 3, 0, 4, 0] [1, 0] (by norm_num) (by norm_num)
      (by norm_num) (by simp) (by norm_num) (by simp)
      (by
        intro k hk
        have hk0 : k = 0 := by simp at hk; omega
        subst hk0
        simp)⟩

/-- Witness for C5 (as amended): the round trip on the 4-point buffer `1, 2, 3, 4`. -/
theorem cifft_undoes_cfft_witness :
    (1 ≤ 1 ∧ 1 * 4 ^ 1 < 2 ^ 16 ∧ ([1, 0, 2, 0, 3, 0, 4, 0] : List ℝ).length = 2 * 4 ^ 1 ∧
      6 * (4 ^ 1 / 4 - 1) * 1 + 1 < ([1, 0] : List ℝ).length) ∧
    ∃ y v, arm_radix4_butterfly_f16 4 ([1, 0, 2, 0, 3, 0, 4, 0] : List ℝ) (4 ^ 1) [1, 0] 1
        = .ok y ∧
      arm_radix4_butterfly_inverse_f16 4 (bitReversal (2 * 1) y) (4 ^ 1) [1, 0] 1
        (1 / ((4 ^ 1 : Nat) : ℝ)) = .ok v ∧
      bitReversal (2 * 1) v = [1, 0, 2, 0, 3, 0, 4, 0] :=
  ⟨⟨by norm_num, by norm_num, by simp, by simp⟩,
    cifft_undoes_cfft 1 1 4 [1, 0, 2, 0, 3, 0, 4, 0] [1, 0] (by norm_num) (by norm_num)
      (by norm_num) (by simp) (by norm_num) (by simp)
      (by
        intro k hk
        have hk0 : k = 0 := by simp at hk; omega
        subst hk0
        simp)⟩

/-- Witness for C6: a 4-point buffer over the integers. -/
theorem butterflies_stay_in_buffer_witness :
    (1 ≤ 1 ∧ 4 ^ 1 < 2 ^ 16 ∧ ([1, 0, 2, 0, 3, 0, 4, 0] : List ℤ).length = 2 * 4 ^ 1) ∧
    arm_radix4_butterfly_f16 4 ([1, 0, 2, 0, 3, 0, 4, 0] : List ℤ) (4 ^ 1) [1, 0] 1
      ≠ .error .srcRange ∧
    arm_radix4_butterfly_inverse_f16 4 ([1, 0, 2, 0, 3, 0, 4, 0] : List ℤ) (4 ^ 1) [1, 0] 1 1
      ≠ .error .srcRange :=
  ⟨⟨by decide, by decide, by decide⟩,
    (butterflies_stay_in_buffer 1 1 4 (1 : ℤ) [1, 0, 2, 0, 3, 0, 4, 0] [1, 0] (by decide)
      (by decide) (by decide)).1,
    (butterflies_stay_in_buffer 1 1 4 (1 : ℤ) [1, 0, 2, 0, 3, 0, 4, 0] [1, 0] (by decide)
      (by decide) (by decide)).2.1⟩

/-- Witness for C7: a 16-point transform with modifier `2` on a table of 20 complex
entries against modifier `1` on the table of its even-numbered entries. -/
theorem twiddle_modifier_reuses_table_witness :
    (1 ≤ 2 ∧ 1 ≤ 2 ∧ 2 * 4 ^ 2 < 2 ^ 16) ∧
    arm_radix4_butterfly_f16 16 ((List.range 32).map Int.ofNat) (4 ^ 2)
        ((List.range 40).map Int.ofNat) 2 =
      arm_radix4_butterfly_f16 16 ((List.range 32).map Int.ofNat) (4 ^ 2)
        ((List.range 20).map (fun i => Int.ofNat (4 * (i / 2) + i % 2))) 1 :=
  ⟨⟨by decide, by decide, by decide⟩,
    (twiddle_modifier_reuses_table 2 2 16 ((List.range 32).map Int.ofNat)
      ((List.range 40).map Int.ofNat)
      ((List.range 20).map (fun i => Int.ofNat (4 * (i / 2) + i % 2)))
      (by decide) (by decide) (by decide)
      (by
        intro k hk
        have hk9 : k ≤ 9 := by simpa using hk
        interval_cases k <;> decide)).1⟩

/-- Witness for C8: a 4-point buffer over the integers, scale `3`. -/
theorem inverse_scales_once_witness :
    (1 ≤ 1 ∧ 4 ^ 1 < 2 ^ 16 ∧ ([1, 0, 2, 0, 3, 0, 4, 0] : List ℤ).length = 2 * 4 ^ 1) ∧
    ∃ out1 outs,
      arm_radix4_butterfly_inverse_f16 4 ([1, 0, 2, 0, 3, 0, 4, 0] : List ℤ) (4 ^ 1) [1, 0] 1 1
        = .ok out1 ∧
      arm_radix4_butterfly_inverse_f16 4 ([1, 0, 2, 0, 3, 0, 4, 0] : List ℤ) (4 ^ 1) [1, 0] 1 3
        = .ok outs ∧
      ∀ q, q < 2 * 4 ^ 1 → outs[q]? = (out1[q]?).map (fun v => 3 * v) := by
  have h := inverse_scales_once 1 1 4 (3 : ℤ) [1, 0, 2, 0, 3, 0, 4, 0] [1, 0] (by decide)
    (by decide) (by decide)
  obtain ⟨out1, outs, h1, hs⟩ := h.2 (by decide) (by decide) (by decide)
  exact ⟨⟨by decide, by decide, by decide⟩, out1, outs, h1, hs, (h.1 out1 outs h1 hs).2.2⟩

end CmsisDsp

namespace CmsisDsp

open Finset

/-! ## A 64-point transform whose modifier wraps around in `uint16_t`

With `fftLen = 64` and `twidCoefModifier = 16384` the update `twidCoefModifier <<= 2U`
of the first stage yields `65536`, which is `0` as a `uint16_t`: the second stage reads
the twiddle `(1, 0)` for every column. The lemmas below follow the unit impulse at
position 2 through the three forward stages and, after bit reversal, follow position 16
backwards through the three inverse stages. -/

theorem sum_range_four (f : Nat → ℂ) : ∑ t in range 4, f t = f 0 + f 1 + f 2 + f 3 := by
  simp [sum_range_succ]

theorem wrap_fwd_stage0 (ι W : ℂ) (x z : Nat → ℂ)
    (hx : ∀ p, p < 64 → x p = if p = 2 then 1 else 0)
    (hst : StageRel ι W 1 16 1 1 x z) :
    ∀ p, p < 64 → z p = if p % 16 = 2 then W ^ (2 * bitrev 2 (p / 16)) else 0 := by
  intro p hp
  have h := hst (p % 16) (by omega) 0 (by omega) (p / 16) (by omega)
  have hz : z p = z (p % 16 + 0 * (4 * 16) + p / 16 * 16) := congrArg z (by omega)
  rw [hz, h, sum_range_four, hx _ (by omega), hx _ (by omega), hx _ (by omega),
    hx _ (by omega)]
  by_cases h2 : p % 16 = 2
  · rw [if_pos h2, if_pos (by omega), if_neg (by omega), if_neg (by omega), if_neg (by omega), h2]
    simp only [Nat.zero_mul, pow_zero, mul_one, mul_zero, add_zero, one_mul]
    rw [Nat.mul_comm (bitrev 2 (p / 16)) 2]
  · rw [if_neg h2, if_neg (by omega), if_neg (by omega), if_neg (by omega), if_neg (by omega)]
    simp only [mul_zero, add_zero, zero_mul]

theorem wrap_fwd_stage1 (ι W : ℂ) (z1 z2 : Nat → ℂ)
    (h1 : ∀ p, p < 64 → z1 p = if p % 16 = 2 then W ^ (2 * bitrev 2 (p / 16)) else 0)
    (hst : StageRel ι W 1 4 4 0 z1 z2) :
    ∀ p, p < 64 → z2 p = if p % 4 = 2 then W ^ (2 * bitrev 2 (p / 16)) else 0 := by
  intro p hp
  have h := hst (p % 4) (by omega) (p / 16) (by omega) (p / 4 % 4) (by omega)
  have hz : z2 p = z2 (p % 4 + p / 16 * (4 * 4) + p / 4 % 4 * 4) := congrArg z2 (by omega)
  rw [hz, h, sum_range_four, h1 _ (by omega), h1 _ (by omega), h1 _ (by omega),
    h1 _ (by omega)]
  have hd : (p % 4 + p / 16 * (4 * 4) + 0 * 4) / 16 = p / 16 := by omega
  by_cases h2 : p % 4 = 2
  · rw [if_pos h2, if_pos (by omega), if_neg (by omega), if_neg (by omega), if_neg (by omega), hd]
    simp only [Nat.zero_mul, Nat.mul_zero, pow_zero, mul_one, mul_zero, add_zero, one_mul]
  · rw [if_neg h2, if_neg (by omega), if_neg (by omega), if_neg (by omega), if_neg (by omega)]
    simp only [mul_zero, add_zero, zero_mul]

theorem wrap_fwd_stage2 (ι W : ℂ) (hι : ι ^ 2 = -1) (z2 z3 : Nat → ℂ)
    (h2 : ∀ p, p < 64 → z2 p = if p % 4 = 2 then W ^ (2 * bitrev 2 (p / 16)) else 0)
    (hst : StageRel ι W 1 1 16 0 z2 z3) :
    ∀ p, p < 64 → z3 p = (if p % 4 < 2 then 1 else -1) * W ^ (2 * bitrev 2 (p / 16)) := by
  intro p hp
  have h := hst 0 (by omega) (p / 4) (by omega) (p % 4) (by omega)
  have hz : z3 p = z3 (0 + p / 4 * (4 * 1) + p % 4 * 1) := congrArg z3 (by omega)
  rw [hz, h, sum_range_four, h2 _ (by omega), h2 _ (by omega), h2 _ (by omega),
    h2 _ (by omega)]
  have hd : (0 + p / 4 * (4 * 1) + 2 * 1) / 16 = p / 16 := by omega
  rw [if_neg (by omega), if_neg (by omega), if_pos (by omega), if_neg (by omega), hd]
  have p4 : ι ^ 4 = 1 := by rw [show 4 = 2 * 2 by norm_num, pow_mul, hι]; norm_num
  have p6 : ι ^ 6 = -1 := by rw [show 6 = 2 * 3 by norm_num, pow_mul, hι]; norm_num
  have hq : p % 4 = 0 ∨ p % 4 = 1 ∨ p % 4 = 2 ∨ p % 4 = 3 := by omega
  rcases hq with hq | hq | hq | hq <;> rw [hq]
  · rw [show bitrev 2 0 = 0 by decide, if_pos (by omega)]
    simp only [Nat.zero_mul, Nat.mul_zero, pow_zero, mul_one, mul_zero, add_zero, zero_add,
      one_mul]
  · rw [show bitrev 2 1 = 2 by decide, if_pos (by omega)]
    simp only [Nat.reduceMul, Nat.zero_mul, Nat.mul_zero, pow_zero, mul_one, mul_zero, add_zero,
      zero_add, one_mul, p4]
  · rw [show bitrev 2 2 = 1 by decide, if_neg (by omega)]
    simp only [Nat.reduceMul, Nat.zero_mul, Nat.mul_zero, pow_zero, mul_one, mul_zero, add_zero,
      zero_add, one_mul, hι]
  · rw [show bitrev 2 3 = 3 by decide, if_neg (by omega)]
    simp only [Nat.reduceMul, Nat.zero_mul, Nat.mul_zero, pow_zero, mul_one, mul_zero, add_zero,
      zero_add, one_mul, p6]

theorem wrap_inv_stage0 (W V : ℂ) (hWV : W * V = 1) (y u : Nat → ℂ)
    (hy : ∀ k, k < 64 → y k = (if k / 16 % 2 = 0 then 1 else -1) * W ^ (2 * (k % 4)))
    (hst : StageRel Complex.I V 1 16 1 1 y u) :
    ∀ j, j < 16 → u (16 + j) = 4 * V ^ (8 * (j / 4)) := by
  intro j hj
  have h := hst j hj 0 (by omega) 1 (by omega)
  have hz : u (16 + j) = u (j + 0 * (4 * 16) + 1 * 16) := congrArg u (by omega)
  rw [hz, h, sum_range_four, show bitrev 2 1 = 2 by decide, hy _ (by omega), hy _ (by omega),
    hy _ (by omega), hy _ (by omega)]
  have d0 : (j + 0 * (4 * 16) + 0 * 16) / 16 % 2 = 0 := by omega
  have d1 : (j + 0 * (4 * 16) + 1 * 16) / 16 % 2 = 1 := by omega
  have d2 : (j + 0 * (4 * 16) + 2 * 16) / 16 % 2 = 0 := by omega
  have d3 : (j + 0 * (4 * 16) + 3 * 16) / 16 % 2 = 1 := by omega
  have m0 : (j + 0 * (4 * 16) + 0 * 16) % 4 = j % 4 := by omega
  have m1 : (j + 0 * (4 * 16) + 1 * 16) % 4 = j % 4 := by omega
  have m2 : (j + 0 * (4 * 16) + 2 * 16) % 4 = j % 4 := by omega
  have m3 : (j + 0 * (4 * 16) + 3 * 16) % 4 = j % 4 := by omega
  rw [d0, d1, d2, d3, m0, m1, m2, m3]
  simp only [Nat.reduceMul, Nat.zero_mul, pow_zero, if_true, one_ne_zero, if_false, mul_one]
  have i2 : Complex.I ^ 2 = -1 := Complex.I_sq
  have i4 : Complex.I ^ 4 = 1 := by rw [show 4 = 2 * 2 by norm_num, pow_mul, i2]; norm_num
  have i6 : Complex.I ^ 6 = -1 := by rw [show 6 = 2 * 3 by norm_num, pow_mul, i2]; norm_num
  rw [i2, i4, i6]
  have hcancel : W ^ (2 * (j % 4)) * V ^ (2 * j) = V ^ (8 * (j / 4)) := by
    have hj2 : 2 * j = 2 * (j % 4) + 8 * (j / 4) := by omega
    rw [hj2, pow_add, ← mul_assoc, ← mul_pow, hWV, one_pow, one_mul]
  rw [← hcancel]
  ring

theorem wrap_inv_stage1 (V : ℂ) (u1 u2 : Nat → ℂ)
    (h1 : ∀ j, j < 16 → u1 (16 + j) = 4 * V ^ (8 * (j / 4)))
    (hst : StageRel Complex.I V 1 4 4 0 u1 u2) :
    ∀ j, j < 4 → u2 (16 + j) = 4 * (1 + V ^ 8 + V ^ 16 + V ^ 24) := by
  intro j hj
  have h := hst j hj 1 (by omega) 0 (by omega)
  have hz : u2 (16 + j) = u2 (j + 1 * (4 * 4) + 0 * 4) := congrArg u2 (by omega)
  have e0 : u1 (j + 1 * (4 * 4) + 0 * 4) = u1 (16 + j) := congrArg u1 (by omega)
  have e1 : u1 (j + 1 * (4 * 4) + 1 * 4) = u1 (16 + (j + 4)) := congrArg u1 (by omega)
  have e2 : u1 (j + 1 * (4 * 4) + 2 * 4) = u1 (16 + (j + 8)) := congrArg u1 (by omega)
  have e3 : u1 (j + 1 * (4 * 4) + 3 * 4) = u1 (16 + (j + 12)) := congrArg u1 (by omega)
  have q0 : j / 4 = 0 := by omega
  have q1 : (j + 4) / 4 = 1 := by omega
  have q2 : (j + 8) / 4 = 2 := by omega
  have q3 : (j + 12) / 4 = 3 := by omega
  rw [hz, h, sum_range_four, show bitrev 2 0 = 0 by decide, e0, e1, e2, e3, h1 j (by omega),
    h1 (j + 4) (by omega), h1 (j + 8) (by omega), h1 (j + 12) (by omega), q0, q1, q2, q3]
  simp only [Nat.mul_zero, Nat.zero_mul, Nat.reduceMul, pow_zero, mul_one, one_mul]
  ring

theorem wrap_inv_stage2 (V s : ℂ) (e : Nat) (u2 v : Nat → ℂ)
    (h2 : ∀ j, j < 4 → u2 (16 + j) = 4 * (1 + V ^ 8 + V ^ 16 + V ^ 24))
    (hst : StageRel Complex.I V s 1 16 e u2 v) :
    v 16 = 16 * (1 + V ^ 8 + V ^ 16 + V ^ 24) * s := by
  have h := hst 0 (by omega) 4 (by omega) 0 (by omega)
  have hz : v 16 = v (0 + 4 * (4 * 1) + 0 * 1) := congrArg v (by omega)
  have e0 : u2 (0 + 4 * (4 * 1) + 0 * 1) = u2 (16 + 0) := congrArg u2 (by omega)
  have e1 : u2 (0 + 4 * (4 * 1) + 1 * 1) = u2 (16 + 1) := congrArg u2 (by omega)
  have e2 : u2 (0 + 4 * (4 * 1) + 2 * 1) = u2 (16 + 2) := congrArg u2 (by omega)
  have e3 : u2 (0 + 4 * (4 * 1) + 3 * 1) = u2 (16 + 3) := congrArg u2 (by omega)
  rw [hz, h, sum_range_four, show bitrev 2 0 = 0 by decide, e0, e1, e2, e3, h2 0 (by omega),
    h2 1 (by omega), h2 2 (by omega), h2 3 (by omega)]
  simp only [Nat.mul_zero, Nat.zero_mul, pow_zero, mul_one, one_mul]
  ring

theorem bitrev6_split : ∀ k, k < 64 →
    bitrev 6 k % 4 = bitrev 2 (k / 16) ∧ bitrev 6 k / 16 = bitrev 2 (k % 4) := by
  decide

theorem bitrev2_facts : ∀ t, t < 4 →
    bitrev 2 (bitrev 2 t) = t ∧ (bitrev 2 t < 2 ↔ t % 2 = 0) := by
  decide

theorem twiddle_at (pCoef : List ℝ) (c bound k : Nat) (W : ℂ) (htab : TableFor pCoef c W bound)
    (hk : 3 * k ≤ bound) (h32 : 6 * (c * k) + 1 < 2 ^ 32) (w : Twiddle ℝ)
    (hw : readTwiddle pCoef (c * k) = .ok w) :
    w.co1 = (W ^ k).re ∧ w.si1 = -(W ^ k).im ∧
    w.co2 = (W ^ (2 * k)).re ∧ w.si2 = -(W ^ (2 * k)).im ∧
    w.co3 = (W ^ (3 * k)).re ∧ w.si3 = -(W ^ (3 * k)).im := by
  obtain ⟨t1, t1'⟩ := htab k (by omega)
  obtain ⟨t2, t2'⟩ := htab (2 * k) (by omega)
  obtain ⟨t3, t3'⟩ := htab (3 * k) (by omega)
  have e2 : 2 * (c * (2 * k)) = 2 * (2 * (c * k)) := by ring
  have e3 : 2 * (c * (3 * k)) = 2 * (3 * (c * k)) := by ring
  rw [e2] at t2 t2'
  rw [e3] at t3 t3'
  have := readTwiddle_eq pCoef (c * k) h32
    ⟨(W ^ k).re, -(W ^ k).im, (W ^ (2 * k)).re, -(W ^ (2 * k)).im, (W ^ (3 * k)).re,
      -(W ^ (3 * k)).im⟩ t1 t1' t2 t2' t3 t3'
  rw [this] at hw
  injection hw with hw
  subst hw
  exact ⟨rfl, rfl, rfl, rfl, rfl, rfl⟩

/-- Forward kernel with the twiddles of column `k` of the table. -/
theorem fwd_kernel_at (pCoef : List ℝ) (c bound k : Nat) (W : ℂ)
    (htab : TableFor pCoef c W bound) (hk : 3 * k ≤ bound) (h32 : 6 * (c * k) + 1 < 2 ^ 32)
    (w : Twiddle ℝ) (hw : readTwiddle pCoef (c * k) = .ok w) (Q : Quad ℝ) :
    KernelSpec (-Complex.I) 1 (W ^ k) (W ^ (2 * k)) (W ^ (3 * k)) Q (fwdVals w Q) := by
  obtain ⟨h1, h2, h3, h4, h5, h6⟩ := twiddle_at pCoef c bound k W htab hk h32 w hw
  have := fwdVals_kernel w Q
  rw [h1, h2, h3, h4, h5, h6] at this
  simpa using this

/-- Inverse kernel with the twiddles of column `k` of the table. -/
theorem inv_kernel_at (pCoef : List ℝ) (c bound k : Nat) (W : ℂ)
    (htab : TableFor pCoef c W bound) (hk : 3 * k ≤ bound) (h32 : 6 * (c * k) + 1 < 2 ^ 32)
    (w : Twiddle ℝ) (hw : readTwiddle pCoef (c * k) = .ok w) (Q : Quad ℝ) :
    KernelSpec Complex.I 1 ((starRingEnd ℂ) W ^ k) ((starRingEnd ℂ) W ^ (2 * k))
      ((starRingEnd ℂ) W ^ (3 * k)) Q (invVals w Q) := by
  obtain ⟨h1, h2, h3, h4, h5, h6⟩ := twiddle_at pCoef c bound k W htab hk h32 w hw
  have := invVals_kernel w Q
  rw [h1, h2, h3, h4, h5, h6] at this
  simpa only [conj_eq_of_re_im, map_pow] using this

theorem modAt_wrap : modAt 16384 0 = 16384 ∧ modAt 16384 1 = 0 ∧ modAt 16384 2 = 0 := by
  decide

theorem rootW_mul_conj (N : Nat) :
    Complex.exp (-(2 * Real.pi * Complex.I / ((N : ℝ) : ℂ))) *
      (starRingEnd ℂ) (Complex.exp (-(2 * Real.pi * Complex.I / ((N : ℝ) : ℂ)))) = 1 := by
  rw [conj_rootW, ← Complex.exp_add]
  simp

theorem conj_rootW_pow_re (N : Nat) (k : Nat) :
    ((starRingEnd ℂ) (Complex.exp (-(2 * Real.pi * Complex.I / ((N : ℝ) : ℂ)))) ^ k).re =
      Real.cos (2 * Real.pi * k / N) := by
  rw [← map_pow, Complex.conj_re, rootW_pow_re]

/-- The four powers that meet at position 16 have real parts summing to 1. -/
theorem wrap_real_part :
    (16 * (1 + (starRingEnd ℂ) (Complex.exp (-(2 * Real.pi * Complex.I / (((4 ^ 3 : Nat) : ℝ) : ℂ)))) ^ 8
      + (starRingEnd ℂ) (Complex.exp (-(2 * Real.pi * Complex.I / (((4 ^ 3 : Nat) : ℝ) : ℂ)))) ^ 16
      + (starRingEnd ℂ) (Complex.exp (-(2 * Real.pi * Complex.I / (((4 ^ 3 : Nat) : ℝ) : ℂ)))) ^ 24)
      * (((1 / ((4 ^ 3 : Nat) : ℝ)) : ℝ) : ℂ)).re = 1 / 4 := by
  have h8 := conj_rootW_pow_re (4 ^ 3) 8
  have h16 := conj_rootW_pow_re (4 ^ 3) 16
  have h24 := conj_rootW_pow_re (4 ^ 3) 24
  have a8 : 2 * Real.pi * ((8 : Nat) : ℝ) / ((4 ^ 3 : Nat) : ℝ) = Real.pi / 4 := by
    push_cast; ring
  have a16 : 2 * Real.pi * ((16 : Nat) : ℝ) / ((4 ^ 3 : Nat) : ℝ) = Real.pi / 2 := by
    push_cast; ring
  have a24 : 2 * Real.pi * ((24 : Nat) : ℝ) / ((4 ^ 3 : Nat) : ℝ) = Real.pi - Real.pi / 4 := by
    push_cast; ring
  rw [a8] at h8
  rw [a16, Real.cos_pi_div_two] at h16
  rw [a24, Real.cos_pi_sub] at h24
  rw [Complex.re_mul_ofReal, show (16 : ℂ) = ((16 : ℝ) : ℂ) by norm_num, Complex.re_ofReal_mul,
    Complex.add_re, Complex.add_re, Complex.add_re, Complex.one_re, h8, h16, h24]
  push_cast
  ring

end CmsisDsp

namespace CmsisDsp

open Finset

theorem wrap_twiddles (pCoef : List ℝ) (hTlen : 1474561 < pCoef.length) (n : Nat) (hn : n ≤ 3) :
    ∀ i, i < n → ∀ j, j < 4 ^ (3 - i - 1) →
      ∃ w, readTwiddle pCoef (u32 (j * modAt 16384 i)) = .ok w := by
  obtain ⟨m0, m1, m2⟩ := modAt_wrap
  intro i hi j hj
  have hi3 : i < 3 := by omega
  interval_cases i
  · rw [m0]
    have hj' : j < 16 := by simpa using hj
    rw [u32_of_lt (by omega)]
    exact readTwiddle_of_lt pCoef _ (by omega) (by omega)
  · rw [m1, Nat.mul_zero, u32_of_lt (by norm_num)]
    exact readTwiddle_of_lt pCoef _ (by omega) (by omega)
  · rw [m2, Nat.mul_zero, u32_of_lt (by norm_num)]
    exact readTwiddle_of_lt pCoef _ (by omega) (by omega)

theorem wrap_fwd_kernels (pCoef : List ℝ) (W : ℂ) (hT : TableFor pCoef 16384 W 45) :
    (∀ j, j < 16 → ∀ w, readTwiddle pCoef (u32 (j * modAt 16384 0)) = .ok w →
      ∀ Q, KernelSpec (-Complex.I) 1 (W ^ (j * 1)) (W ^ (2 * (j * 1))) (W ^ (3 * (j * 1))) Q
        (fwdVals w Q)) ∧
    (∀ i, 1 ≤ i → i ≤ 2 → ∀ j, j < 16 →
      ∀ w, readTwiddle pCoef (u32 (j * modAt 16384 i)) = .ok w →
      ∀ Q, KernelSpec (-Complex.I) 1 (W ^ (j * 0)) (W ^ (2 * (j * 0))) (W ^ (3 * (j * 0))) Q
        (fwdVals w Q)) := by
  obtain ⟨m0, m1, m2⟩ := modAt_wrap
  constructor
  · intro j hj w hw Q
    rw [m0, u32_of_lt (by omega), Nat.mul_comm j 16384] at hw
    simpa only [Nat.mul_one] using
      fwd_kernel_at pCoef 16384 45 j W hT (by omega) (by omega) w hw Q
  · intro i h1 h2 j hj w hw Q
    have hm : modAt 16384 i = 0 := by
      interval_cases i
      · exact m1
      · exact m2
    rw [hm, Nat.mul_zero, u32_of_lt (by norm_num)] at hw
    simpa only [Nat.mul_zero] using
      fwd_kernel_at pCoef 16384 45 0 W hT (by omega) (by omega) w hw Q

theorem wrap_inv_kernels (pCoef : List ℝ) (W : ℂ) (hT : TableFor pCoef 16384 W 45) :
    (∀ j, j < 16 → ∀ w, readTwiddle pCoef (u32 (j * modAt 16384 0)) = .ok w →
      ∀ Q, KernelSpec Complex.I 1 ((starRingEnd ℂ) W ^ (j * 1))
        ((starRingEnd ℂ) W ^ (2 * (j * 1))) ((starRingEnd ℂ) W ^ (3 * (j * 1))) Q
        (invVals w Q)) ∧
    (∀ j, j < 16 → ∀ w, readTwiddle pCoef (u32 (j * modAt 16384 1)) = .ok w →
      ∀ Q, KernelSpec Complex.I 1 ((starRingEnd ℂ) W ^ (j * 0))
        ((starRingEnd ℂ) W ^ (2 * (j * 0))) ((starRingEnd ℂ) W ^ (3 * (j * 0))) Q
        (invVals w Q)) := by
  obtain ⟨m0, m1, _⟩ := modAt_wrap
  constructor
  · intro j hj w hw Q
    rw [m0, u32_of_lt (by omega), Nat.mul_comm j 16384] at hw
    simpa only [Nat.mul_one] using
      inv_kernel_at pCoef 16384 45 j W hT (by omega) (by omega) w hw Q
  · intro j hj w hw Q
    rw [m1, Nat.mul_zero, u32_of_lt (by norm_num)] at hw
    simpa only [Nat.mul_zero] using
      inv_kernel_at pCoef 16384 45 0 W hT (by omega) (by omega) w hw Q

/-- The forward transform of the unit impulse at position 2 when the modifier wraps. -/
theorem wrap_forward (pSrc pCoef : List ℝ) (W : ℂ) (hlen : pSrc.length = 2 * 4 ^ 3)
    (hT : TableFor pCoef 16384 W 45) (hTlen : 1474561 < pCoef.length)
    (hsrc : ∀ p, p < 64 → cplx pSrc p = if p = 2 then 1 else 0) :
    ∃ y, arm_radix4_butterfly_f16 64 pSrc (4 ^ 3) pCoef 16384 = .ok y ∧
      y.length = 2 * 4 ^ 3 ∧
      ∀ p, p < 64 → cplx y p = (if p % 4 < 2 then 1 else -1) * W ^ (2 * bitrev 2 (p / 16)) := by
  have hI2 : (-Complex.I) ^ 2 = -1 := by rw [neg_sq, Complex.I_sq]
  obtain ⟨hK0, hK1⟩ := wrap_fwd_kernels pCoef W hT
  have key := fwd_rule (fun _ => False)
    (fun i z =>
      (i = 0 → ∀ p, p < 64 → cplx z p = if p = 2 then 1 else 0) ∧
      (i = 1 → ∀ p, p < 64 → cplx z p =
        if p % 16 = 2 then W ^ (2 * bitrev 2 (p / 16)) else 0) ∧
      (i = 2 → ∀ p, p < 64 → cplx z p =
        if p % 4 = 2 then W ^ (2 * bitrev 2 (p / 16)) else 0) ∧
      (i = 3 → ∀ p, p < 64 → cplx z p =
        (if p % 4 < 2 then 1 else -1) * W ^ (2 * bitrev 2 (p / 16))))
    3 16384 64 pCoef pSrc (by omega) (by rw [hlen]; norm_num) (Or.inl (by norm_num))
    (Or.inl (wrap_twiddles pCoef hTlen 3 (by omega)))
    ⟨fun _ => hsrc, fun h => absurd h (by omega), fun h => absurd h (by omega),
      fun h => absurd h (by omega)⟩ ?step
  case step =>
    intro i z out hi hD hzl hcol
    have hzlen : 2 * (4 ^ i * (4 * 4 ^ (3 - i - 1))) ≤ z.length := by
      rw [← (four_pow_split hi).2, hzl, hlen]
    interval_cases i
    · have hst := stageRel_of_colOut fwdVals (-Complex.I) 1 W hI2 pCoef z out (modAt 16384 0)
        (4 ^ (3 - 0 - 1)) (4 ^ 0) 1 hzlen
        (fun j hj => hK0 j (by simpa using hj)) hcol
      rw [show 4 ^ (3 - 0 - 1) = 16 by norm_num, show 4 ^ 0 = 1 by norm_num] at hst
      exact ⟨fun h => absurd h (by omega),
        fun _ => wrap_fwd_stage0 (-Complex.I) W _ _ (hD.1 rfl) hst,
        fun h => absurd h (by omega), fun h => absurd h (by omega)⟩
    · have hst := stageRel_of_colOut fwdVals (-Complex.I) 1 W hI2 pCoef z out (modAt 16384 1)
        (4 ^ (3 - 1 - 1)) (4 ^ 1) 0 hzlen
        (fun j hj => hK1 1 (by omega) (by omega) j
          (by have : j < 4 := by simpa using hj
              omega)) hcol
      rw [show 4 ^ (3 - 1 - 1) = 4 by norm_num] at hst
      exact ⟨fun h => absurd h (by omega), fun h => absurd h (by omega),
        fun _ => wrap_fwd_stage1 (-Complex.I) W _ _ (hD.2.1 rfl) hst,
        fun h => absurd h (by omega)⟩
    · have hst := stageRel_of_colOut fwdVals (-Complex.I) 1 W hI2 pCoef z out (modAt 16384 2)
        (4 ^ (3 - 2 - 1)) (4 ^ 2) 0 hzlen
        (fun j hj => hK1 2 (by omega) (by omega) j
          (by have : j < 1 := by simpa using hj
              omega)) hcol
      rw [show 4 ^ (3 - 2 - 1) = 1 by norm_num, show 4 ^ 2 = 16 by norm_num] at hst
      exact ⟨fun h => absurd h (by omega), fun h => absurd h (by omega),
        fun h => absurd h (by omega),
        fun _ => wrap_fwd_stage2 (-Complex.I) W hI2 _ _ (hD.2.2.1 rfl) hst⟩
  rcases key with ⟨y, hrun, hl, hd⟩ | ⟨_, _, he⟩
  · exact ⟨y, hrun, by omega, hd.2.2.2 rfl⟩
  · exact he.elim

/-- The inverse transform at position 16 when the modifier wraps. -/
theorem wrap_inverse (y pCoef : List ℝ) (W : ℂ) (s : ℝ) (hlen : y.length = 2 * 4 ^ 3)
    (hWV : W * (starRingEnd ℂ) W = 1)
    (hT : TableFor pCoef 16384 W 45) (hTlen : 1474561 < pCoef.length)
    (hy : ∀ k, k < 64 → cplx y k = (if k / 16 % 2 = 0 then 1 else -1) * W ^ (2 * (k % 4))) :
    ∃ v, arm_radix4_butterfly_inverse_f16 64 y (4 ^ 3) pCoef 16384 s = .ok v ∧
      v.length = 2 * 4 ^ 3 ∧
      cplx v 16 = 16 * (1 + (starRingEnd ℂ) W ^ 8 + (starRingEnd ℂ) W ^ 16 +
        (starRingEnd ℂ) W ^ 24) * (s : ℂ) := by
  have hI2 : Complex.I ^ 2 = -1 := Complex.I_sq
  obtain ⟨hK0, hK1⟩ := wrap_inv_kernels pCoef W hT
  have key := inv_rule (fun _ => False)
    (fun i z =>
      (i = 0 → ∀ k, k < 64 → cplx z k =
        (if k / 16 % 2 = 0 then 1 else -1) * W ^ (2 * (k % 4))) ∧
      (i = 1 → ∀ j, j < 16 → cplx z (16 + j) = 4 * (starRingEnd ℂ) W ^ (8 * (j / 4))) ∧
      (i = 2 → ∀ j, j < 4 → cplx z (16 + j) = 4 * (1 + (starRingEnd ℂ) W ^ 8 +
        (starRingEnd ℂ) W ^ 16 + (starRingEnd ℂ) W ^ 24)))
    3 16384 64 s pCoef y (by omega) (by omega) (by rw [hlen]; norm_num) (Or.inl (by norm_num))
    (Or.inl (wrap_twiddles pCoef hTlen 2 (by omega)))
    ⟨fun _ => hy, fun h => absurd h (by omega), fun h => absurd h (by omega)⟩ ?step
  case step =>
    intro i z out hi hD hzl hcol
    have hi3 : i < 3 := by omega
    have hzlen : 2 * (4 ^ i * (4 * 4 ^ (3 - i - 1))) ≤ z.length := by
      rw [← (four_pow_split hi3).2, hzl, hlen]
    interval_cases i
    · have hst := stageRel_of_colOut invVals Complex.I 1 ((starRingEnd ℂ) W) hI2 pCoef z out
        (modAt 16384 0) (4 ^ (3 - 0 - 1)) (4 ^ 0) 1 hzlen
        (fun j hj => hK0 j (by simpa using hj)) hcol
      rw [show 4 ^ (3 - 0 - 1) = 16 by norm_num, show 4 ^ 0 = 1 by norm_num] at hst
      exact ⟨fun h => absurd h (by omega),
        fun _ => wrap_inv_stage0 W _ hWV _ _ (hD.1 rfl) hst,
        fun h => absurd h (by omega)⟩
    · have hst := stageRel_of_colOut invVals Complex.I 1 ((starRingEnd ℂ) W) hI2 pCoef z out
        (modAt 16384 1) (4 ^ (3 - 1 - 1)) (4 ^ 1) 0 hzlen
        (fun j hj => hK1 j
          (by have : j < 4 := by simpa using hj
              omega)) hcol
      rw [show 4 ^ (3 - 1 - 1) = 4 by norm_num] at hst
      exact ⟨fun h => absurd h (by omega), fun h => absurd h (by omega),
        fun _ => wrap_inv_stage1 _ _ _ (hD.2.1 rfl) hst⟩
  rcases key with ⟨v, st, _, hrun, hl, hd, hrow⟩ | ⟨_, _, he⟩
  · refine ⟨v, hrun, by rw [hrow.1, hl, hlen], ?_⟩
    have hst := stageRel_of_rowOut Complex.I (s : ℂ) ((starRingEnd ℂ) W) hI2 (invLastVals s)
      st.pSrc v (4 ^ (3 - 1)) 0 (by rw [hl, hlen]; norm_num) (invLastVals_kernel s) hrow
    rw [show 4 ^ (3 - 1) = 16 by norm_num] at hst
    exact wrap_inv_stage2 _ _ 0 _ _ (hd.2.2 rfl) hst
  · exact he.elim

end CmsisDsp

namespace CmsisDsp

open Finset

theorem impulse_cplx (p : Nat) (hp : p < 64) :
    cplx ((List.range 128).map (fun i => if i = 4 then (1 : ℝ) else 0)) p =
      if p = 2 then 1 else 0 := by
  have h1 : 2 * p < 128 := by omega
  have h2 : 2 * p + 1 < 128 := by omega
  simp only [cplx, List.getElem?_map, List.getElem?_range h1, List.getElem?_range h2,
    Option.map_some', Option.getD_some]
  by_cases hp2 : p = 2
  · subst hp2
    apply Complex.ext <;> simp
  · rw [if_neg hp2, if_neg (by omega), if_neg (by omega)]
    rfl

theorem cos_sin_table_get (period : ℝ) (n k : Nat) (hk : 2 * k + 1 < n) :
    ((List.range n).map (fun i =>
        if i % 2 = 0 then Real.cos (2 * Real.pi * ((i / 2 : Nat) : ℝ) / period)
        else Real.sin (2 * Real.pi * ((i / 2 : Nat) : ℝ) / period)))[2 * k]? =
      some (Real.cos (2 * Real.pi * k / period)) ∧
    ((List.range n).map (fun i =>
        if i % 2 = 0 then Real.cos (2 * Real.pi * ((i / 2 : Nat) : ℝ) / period)
        else Real.sin (2 * Real.pi * ((i / 2 : Nat) : ℝ) / period)))[2 * k + 1]? =
      some (Real.sin (2 * Real.pi * k / period)) := by
  have h1 : 2 * k < n := by omega
  have e1 : 2 * k % 2 = 0 := by omega
  have e2 : 2 * k / 2 = k := by omega
  have e3 : (2 * k + 1) % 2 = 1 := by omega
  have e4 : (2 * k + 1) / 2 = k := by omega
  constructor
  · simp only [List.getElem?_map, List.getElem?_range h1, Option.map_some', e1, e2, if_true]
  · simp only [List.getElem?_map, List.getElem?_range hk, Option.map_some', e3, e4,
      one_ne_zero, if_false]

/-- C5, counterexample: `fftLen = 64`, `twidCoefModifier = 16384` (both `uint16_t` values),
a cosine/sine table of period `16384 * 64` and the unit impulse at complex position 2.
The modifier wraps to 0 after the first stage, and the round trip returns `1/4` instead of
`1` at that position. -/
theorem cifft_roundtrip_fails_when_modifier_wraps :
    ∃ pSrc pCoef : List ℝ,
      pSrc = (List.range 128).map (fun i => if i = 4 then (1 : ℝ) else 0) ∧
      pCoef = (List.range 2097152).map (fun i =>
        if i % 2 = 0 then
          Real.cos (2 * Real.pi * ((i / 2 : Nat) : ℝ) / ((16384 * 4 ^ 3 : Nat) : ℝ))
        else Real.sin (2 * Real.pi * ((i / 2 : Nat) : ℝ) / ((16384 * 4 ^ 3 : Nat) : ℝ))) ∧
      pSrc.length = 2 * 4 ^ 3 ∧ 16384 < 2 ^ 16 ∧ 4 ^ 3 < 2 ^ 16 ∧
      (∀ k, 2 * k + 1 < pCoef.length →
        pCoef[2 * k]? = some (Real.cos (2 * Real.pi * k / ((16384 * 4 ^ 3 : Nat) : ℝ))) ∧
        pCoef[2 * k + 1]? = some (Real.sin (2 * Real.pi * k / ((16384 * 4 ^ 3 : Nat) : ℝ)))) ∧
      ∃ y v, arm_radix4_butterfly_f16 64 pSrc (4 ^ 3) pCoef 16384 = .ok y ∧
        arm_radix4_butterfly_inverse_f16 64 (bitReversal (2 * 3) y) (4 ^ 3) pCoef 16384
          (1 / ((4 ^ 3 : Nat) : ℝ)) = .ok v ∧
        (bitReversal (2 * 3) v)[4]? = some (1 / 4) ∧ pSrc[4]? = some 1 ∧
        bitReversal (2 * 3) v ≠ pSrc := by
  have htab : ∀ k, 2 * k + 1 < ((List.range 2097152).map (fun i =>
        if i % 2 = 0 then
          Real.cos (2 * Real.pi * ((i / 2 : Nat) : ℝ) / ((16384 * 4 ^ 3 : Nat) : ℝ))
        else Real.sin (2 * Real.pi * ((i / 2 : Nat) : ℝ) /
          ((16384 * 4 ^ 3 : Nat) : ℝ)))).length →
      ((List.range 2097152).map (fun i =>
        if i % 2 = 0 then
          Real.cos (2 * Real.pi * ((i / 2 : Nat) : ℝ) / ((16384 * 4 ^ 3 : Nat) : ℝ))
        else Real.sin (2 * Real.pi * ((i / 2 : Nat) : ℝ) /
          ((16384 * 4 ^ 3 : Nat) : ℝ))))[2 * k]? =
        some (Real.cos (2 * Real.pi * k / ((16384 * 4 ^ 3 : Nat) : ℝ))) ∧
      ((List.range 2097152).map (fun i =>
        if i % 2 = 0 then
          Real.cos (2 * Real.pi * ((i / 2 : Nat) : ℝ) / ((16384 * 4 ^ 3 : Nat) : ℝ))
        else Real.sin (2 * Real.pi * ((i / 2 : Nat) : ℝ) /
          ((16384 * 4 ^ 3 : Nat) : ℝ))))[2 * k + 1]? =
        some (Real.sin (2 * Real.pi * k / ((16384 * 4 ^ 3 : Nat) : ℝ))) := by
    intro k hk
    rw [List.length_map, List.length_range] at hk
    exact cos_sin_table_get _ 2097152 k hk
  refine ⟨_, _, rfl, rfl, by simp, by norm_num, by norm_num, htab, ?_⟩
  generalize hP : (List.range 2097152).map (fun i =>
        if i % 2 = 0 then
          Real.cos (2 * Real.pi * ((i / 2 : Nat) : ℝ) / ((16384 * 4 ^ 3 : Nat) : ℝ))
        else Real.sin (2 * Real.pi * ((i / 2 : Nat) : ℝ) / ((16384 * 4 ^ 3 : Nat) : ℝ)))
    = pCoef at htab
  have hPlen : pCoef.length = 2097152 := by rw [← hP]; simp
  generalize hS : (List.range 128).map (fun i => if i = 4 then (1 : ℝ) else 0) = pSrc
  have hSlen : pSrc.length = 2 * 4 ^ 3 := by rw [← hS]; simp
  have hsrc : ∀ p, p < 64 → cplx pSrc p = if p = 2 then 1 else 0 := by
    intro p hp; rw [← hS]; exact impulse_cplx p hp
  have hT := tableFor_of_cos_sin pCoef 16384 (4 ^ 3) 45 (by norm_num) (by norm_num)
    (by rw [hPlen]; norm_num) htab
  obtain ⟨y, hy, hyl, hyv⟩ := wrap_forward pSrc pCoef _ hSlen hT (by rw [hPlen]; norm_num) hsrc
  have h6 : 2 * 3 = 6 := rfl
  have hyl' : y.length = 2 * 2 ^ 6 := by rw [hyl]; norm_num
  have hy' : ∀ k, k < 64 → cplx (bitReversal (2 * 3) y) k =
      (if k / 16 % 2 = 0 then 1 else -1) *
        Complex.exp (-(2 * Real.pi * Complex.I / (((4 ^ 3 : Nat) : ℝ) : ℂ))) ^ (2 * (k % 4)) := by
    intro k hk
    have hb : bitrev 6 k < 64 := by
      have := bitrev_lt 6 k
      norm_num at this
      exact this
    obtain ⟨s1, s2⟩ := bitrev6_split k hk
    obtain ⟨f1, _⟩ := bitrev2_facts (k % 4) (by omega)
    obtain ⟨_, f2⟩ := bitrev2_facts (k / 16) (by omega)
    rw [h6, cplx_bitReversal 6 y hyl' k (by norm_num; exact hk), hyv _ hb, s1, s2, f1]
    by_cases hev : k / 16 % 2 = 0
    · rw [if_pos hev, if_pos (f2.mpr hev)]
    · rw [if_neg hev, if_neg (fun h => hev (f2.mp h))]
  obtain ⟨v, hv, hvl, hvv⟩ := wrap_inverse (bitReversal (2 * 3) y) pCoef _
    (1 / ((4 ^ 3 : Nat) : ℝ)) (by rw [length_bitReversal, hyl]) (rootW_mul_conj (4 ^ 3)) hT
    (by rw [hPlen]; norm_num) hy'
  have hvl' : v.length = 2 * 2 ^ 6 := by rw [hvl]; norm_num
  have hout : cplx (bitReversal (2 * 3) v) 2 = cplx v 16 := by
    rw [h6, cplx_bitReversal 6 v hvl' 2 (by norm_num)]
    rfl
  have hre : (cplx (bitReversal (2 * 3) v) 2).re = 1 / 4 := by
    rw [hout, hvv]
    exact wrap_real_part
  have hlenr : (bitReversal (2 * 3) v).length = 128 := by
    rw [length_bitReversal, hvl]; norm_num
  have hget : (bitReversal (2 * 3) v)[4]? = some (1 / 4) := by
    have h4 : 4 < (bitReversal (2 * 3) v).length := by omega
    rw [List.getElem?_eq_getElem h4]
    have : (cplx (bitReversal (2 * 3) v) 2).re = (bitReversal (2 * 3) v)[4] := by
      simp only [cplx, Nat.reduceMul, List.getElem?_eq_getElem h4, Option.getD_some]
    rw [← this, hre]
  have hsrc4 : pSrc[4]? = some 1 := by
    rw [← hS]
    simp [List.getElem?_range]
  refine ⟨y, v, hy, hv, hget, hsrc4, ?_⟩
  intro heq
  rw [heq, hsrc4] at hget
  injection hget with hget
  norm_num at hget

end CmsisDsp

namespace Rtx

/-! ## Ordered thread lists -/

end Rtx

namespace Rtx

/-! ## The wait protocol -/

end Rtx

namespace Rtx

/-! ## Wait queues and inherited priorities -/

end Rtx

namespace Rtx

/-! ## Handle conversions -/

/-- C2: for every opaque handle and each of the seven object kinds (thread, timer, event
flags, mutex, semaphore, memory pool, message queue) the typed pointer `osRtx<K>Id h` has
the address of the handle, and converting through the generic object gives the same
pointer, `osRtx<K>Object (osRtxObject h) = osRtx<K>Id h`. -/
theorem handle_space_is_uniform (h : Handle) :
    ((osRtxThreadId h).addr = h.addr ∧
      osRtxThreadObject (osRtxObject h) = osRtxThreadId h) ∧
    ((osRtxTimerId h).addr = h.addr ∧
      osRtxTimerObject (osRtxObject h) = osRtxTimerId h) ∧
    ((osRtxEventFlagsId h).addr = h.addr ∧
      osRtxEventFlagsObject (osRtxObject h) = osRtxEventFlagsId h) ∧
    ((osRtxMutexId h).addr = h.addr ∧
      osRtxMutexObject (osRtxObject h) = osRtxMutexId h) ∧
    ((osRtxSemaphoreId h).addr = h.addr ∧
      osRtxSemaphoreObject (osRtxObject h) = osRtxSemaphoreId h) ∧
    ((osRtxMemoryPoolId h).addr = h.addr ∧
      osRtxMemoryPoolObject (osRtxObject h) = osRtxMemoryPoolId h) ∧
    ((osRtxMessageQueueId h).addr = h.addr ∧
      osRtxMessageQueueObject (osRtxObject h) = osRtxMessageQueueId h) :=
  ⟨⟨rfl, rfl⟩, ⟨rfl, rfl⟩, ⟨rfl, rfl⟩, ⟨rfl, rfl⟩, ⟨rfl, rfl⟩, ⟨rfl, rfl⟩, ⟨rfl, rfl⟩⟩

/-! ## The wait protocol -/

end Rtx

namespace Rtx

/-! ## Priority inheritance -/

end Rtx

namespace Rtx

end Rtx

namespace CmsisDsp

/-! ## The stored values in closed form -/

theorem fwdVals_eq_fwdDocumented {R : Type} [CommRing R] (w : Twiddle R) (q : Quad R) :
    fwdVals w q = fwdDocumented w q := by
  simp only [fwdVals, fwdDocumented]
  congr 1 <;> ring

theorem invVals_eq_invStored {R : Type} [CommRing R] (w : Twiddle R) (q : Quad R) :
    invVals w q = invStored w q := by
  simp only [invVals, invStored]
  congr 1 <;> ring

/-- One more stage extends a trace of the stages before it. -/
theorem stageTrace_extend {R : Type} (vals : Twiddle R → Quad R → Quad R) (pCoef : List R)
    (c m i : Nat) (bufs : Nat → List R) (z out : List R) (hi : i < m)
    (hz : bufs i = z) (hlen : 2 * 4 ^ m ≤ z.length)
    (htr : StageTrace vals pCoef c m i bufs)
    (hcol : ColOut vals pCoef (modAt c i) (4 ^ (m - i - 1)) (4 ^ i) z out) :
    StageTrace vals pCoef c m (i + 1) (Function.update bufs (i + 1) out) := by
  intro i' hi' j hj b hb
  by_cases e : i' = i
  · subst e
    obtain ⟨w, hw, hquads⟩ := hcol.2 j hj
    have hrange := @quad_in_range (4 ^ (m - i' - 1)) (4 ^ i') j b z.length hj hb
      (by rw [← (four_pow_split hi).2]; exact hlen)
    obtain ⟨q, hq⟩ := getQuad?_of_lt z _ _ hrange
    refine ⟨w, q, hw, ?_, ?_⟩
    · rw [Function.update_noteq (by omega), hz]
      exact hq
    · rw [Function.update_same, hquads b hb, hq]
      rfl
  · obtain ⟨w, q, hw, h1, h2⟩ := htr i' (by omega) j hj b hb
    refine ⟨w, q, hw, ?_, ?_⟩
    · rw [Function.update_noteq (by omega)]
      exact h1
    · rw [Function.update_noteq (by omega)]
      exact h2

theorem stageTrace_congr {R : Type} (vals vals' : Twiddle R → Quad R → Quad R)
    (pCoef : List R) (c m n : Nat) (bufs : Nat → List R)
    (hv : ∀ w q, vals w q = vals' w q) (h : StageTrace vals pCoef c m n bufs) :
    StageTrace vals' pCoef c m n bufs := by
  intro i hi j hj b hb
  obtain ⟨w, q, hw, h1, h2⟩ := h i hi j hj b hb
  exact ⟨w, q, hw, h1, by rw [← hv]; exact h2⟩

/-- A complete forward run passes through buffers related stage by stage. -/
theorem fwd_trace {R : Type} [Add R] [Sub R] [Mul R] (m c fuel : Nat) (pSrc pCoef : List R)
    (hlen : pSrc.length = 2 * 4 ^ m) (h16 : 4 ^ m < 2 ^ 16) (hc : c * 4 ^ m < 2 ^ 16)
    (hfuel : 4 ^ m ≤ fuel) (htab : 6 * (4 ^ m / 4 - 1) * c + 1 < pCoef.length) :
    ∃ bufs : Nat → List R, bufs 0 = pSrc ∧
      arm_radix4_butterfly_f16 fuel pSrc (4 ^ m) pCoef c = .ok (bufs m) ∧
      StageTrace fwdVals pCoef c m m bufs := by
  have h := fwd_rule (fun _ => False)
    (fun i z => ∃ bufs : Nat → List R, bufs 0 = pSrc ∧ bufs i = z ∧
      StageTrace fwdVals pCoef c m i bufs)
    m c fuel pCoef pSrc (by omega) (by omega) (Or.inl hfuel)
    (Or.inl (twiddles_available pCoef m c hc htab))
    ⟨fun _ => pSrc, rfl, rfl, fun i hi => absurd hi (Nat.not_lt_zero _)⟩
    (by
      intro i z out hi hD hzlen hcol
      obtain ⟨bufs, h0, hz, htr⟩ := hD
      refine ⟨Function.update bufs (i + 1) out, ?_, ?_, ?_⟩
      · rw [Function.update_noteq (by omega)]; exact h0
      · rw [Function.update_same]
      · exact stageTrace_extend fwdVals pCoef c m i bufs z out hi hz (by omega) htr hcol)
  rcases h with ⟨out, hrun, _, bufs, h0, hm, htr⟩ | ⟨_, _, he⟩
  · exact ⟨bufs, h0, by rw [hm]; exact hrun, htr⟩
  · exact he.elim

/-- A complete inverse run passes through buffers related stage by stage up to the last
stage, which scales the sums and differences of the last of these buffers. -/
theorem inv_trace {R : Type} [Add R] [Sub R] [Mul R] (m c fuel : Nat) (s : R)
    (pSrc pCoef : List R) (hm : 1 ≤ m)
    (hlen : pSrc.length = 2 * 4 ^ m) (h16 : 4 ^ m < 2 ^ 16) (hc : c * 4 ^ m < 2 ^ 16)
    (hfuel : 4 ^ m ≤ fuel) (htab : 6 * (4 ^ m / 4 - 1) * c + 1 < pCoef.length) :
    ∃ (bufs : Nat → List R) (out : List R), bufs 0 = pSrc ∧
      StageTrace invVals pCoef c m (m - 1) bufs ∧
      arm_radix4_butterfly_inverse_f16 fuel pSrc (4 ^ m) pCoef c s = .ok out ∧
      RowOut (invLastVals s) 1 (4 ^ (m - 1)) 0 (bufs (m - 1)) out := by
  have h := inv_rule (fun _ => False)
    (fun i z => ∃ bufs : Nat → List R, bufs 0 = pSrc ∧ bufs i = z ∧
      StageTrace invVals pCoef c m i bufs)
    m c fuel s pCoef pSrc hm (by omega) (by omega) (Or.inl hfuel)
    (Or.inl (fun i hi => twiddles_available pCoef m c hc htab i (by omega)))
    ⟨fun _ => pSrc, rfl, rfl, fun i hi => absurd hi (Nat.not_lt_zero _)⟩
    (by
      intro i z out hi hD hzlen hcol
      obtain ⟨bufs, h0, hz, htr⟩ := hD
      refine ⟨Function.update bufs (i + 1) out, ?_, ?_, ?_⟩
      · rw [Function.update_noteq (by omega)]; exact h0
      · rw [Function.update_same]
      · exact stageTrace_extend invVals pCoef c m i bufs z out (by omega) hz (by omega) htr
          hcol)
  rcases h with ⟨out, st, _, hrun, _, ⟨bufs, h0, hz, htr⟩, hrow⟩ | ⟨_, _, he⟩
  · exact ⟨bufs, out, h0, htr, hrun, by rw [hz]; exact hrow⟩
  · exact he.elim

end CmsisDsp

namespace CmsisDsp

theorem getQuad?_of_reads {R : Type} (l : List R) (i0 n2 : Nat)
    (xa ya xb yb xc yc xd yd : R)
    (h0 : l[2 * i0]? = some xa) (h1 : l[2 * i0 + 1]? = some ya)
    (h2 : l[2 * (i0 + n2)]? = some xb) (h3 : l[2 * (i0 + n2) + 1]? = some yb)
    (h4 : l[2 * (i0 + n2 + n2)]? = some xc) (h5 : l[2 * (i0 + n2 + n2) + 1]? = some yc)
    (h6 : l[2 * (i0 + n2 + n2 + n2)]? = some xd)
    (h7 : l[2 * (i0 + n2 + n2 + n2) + 1]? = some yd) :
    getQuad? l i0 n2 =
      some { x0 := xa, y0 := ya, x1 := xb, y1 := yb, x2 := xc, y2 := yc, x3 := xd, y3 := yd } := by
  unfold getQuad?
  rw [h0, h1, h2, h3, h4, h5, h6, h7]
  rfl

/-- C12: over exact arithmetic (a commutative ring), a forward butterfly that reads
`(xa, ya)`, `(xb, yb)`, `(xc, yc)`, `(xd, yd)` at `i0`, `i1 = i0 + n2`, `i2 = i1 + n2`,
`i3 = i2 + n2` stores the documented pairs at `i0`, `i1`, `i2` and `i3`; and a complete
run of `arm_radix4_butterfly_f16` on `4 ^ m` samples passes through buffers `bufs 0 = pSrc`,
..., `bufs m` (the result) in which every butterfly of every stage has left the
documented values of the samples it found. -/
theorem forward_butterfly_writes_documented_values {R : Type} [CommRing R] (m c fuel : Nat)
    (pSrc pCoef : List R) (hlen : pSrc.length = 2 * 4 ^ m) (h16 : 4 ^ m < 2 ^ 16)
    (hc : c * 4 ^ m < 2 ^ 16) (hfuel : 4 ^ m ≤ fuel)
    (htab : 6 * (4 ^ m / 4 - 1) * c + 1 < pCoef.length) :
    (∀ (l : List R) (n2 i0 : Nat) (w : Twiddle R) (xa ya xb yb xc yc xd yd : R),
      0 < n2 → l.length < 2 ^ 32 →
      l[2 * i0]? = some xa → l[2 * i0 + 1]? = some ya →
      l[2 * (i0 + n2)]? = some xb → l[2 * (i0 + n2) + 1]? = some yb →
      l[2 * (i0 + n2 + n2)]? = some xc → l[2 * (i0 + n2 + n2) + 1]? = some yc →
      l[2 * (i0 + n2 + n2 + n2)]? = some xd → l[2 * (i0 + n2 + n2 + n2) + 1]? = some yd →
      ∃ out, fwdButterfly l n2 i0 w = .ok out ∧
        out[2 * i0]? = some (xa + xb + xc + xd) ∧
        out[2 * i0 + 1]? = some (ya + yb + yc + yd) ∧
        out[2 * (i0 + n2)]? =
          some ((xa - xb + xc - xd) * w.co2 + (ya - yb + yc - yd) * w.si2) ∧
        out[2 * (i0 + n2) + 1]? =
          some ((ya - yb + yc - yd) * w.co2 - (xa - xb + xc - xd) * w.si2) ∧
        out[2 * (i0 + n2 + n2)]? =
          some ((xa + yb - xc - yd) * w.co1 + (ya - xb - yc + xd) * w.si1) ∧
        out[2 * (i0 + n2 + n2) + 1]? =
          some ((ya - xb - yc + xd) * w.co1 - (xa + yb - xc - yd) * w.si1) ∧
        out[2 * (i0 + n2 + n2 + n2)]? =
          some ((xa - yb - xc + yd) * w.co3 + (ya + xb - yc - xd) * w.si3) ∧
        out[2 * (i0 + n2 + n2 + n2) + 1]? =
          some ((ya + xb - yc - xd) * w.co3 - (xa - yb - xc + yd) * w.si3)) ∧
    ∃ bufs : Nat → List R, bufs 0 = pSrc ∧
      arm_radix4_butterfly_f16 fuel pSrc (4 ^ m) pCoef c = .ok (bufs m) ∧
      StageTrace fwdDocumented pCoef c m m bufs := by
  constructor
  · intro l n2 i0 w xa ya xb yb xc yc xd yd hn2 hl h0 h1 h2 h3 h4 h5 h6 h7
    have hq := getQuad?_of_reads l i0 n2 xa ya xb yb xc yc xd yd h0 h1 h2 h3 h4 h5 h6 h7
    refine ⟨_, fwdButterfly_eq l n2 i0 w _ hn2 hl hq, ?_⟩
    have hput := getQuad?_eq_some
      (getQuad?_putQuad_self l i0 n2
        (fwdVals w { x0 := xa, y0 := ya, x1 := xb, y1 := yb, x2 := xc, y2 := yc,
                     x3 := xd, y3 := yd })
        hn2 (lt_of_getQuad? hq))
    rw [fwdVals_eq_fwdDocumented] at hput ⊢
    exact hput
  · obtain ⟨bufs, h0, hrun, htr⟩ := fwd_trace m c fuel pSrc pCoef hlen h16 hc hfuel htab
    exact ⟨bufs, h0, hrun,
      stageTrace_congr fwdVals fwdDocumented pCoef c m m bufs fwdVals_eq_fwdDocumented htr⟩

/-- C13, counterexample: the first butterfly of a 16-point inverse transform of
`impulseAtFour` (`n2 = 4`, `i0 = 0`, twiddles `(1, 0)` read at index 0, only `yb = 1` not
zero) stores `-1` at `pSrc[2*i2]` and `1` at `pSrc[2*i3]`, where the documented formulas
give `xb' = 1` and `xd' = -1`. -/
theorem inverse_butterfly_differs_from_documented_values :
    ∃ out : List ℤ,
      readTwiddle ([1, 0] : List ℤ) 0 = .ok ⟨1, 0, 1, 0, 1, 0⟩ ∧
      getQuad? impulseAtFour 0 4 = some ⟨0, 0, 0, 1, 0, 0, 0, 0⟩ ∧
      invButterfly impulseAtFour 4 0 ⟨1, 0, 1, 0, 1, 0⟩ = .ok out ∧
      out[2 * (0 + 4 + 4)]? = some (-1) ∧
      (invDocumented (⟨1, 0, 1, 0, 1, 0⟩ : Twiddle ℤ) ⟨0, 0, 0, 1, 0, 0, 0, 0⟩).x2 = 1 ∧
      out[2 * (0 + 4 + 4 + 4)]? = some 1 ∧
      (invDocumented (⟨1, 0, 1, 0, 1, 0⟩ : Twiddle ℤ) ⟨0, 0, 0, 1, 0, 0, 0, 0⟩).x3 = -1 ∧
      out ≠ putQuad impulseAtFour 0 4
        (invDocumented (⟨1, 0, 1, 0, 1, 0⟩ : Twiddle ℤ) ⟨0, 0, 0, 1, 0, 0, 0, 0⟩) := by
  refine ⟨_, rfl, rfl, rfl, rfl, rfl, rfl, rfl, ?_⟩
  decide

/-- C13 (amended): over exact arithmetic, an inverse butterfly of a non-final stage that
reads `(xa, ya)`, `(xb, yb)`, `(xc, yc)`, `(xd, yd)` at `i0`, `i1`, `i2`, `i3` stores
`(xa-yb-xc+yd)*co1 - (ya+xb-yc-xd)*si1` at `pSrc[2*i2]`,
`(ya+xb-yc-xd)*co1 + (xa-yb-xc+yd)*si1` at `pSrc[2*i2+1]`,
`(xa+yb-xc-yd)*co3 - (ya-xb-yc+xd)*si3` at `pSrc[2*i3]` and
`(ya-xb-yc+xd)*co3 + (xa+yb-xc-yd)*si3` at `pSrc[2*i3+1]` (and the documented sums at `i0`
and `i1`); a complete run of `arm_radix4_butterfly_inverse_f16` on `4 ^ m` samples passes
through buffers `bufs 0 = pSrc`, ..., `bufs (m - 1)` in which every butterfly of every
non-final stage has left these values, and the last stage turns `bufs (m - 1)` into the
result. -/
theorem inverse_butterfly_stores_conjugate_values {R : Type} [CommRing R] (m c fuel : Nat)
    (s : R) (pSrc pCoef : List R) (hm : 1 ≤ m) (hlen : pSrc.length = 2 * 4 ^ m)
    (h16 : 4 ^ m < 2 ^ 16) (hc : c * 4 ^ m < 2 ^ 16) (hfuel : 4 ^ m ≤ fuel)
    (htab : 6 * (4 ^ m / 4 - 1) * c + 1 < pCoef.length) :
    (∀ (l : List R) (n2 i0 : Nat) (w : Twiddle R) (xa ya xb yb xc yc xd yd : R),
      0 < n2 → l.length < 2 ^ 32 →
      l[2 * i0]? = some xa → l[2 * i0 + 1]? = some ya →
      l[2 * (i0 + n2)]? = some xb → l[2 * (i0 + n2) + 1]? = some yb →
      l[2 * (i0 + n2 + n2)]? = some xc → l[2 * (i0 + n2 + n2) + 1]? = some yc →
      l[2 * (i0 + n2 + n2 + n2)]? = some xd → l[2 * (i0 + n2 + n2 + n2) + 1]? = some yd →
      ∃ out, invButterfly l n2 i0 w = .ok out ∧
        out[2 * i0]? = some (xa + xb + xc + xd) ∧
        out[2 * i0 + 1]? = some (ya + yb + yc + yd) ∧
        out[2 * (i0 + n2)]? =
          some ((xa - xb + xc - xd) * w.co2 - (ya - yb + yc - yd) * w.si2) ∧
        out[2 * (i0 + n2) + 1]? =
          some ((ya - yb + yc - yd) * w.co2 + (xa - xb + xc - xd) * w.si2) ∧
        out[2 * (i0 + n2 + n2)]? =
          some ((xa - yb - xc + yd) * w.co1 - (ya + xb - yc - xd) * w.si1) ∧
        out[2 * (i0 + n2 + n2) + 1]? =
          some ((ya + xb - yc - xd) * w.co1 + (xa - yb - xc + yd) * w.si1) ∧
        out[2 * (i0 + n2 + n2 + n2)]? =
          some ((xa + yb - xc - yd) * w.co3 - (ya - xb - yc + xd) * w.si3) ∧
        out[2 * (i0 + n2 + n2 + n2) + 1]? =
          some ((ya - xb - yc + xd) * w.co3 + (xa + yb - xc - yd) * w.si3)) ∧
    ∃ (bufs : Nat → List R) (out : List R), bufs 0 = pSrc ∧
      StageTrace invStored pCoef c m (m - 1) bufs ∧
      arm_radix4_butterfly_inverse_f16 fuel pSrc (4 ^ m) pCoef c s = .ok out ∧
      RowOut (invLastVals s) 1 (4 ^ (m - 1)) 0 (bufs (m - 1)) out := by
  constructor
  · intro l n2 i0 w xa ya xb yb xc yc xd yd hn2 hl h0 h1 h2 h3 h4 h5 h6 h7
    have hq := getQuad?_of_reads l i0 n2 xa ya xb yb xc yc xd yd h0 h1 h2 h3 h4 h5 h6 h7
    refine ⟨_, invButterfly_eq l n2 i0 w _ hn2 hl hq, ?_⟩
    have hput := getQuad?_eq_some
      (getQuad?_putQuad_self l i0 n2
        (invVals w { x0 := xa, y0 := ya, x1 := xb, y1 := yb, x2 := xc, y2 := yc,
                     x3 := xd, y3 := yd })
        hn2 (lt_of_getQuad? hq))
    rw [invVals_eq_invStored] at hput ⊢
    exact hput
  · obtain ⟨bufs, out, h0, htr, hrun, hrow⟩ :=
      inv_trace m c fuel s pSrc pCoef hm hlen h16 hc hfuel htab
    exact ⟨bufs, out, h0,
      stageTrace_congr invVals invStored pCoef c m (m - 1) bufs invVals_eq_invStored htr,
      hrun, hrow⟩

/-- Witness for C12: a 16-point forward transform of `impulseAtFour` with the table
`0, 1, ..., 19`. -/
theorem forward_butterfly_writes_documented_values_witness :
    (impulseAtFour.length = 2 * 4 ^ 2 ∧ 4 ^ 2 < 2 ^ 16 ∧ 1 * 4 ^ 2 < 2 ^ 16 ∧ 4 ^ 2 ≤ 16 ∧
      6 * (4 ^ 2 / 4 - 1) * 1 + 1 < ((List.range 20).map Int.ofNat).length) ∧
    ∃ bufs : Nat → List ℤ, bufs 0 = impulseAtFour ∧
      arm_radix4_butterfly_f16 16 impulseAtFour (4 ^ 2) ((List.range 20).map Int.ofNat) 1
        = .ok (bufs 2) ∧
      StageTrace fwdDocumented ((List.range 20).map Int.ofNat) 1 2 2 bufs :=
  ⟨⟨by decide, by decide, by decide, by decide, by decide⟩,
    (forward_butterfly_writes_documented_values 2 1 16 impulseAtFour
      ((List.range 20).map Int.ofNat) (by decide) (by decide) (by decide) (by decide)
      (by decide)).2⟩

/-- Witness for C13 (as amended): a 16-point inverse transform of `impulseAtFour` with
the table `0, 1, ..., 19` and scale `1`. -/
theorem inverse_butterfly_stores_conjugate_values_witness :
    (1 ≤ 2 ∧ impulseAtFour.length = 2 * 4 ^ 2 ∧ 4 ^ 2 < 2 ^ 16 ∧ 1 * 4 ^ 2 < 2 ^ 16 ∧
      4 ^ 2 ≤ 16 ∧ 6 * (4 ^ 2 / 4 - 1) * 1 + 1 < ((List.range 20).map Int.ofNat).length) ∧
    ∃ (bufs : Nat → List ℤ) (out : List ℤ), bufs 0 = impulseAtFour ∧
      StageTrace invStored ((List.range 20).map Int.ofNat) 1 2 (2 - 1) bufs ∧
      arm_radix4_butterfly_inverse_f16 16 impulseAtFour (4 ^ 2)
        ((List.range 20).map Int.ofNat) 1 1 = .ok out ∧
      RowOut (invLastVals 1) 1 (4 ^ (2 - 1)) 0 (bufs (2 - 1)) out :=
  ⟨⟨by decide, by decide, by decide, by decide, by decide, by decide⟩,
    (inverse_butterfly_stores_conjugate_values 2 1 16 (1 : ℤ) impulseAtFour
      ((List.range 20).map Int.ofNat) (by decide) (by decide) (by decide) (by decide)
      (by decide) (by decide)).2⟩

end CmsisDsp

namespace Rtx

/-! ## Memory pool -/

theorem poolOk_init (mp_info : os_mp_info_t) (block_count block_size block_mem : Nat)
    (h : (osRtxMemoryPoolInit mp_info block_count block_size block_mem).1 = 1) :
    PoolOk (osRtxMemoryPoolInit mp_info block_count block_size block_mem).2 := by
  unfold osRtxMemoryPoolInit at h ⊢
  by_cases hc : block_count = 0 ∨ block_size = 0 ∨ block_mem = 0
  · rw [if_pos hc] at h
    exact absurd h (by simp)
  · rw [if_neg hc]
    have hcnt : 0 < block_count := by omega
    have hsz : 0 < block_size := by omega
    have hpos : 0 < block_count * block_size := Nat.mul_pos hcnt hsz
    refine ⟨hcnt, ?_, ?_⟩
    · intro b hb
      simp only [Option.some.injEq] at hb
      subst hb
      exact ⟨le_refl _, by simp only; omega⟩
    · intro a b ha _ hl
      simp only at hl ha
      split at hl
      · rename_i hcond
        obtain ⟨h1, h2, h3⟩ := hcond
        simp only [Option.some.injEq] at hl
        subst hl
        have hdm := Nat.div_add_mod (a - block_mem) block_size
        rw [h2, Nat.add_zero] at hdm
        have hmul : block_size * ((a - block_mem) / block_size + 1) ≤
            block_size * (block_count - 1) := Nat.mul_le_mul_left _ (by omega)
        have hsplit : block_count * block_size = block_size * (block_count - 1) + block_size := by
          have : block_count = (block_count - 1) + 1 := by omega
          conv_lhs => rw [this]
          ring
        have hexp : block_size * ((a - block_mem) / block_size + 1) =
            block_size * ((a - block_mem) / block_size) + block_size := by ring
        refine ⟨by simp only; omega, ?_⟩
        simp only
        omega
      · exact Option.noConfusion hl

theorem poolOk_alloc (mp_info : os_mp_info_t) (h : PoolOk mp_info) :
    PoolOk (osRtxMemoryPoolAlloc mp_info).2 := by
  unfold osRtxMemoryPoolAlloc
  cases hf : mp_info.block_free with
  | none => exact h
  | some block =>
    obtain ⟨h0, h1, h2⟩ := h
    have hb := h1 block hf
    exact ⟨h0, fun b hb' => h2 block b hb.1 hb.2 hb', h2⟩

theorem poolOk_free (mp_info : os_mp_info_t) (block : Nat) (h : PoolOk mp_info) :
    PoolOk (osRtxMemoryPoolFree mp_info block).2 := by
  unfold osRtxMemoryPoolFree
  by_cases hc : block < mp_info.block_base ∨ mp_info.block_lim ≤ block
  · rw [if_pos hc]
    exact h
  · rw [if_neg hc]
    obtain ⟨h0, h1, h2⟩ := h
    refine ⟨h0, ?_, ?_⟩
    · intro b hb
      simp only [Option.some.injEq] at hb
      subst hb
      exact ⟨by simp only; omega, by simp only; omega⟩
    · intro a b ha hlim hl
      simp only at hl ha hlim ⊢
      by_cases e : a = block
      · subst e
        rw [Function.update_same] at hl
        exact h1 b hl
      · rw [Function.update_noteq e] at hl
        exact h2 a b ha hlim hl

theorem poolOk_of_initialised (mp_info : os_mp_info_t) (h : Initialised mp_info) :
    PoolOk mp_info := by
  induction h with
  | init mp cnt size mem h1 => exact poolOk_init mp cnt size mem h1
  | alloc mp _ ih => exact poolOk_alloc mp ih
  | free mp block _ ih => exact poolOk_free mp block ih

theorem head_of_freeBlocks_pos (mp_info : os_mp_info_t) (h : 0 < freeBlocks mp_info) :
    ∃ block, mp_info.block_free = some block := by
  unfold freeBlocks at h
  cases hf : mp_info.block_free with
  | some block => exact ⟨block, rfl⟩
  | none =>
    rw [hf] at h
    cases hm : mp_info.max_blocks with
    | zero => rw [hm] at h; simp [freeList] at h
    | succ n => rw [hm] at h; simp [freeList] at h

/-- C11: on every initialised pool with at least one free block, `osRtxMemoryPoolAlloc`
returns a block, `osRtxMemoryPoolFree` accepts that block, and afterwards the pool is in
the state it had before the allocation; in particular the number of free blocks (the
length of the free list) and the number of blocks outstanding are what they were. -/
theorem alloc_then_free_restores_free_count (mp_info : os_mp_info_t)
    (hinit : Initialised mp_info) (hfree : 0 < freeBlocks mp_info) :
    ∃ block, osRtxMemoryPoolAlloc mp_info =
        (some block,
          { mp_info with
            block_free := mp_info.link block
            used_blocks := mp_info.used_blocks + 1 }) ∧
      mp_info.block_free = some block ∧
      (osRtxMemoryPoolFree (osRtxMemoryPoolAlloc mp_info).2 block).1 = .osOK ∧
      (osRtxMemoryPoolFree (osRtxMemoryPoolAlloc mp_info).2 block).2 = mp_info ∧
      freeBlocks (osRtxMemoryPoolFree (osRtxMemoryPoolAlloc mp_info).2 block).2 =
        freeBlocks mp_info ∧
      (osRtxMemoryPoolFree (osRtxMemoryPoolAlloc mp_info).2 block).2.used_blocks =
        mp_info.used_blocks := by
  obtain ⟨block, hb⟩ := head_of_freeBlocks_pos mp_info hfree
  obtain ⟨_, hhead, _⟩ := poolOk_of_initialised mp_info hinit
  have hrange := hhead block hb
  have halloc : osRtxMemoryPoolAlloc mp_info =
      (some block,
        { mp_info with
          block_free := mp_info.link block
          used_blocks := mp_info.used_blocks + 1 }) := by
    unfold osRtxMemoryPoolAlloc
    rw [hb]
  have hback : osRtxMemoryPoolFree (osRtxMemoryPoolAlloc mp_info).2 block =
      (.osOK, mp_info) := by
    rw [halloc]
    unfold osRtxMemoryPoolFree
    rw [if_neg (by simp only; omega)]
    cases mp_info with
    | mk mx used size base lim head link =>
      simp only at hb
      simp only [Function.update_eq_self, Nat.add_sub_cancel, hb]
  refine ⟨block, halloc, hb, ?_, ?_, ?_, ?_⟩ <;> rw [hback]

theorem initialised_fourBlocks : Initialised fourBlocks :=
  Initialised.init noPool 4 16 4096 rfl

/-- Witness for C11: the pool of 4 blocks of 16 bytes has 4 free blocks, 3 after an
allocation, and 4 again after the block is freed. -/
theorem alloc_then_free_restores_free_count_witness :
    (Initialised fourBlocks ∧ 0 < freeBlocks fourBlocks) ∧
    freeBlocks fourBlocks = 4 ∧
    freeBlocks (osRtxMemoryPoolAlloc fourBlocks).2 = 3 ∧
    ∃ block, fourBlocks.block_free = some block ∧
      (osRtxMemoryPoolFree (osRtxMemoryPoolAlloc fourBlocks).2 block).1 = .osOK ∧
      freeBlocks (osRtxMemoryPoolFree (osRtxMemoryPoolAlloc fourBlocks).2 block).2 =
        freeBlocks fourBlocks :=
  ⟨⟨initialised_fourBlocks, by decide⟩, by decide, by decide,
    (alloc_then_free_restores_free_count fourBlocks initialised_fourBlocks (by decide)).elim
      (fun block h => ⟨block, h.2.1, h.2.2.1, h.2.2.2.2.1⟩)⟩

end Rtx
